import Mathlib

/-!
Verification of the moth reactive-notification engine.

This file gives a shallow embedding, in Lean 4, of the core of the moth
reactive library (src/Queue.mjs, src/Subscriber.mjs, src/AutoQueue.mjs,
src/scheduler/Scheduler.mjs) and proves, or refutes, the behavioural
claims made by the specification.

JavaScript numbers holding the call counters are modelled as Int with the
explicit wrap at Number.MAX_SAFE_INTEGER performed by the source; object
identity is modelled by Nat identifiers; JS mutable state is passed
explicitly; loops whose termination depends on run-time data take a fuel
parameter and return Option.
-/

namespace Moth

/-! ## Call counters and the link dirty protocol

Source: src/Queue.mjs lines 30-36 (Queue.calls / Queue.called) and
src/Subscriber.mjs lines 8-44 (Link) and 89-94 (Subscriber.clean). -/

/-- Number.MAX_SAFE_INTEGER. -/
def maxSafe : Int := 2 ^ 53 - 1

/-- Number.MIN_SAFE_INTEGER. -/
def minSafe : Int := -(2 ^ 53 - 1)

/-- The increment-with-wrap performed by both Queue.called
(`if (++this.calls === Number.MAX_SAFE_INTEGER) this.calls = Number.MIN_SAFE_INTEGER+1`)
and Subscriber.clean (identical code on the subscriber counter). -/
def bumpCalls (c : Int) : Int :=
  if c + 1 = maxSafe then minSafe + 1 else c + 1

/-- Link dirty-flag store: `this._dirty = this.subscriber.calls - !toggle`
(src/Subscriber.mjs line 28); JS coerces `!toggle` to 0 for true, 1 for false. -/
def setDirty (calls : Int) (toggle : Bool) : Int :=
  calls - (if toggle then 0 else 1)

/-- Link dirty-flag read: `this._dirty === this.subscriber.calls`
(src/Subscriber.mjs line 32). -/
def isDirty (stamp calls : Int) : Bool :=
  stamp = calls

/-- The range of values the wrapped counters inhabit: they start at 0 and
never attain MAX_SAFE_INTEGER (the wrap replaces it by MIN_SAFE_INTEGER+1). -/
def counterInRange (c : Int) : Prop :=
  minSafe + 1 ≤ c ∧ c ≤ maxSafe - 1

theorem bumpCalls_ne_self {c : Int} (h : counterInRange c) : bumpCalls c ≠ c := by
  rcases h with ⟨h1, h2⟩
  simp only [minSafe, maxSafe] at h1 h2
  unfold bumpCalls
  split
  case isTrue hw =>
    simp only [maxSafe, minSafe] at hw ⊢
    omega
  case isFalse hw =>
    omega

theorem bumpCalls_ne_pred {c : Int} (h : counterInRange c) : bumpCalls c ≠ c - 1 := by
  rcases h with ⟨h1, h2⟩
  simp only [minSafe, maxSafe] at h1 h2
  unfold bumpCalls
  split
  case isTrue hw =>
    simp only [maxSafe, minSafe] at hw ⊢
    omega
  case isFalse hw =>
    omega

theorem bumpCalls_mem_range {c : Int} (h : counterInRange c) :
    counterInRange (bumpCalls c) := by
  rcases h with ⟨h1, h2⟩
  simp only [minSafe, maxSafe] at h1 h2
  unfold bumpCalls counterInRange
  split
  case isTrue hw =>
    simp only [maxSafe, minSafe] at hw ⊢
    omega
  case isFalse hw =>
    simp only [maxSafe, minSafe] at hw ⊢
    omega

/-- C8: The global call counter (Queue.called) and every subscriber call
counter (Subscriber.clean) increment by one per notification event and wrap
from Number.MAX_SAFE_INTEGER to Number.MIN_SAFE_INTEGER + 1 (the counter
never rests at MAX_SAFE_INTEGER: the increment that reaches it replaces it by
MIN_SAFE_INTEGER + 1).  Across such an increment, including the wrapping one,
no link is falsely dirty or falsely clean: a link is dirty exactly when its
stored integer equals its subscriber's current counter, setting dirty stores
the counter, clearing stores counter − 1, and incrementing the counter cleans
every link that was written at the current counter value. -/
theorem counter_wrap_safe (c : Int) (h : counterInRange c) :
    (bumpCalls c = if c = maxSafe - 1 then minSafe + 1 else c + 1)
    ∧ (isDirty (setDirty c true) c = true)
    ∧ (isDirty (setDirty c false) c = false)
    ∧ (isDirty (setDirty c true) (bumpCalls c) = false)
    ∧ (isDirty (setDirty c false) (bumpCalls c) = false)
    ∧ counterInRange (bumpCalls c) := by
  refine ⟨?_, ?_, ?_, ?_, ?_, bumpCalls_mem_range h⟩
  · unfold bumpCalls
    rcases h with ⟨h1, h2⟩
    by_cases hc : c = maxSafe - 1
    · simp [hc]
    · have : ¬ (c + 1 = maxSafe) := by omega
      simp [this, hc]
  · simp [isDirty, setDirty]
  · simp [isDirty, setDirty]
  · simp only [isDirty, setDirty, if_pos trivial, sub_zero, decide_eq_false_iff_not]
    intro he
    exact bumpCalls_ne_self h he.symm
  · simp only [isDirty, setDirty, decide_eq_false_iff_not]
    intro he
    apply bumpCalls_ne_pred h
    simpa using he.symm

/-- Witness for counter_wrap_safe at the wrap point c = MAX_SAFE_INTEGER − 1. -/
theorem counter_wrap_safe_witness :
    counterInRange (maxSafe - 1)
    ∧ (bumpCalls (maxSafe - 1)
        = if maxSafe - 1 = maxSafe - 1 then minSafe + 1 else maxSafe - 1 + 1)
    ∧ (isDirty (setDirty (maxSafe - 1) true) (bumpCalls (maxSafe - 1)) = false) := by
  have hr : counterInRange (maxSafe - 1) := by
    constructor
    · simp only [minSafe, maxSafe]
      norm_num
    · exact le_refl _
  have h := counter_wrap_safe (maxSafe - 1) hr
  exact ⟨hr, h.1, h.2.2.2.1⟩

/-! ## The synchronous-notification iterator

Source: src/AutoQueue.mjs lines 140-155 (SynchronousIterator) and the sync
phase of Reactive.notify (lines 278-302) together with the sync branch of
Reactive.unsubscribe (lines 431-436). -/

/-- Iterator for the recursive synchronous notification loop.
`i` is the cursor (index currently being visited by the loop) and `stop`
the exclusive upper bound. -/
structure SyncIter where
  i : Int
  stop : Int
deriving Repr, DecidableEq

/-- `reset(i=-1, stop=-2)`: the sentinel meaning no iteration is active. -/
def SyncIter.reset : SyncIter := ⟨-1, -2⟩

/-- `reset(i, stop)` with explicit arguments, as used by Reactive.notify. -/
def SyncIter.resetTo (i stop : Int) : SyncIter := ⟨i, stop⟩

/-- SynchronousIterator.unsubscribe(i) (src/AutoQueue.mjs lines 150-154):
`this.stop--; if (this.i >= i) this.i--;`. -/
def SyncIter.unsubscribe (it : SyncIter) (k : Int) : SyncIter :=
  { stop := it.stop - 1
    i := if it.i ≥ k then it.i - 1 else it.i }

theorem syncIter_unsubscribe_stop (it : SyncIter) (k : Int) :
    (it.unsubscribe k).stop = it.stop - 1 := rfl

theorem syncIter_unsubscribe_i (it : SyncIter) (k : Int) :
    (it.unsubscribe k).i = if it.i ≥ k then it.i - 1 else it.i := rfl

/-- The residual loop of Reactive.notify (src/AutoQueue.mjs lines 294-298):
`for (; sync_iter.i < sync_iter.stop; sync_iter.i++){ link = sync[sync_iter.i]; ... }`.
We collect the links the loop visits (fetches), in order.  A negative cursor
or an out-of-range fetch would read undefined in JS; the model stops there.
The loop terminates in at most stop iterations, so any fuel of at least
(stop − i) is exact. -/
def syncVisits (links : List α) (i stop : Int) : Nat → List α
  | 0 => []
  | fuel + 1 =>
    if i < stop then
      if h : 0 ≤ i ∧ i.toNat < links.length then
        links.get ⟨i.toNat, h.2⟩ :: syncVisits links (i + 1) stop fuel
      else []
    else []

/-- The half-open window of a list between two indices: the pending portion
of a sync-link list between a cursor and the stop bound. -/
def window (l : List α) (a b : Nat) : List α :=
  (l.drop a).take (b - a)

/-- One removal during the notification loop: the iterator is at cursor p
(currently visiting index p, having already visited s..p−1), the link at
index r is spliced out of the list (Reactive.unsubscribe, src/AutoQueue.mjs
lines 431-435) and the shared iterator adjusted by
SynchronousIterator.unsubscribe; then the loop increments the cursor and
continues to the adjusted stop. -/
def notifyLoopWithRemoval (links : List α) (s e p r : Nat) : List α :=
  let fuel := links.length + 1
  let firstPart := syncVisits links s ((p : Int) + 1) fuel
  let it := SyncIter.unsubscribe (SyncIter.resetTo p e) r
  let rest := links.eraseIdx r
  firstPart ++ syncVisits rest (it.i + 1) it.stop fuel

theorem syncVisits_window (links : List α) :
    ∀ (fuel a b : Nat), b ≤ links.length → b - a ≤ fuel →
      syncVisits links (a : Int) (b : Int) fuel = window links a b := by
  intro fuel
  induction fuel with
  | zero =>
    intro a b hb hf
    have hba : b ≤ a := by omega
    have : ¬ ((a : Int) < (b : Int)) := by exact_mod_cast Nat.not_lt.mpr hba
    simp [syncVisits, this, window, Nat.sub_eq_zero_of_le hba]
  | succ f ih =>
    intro a b hb hf
    by_cases hab : a < b
    · have hai : (a : Int) < (b : Int) := by exact_mod_cast hab
      have halen : a < links.length := lt_of_lt_of_le hab hb
      have hcond : 0 ≤ (a : Int) ∧ (a : Int).toNat < links.length := by
        constructor
        · exact Int.ofNat_nonneg a
        · simpa using halen
      have hsucc : (a : Int) + 1 = ((a + 1 : Nat) : Int) := by push_cast; ring
      have hrec := ih (a + 1) b hb (by omega)
      simp only [syncVisits, if_pos hai, dif_pos hcond, hsucc, hrec]
      have hdrop : links.drop a = links.get ⟨a, halen⟩ :: links.drop (a + 1) := by
        simpa using List.drop_eq_getElem_cons halen
      have hwin : window links a b = links.get ⟨a, halen⟩ :: window links (a + 1) b := by
        unfold window
        rw [hdrop]
        have : b - a = (b - (a + 1)) + 1 := by omega
        rw [this, List.take_succ_cons]
      rw [hwin]
      congr 1
    · have hba : b ≤ a := Nat.not_lt.mp hab
      have : ¬ ((a : Int) < (b : Int)) := by exact_mod_cast Nat.not_lt.mpr hba
      simp [syncVisits, this, window, Nat.sub_eq_zero_of_le hba]

theorem drop_eraseIdx_of_le {l : List α} {r a : Nat} (hra : r ≤ a)
    (hrl : r ≤ l.length) : (l.eraseIdx r).drop a = l.drop (a + 1) := by
  rw [List.eraseIdx_eq_take_drop_succ, List.drop_append_eq_append_drop]
  have hlt : (l.take r).length = r := List.length_take_of_le hrl
  have h1 : (l.take r).drop a = [] := by
    apply List.drop_eq_nil_of_le
    omega
  rw [h1, hlt]
  simp only [List.nil_append, List.drop_drop]
  congr 1
  omega

theorem window_eraseIdx_le {l : List α} {r a b : Nat} (hra : r ≤ a)
    (hrl : r ≤ l.length) : window (l.eraseIdx r) a (b - 1) = window l (a + 1) b := by
  unfold window
  rw [drop_eraseIdx_of_le hra hrl]
  congr 1
  omega

theorem window_eraseIdx_gt {l : List α} {r a b : Nat} (har : a ≤ r) (hrb : r < b)
    (hbl : b ≤ l.length) :
    window (l.eraseIdx r) a (b - 1) = (window l a b).eraseIdx (r - a) := by
  have hrl : r < l.length := lt_of_lt_of_le hrb hbl
  unfold window
  rw [List.eraseIdx_eq_take_drop_succ, List.drop_append_eq_append_drop]
  have hlt : (l.take r).length = r := List.length_take_of_le (le_of_lt hrl)
  rw [hlt, List.drop_take]
  have har0 : a - r = 0 := by omega
  rw [har0, List.drop_zero, List.take_append_eq_append_take]
  have hlen2 : (List.take (r - a) (l.drop a)).length = r - a := by
    rw [List.length_take, List.length_drop]
    omega
  rw [List.take_take, hlen2]
  have hmin : min (b - 1 - a) (r - a) = r - a := by omega
  rw [hmin]
  rw [List.eraseIdx_eq_take_drop_succ, List.take_take, List.drop_take]
  have hmin2 : min (r - a) (b - a) = r - a := by omega
  rw [hmin2]
  congr 1
  rw [List.drop_drop]
  congr 1
  · omega
  · congr 1
    omega

/-- C7 (amended): if, while the residual synchronous-notification loop of a
cell is visiting index p with iteration window [s, e), the sync link at index
r with r < e is removed, then the shared iterator is adjusted — stop is
always decremented, and the cursor is decremented exactly when cursor ≥ r
(equivalently, when the next position cursor + 1 exceeds r) — so that the
removed link is not visited after its removal and every remaining pending
sync link is still visited exactly once, in order.  (For r ≥ e, a link
subscribed during the in-flight notification, the unconditional stop
decrement instead skips the last pending link; see the counterexample.) -/
theorem sync_unsubscribe_during_notify (links : List α) (s e p r : Nat)
    (hsp : s ≤ p) (hpe : p < e) (hel : e ≤ links.length) (hre : r < e) :
    ((SyncIter.resetTo p e).unsubscribe r).stop = (e : Int) - 1
    ∧ ((SyncIter.resetTo p e).unsubscribe r).i
        = (if r ≤ p then (p : Int) - 1 else (p : Int))
    ∧ notifyLoopWithRemoval links s e p r
        = window links s (p + 1) ++
          (if r ≤ p then window links (p + 1) e
           else (window links (p + 1) e).eraseIdx (r - (p + 1))) := by
  have hrl : r < links.length := lt_of_lt_of_le hre hel
  have hi : ((SyncIter.resetTo p e).unsubscribe r).i
      = (if r ≤ p then (p : Int) - 1 else (p : Int)) := by
    unfold SyncIter.unsubscribe SyncIter.resetTo
    by_cases hc : r ≤ p
    · have : (p : Int) ≥ (r : Int) := by exact_mod_cast hc
      simp [this, hc]
    · have : ¬ ((p : Int) ≥ (r : Int)) := by exact_mod_cast hc
      simp [this, hc]
  refine ⟨rfl, hi, ?_⟩
  simp only [notifyLoopWithRemoval]
  have hfirst : syncVisits links (s : Int) ((p : Int) + 1) (links.length + 1)
      = window links s (p + 1) := by
    have : ((p : Int) + 1) = ((p + 1 : Nat) : Int) := by push_cast; ring
    rw [this]
    exact syncVisits_window links (links.length + 1) s (p + 1)
      (by omega) (by omega)
  have hstop : ((SyncIter.resetTo p e).unsubscribe r).stop
      = (((e - 1 : Nat)) : Int) := by
    show (e : Int) - 1 = ((e - 1 : Nat) : Int)
    omega
  have hlen : (links.eraseIdx r).length = links.length - 1 :=
    List.length_eraseIdx_of_lt hrl
  by_cases hc : r ≤ p
  · have hi1 : ((SyncIter.resetTo p e).unsubscribe r).i + 1 = ((p : Nat) : Int) := by
      rw [hi, if_pos hc]
      ring
    rw [hi1, hstop, hfirst]
    have hrest : syncVisits (links.eraseIdx r) ((p : Nat) : Int) ((e - 1 : Nat) : Int)
        (links.length + 1) = window (links.eraseIdx r) p (e - 1) := by
      apply syncVisits_window
      · omega
      · omega
    rw [hrest, window_eraseIdx_le hc (le_of_lt hrl), if_pos hc]
  · have hpr : p + 1 ≤ r := by omega
    have hi1 : ((SyncIter.resetTo p e).unsubscribe r).i + 1 = ((p + 1 : Nat) : Int) := by
      rw [hi, if_neg hc]
      push_cast
      ring
    rw [hi1, hstop, hfirst]
    have hrest : syncVisits (links.eraseIdx r) ((p + 1 : Nat) : Int) ((e - 1 : Nat) : Int)
        (links.length + 1) = window (links.eraseIdx r) (p + 1) (e - 1) := by
      apply syncVisits_window
      · omega
      · omega
    rw [hrest, window_eraseIdx_gt hpr hre hel, if_neg hc]

/-- Witness for sync_unsubscribe_during_notify: four sync links, the loop is
visiting index 1 of window [1, 4), and the link at index 2 is removed. -/
theorem sync_unsubscribe_during_notify_witness :
    (1 ≤ 1 ∧ 1 < 4 ∧ 4 ≤ [10, 20, 30, 40].length ∧ 2 < 4)
    ∧ notifyLoopWithRemoval [10, 20, 30, 40] 1 4 1 2
        = window [10, 20, 30, 40] 1 2 ++
          (window [10, 20, 30, 40] 2 4).eraseIdx 0 := by
  have h := sync_unsubscribe_during_notify [10, 20, 30, 40] 1 4 1 2
    (by decide) (by decide) (by decide) (by decide)
  refine ⟨by decide, ?_⟩
  have h3 := h.2.2
  simpa using h3

/-- C7 counterexample for the claim as stated: with four sync links and the
loop of window [1, 3) visiting index 1, removing the link at index 3 (a link
beyond stop, subscribed during the in-flight notification) decrements stop
and thereby skips the still-pending link at index 2: the loop visits only the
link 1, and the pending link 2 is never visited even though it was not the
removed link. -/
theorem sync_unsubscribe_skips_pending_counterexample :
    notifyLoopWithRemoval [0, 1, 2, 3] 1 3 1 3 = [1]
    ∧ (2 : Nat) ∈ window [0, 1, 2, 3] 2 3
    ∧ (2 : Nat) ∉ notifyLoopWithRemoval [0, 1, 2, 3] 1 3 1 3 := by
  decide

/-! ## The recursive queue drain

Source: src/Queue.mjs lines 111-144 (Queue.flush / Queue.notify) and lines
231-254 (RecursiveQueue.iterate).  The generator that iterate returns is
modelled by its state: the in-batch position i and the current batch_size.
`env` maps the sequence number of a subscriber call (the length of the trace
when the call happens) to the subscribers that this call recursively
enqueues; each such enqueue is a push plus an increment of the queued count
(the body of Queue.enqueue below the queued_max threshold, while sid is
truthy mid-drain). -/

structure RQState where
  /-- Queue#subscribers. -/
  subs : List Nat
  /-- Queue#queued (count of unnotified subscribers). -/
  queuedN : Int
  /-- Queue#sid; some true models a truthy scheduler id. -/
  sid : Option Bool
  /-- Whether Queue#unschedule is implemented by this queue flavor. -/
  cancellable : Bool
  /-- Queue#notifying: the in-flight generator state (i, batch_size). -/
  gen : Option (Nat × Nat)
  /-- Ghost: number of Queue.called events. -/
  calls : Nat
  /-- Ghost: number of unschedule invocations. -/
  cancels : Nat
  /-- Ghost: subscriber call events, in order. -/
  trace : List Nat
deriving Repr, DecidableEq

/-- One yield of RecursiveQueue.iterate at position i of the current batch:
the notify loop calls subscribers[i] (which may recursively enqueue), then
the generator resumes and decrements the queued count. -/
def rqYieldStep (env : Nat → List Nat) (st : RQState) (i b : Nat) : RQState :=
  match st.subs.get? i with
  | none => st
  | some s =>
    { st with
      trace := st.trace ++ [s]
      subs := st.subs ++ env st.trace.length
      queuedN := st.queuedN + ((env st.trace.length).length : Int) - 1
      gen := some (i + 1, b) }

/-- The batch boundary of RecursiveQueue.iterate: if nothing was appended
during the batch, truncate and finish (the trailing `this.sid = null` of
iterate and the `this.notifying = null` of notify); otherwise drop the
first batch_size entries, continue with the new batch, and bump the global
call counter. -/
def rqBoundaryStep (st : RQState) (b : Nat) : RQState :=
  let nb := st.subs.length - b
  if nb = 0 then
    { st with subs := [], gen := none, sid := none }
  else
    { st with subs := st.subs.drop b, gen := some (0, nb), calls := st.calls + 1 }

/-- Drive the generator until it finishes. -/
def runGen (env : Nat → List Nat) : Nat → RQState → Option RQState
  | 0, _ => none
  | fuel + 1, st =>
    match st.gen with
    | none => some st
    | some (i, b) =>
      if i < b then runGen env fuel (rqYieldStep env st i b)
      else runGen env fuel (rqBoundaryStep st b)

/-- Queue.notify: bump the global counter, create the generator if none is
in flight, and run it; a re-entrant notify resumes the in-flight generator
(the for-of loop iterates this.notifying by value). -/
def rqNotify (env : Nat → List Nat) (fuel : Nat) (st : RQState) : Option RQState :=
  match st.gen with
  | none =>
    runGen env fuel
      { st with calls := st.calls + 1, gen := some (0, st.subs.length) }
  | some _ => runGen env fuel { st with calls := st.calls + 1 }

/-- Queue.flush(recursive): if not currently notifying, pretend a scheduled
call (sid := true) or cancel the real one when unschedule exists, then
notify; if mid-drain, notify only when recursive is true. -/
def rqFlush (env : Nat → List Nat) (fuel : Nat) (recursive : Bool)
    (st : RQState) : Option RQState :=
  match st.gen with
  | none =>
    let st1 :=
      if st.sid = none then { st with sid := some true }
      else if st.cancellable then { st with cancels := st.cancels + 1 }
      else st
    rqNotify env fuel st1
  | some _ =>
    if recursive then rqNotify env fuel st
    else some st

/-- With no recursive enqueues, a running generator at position i of a batch
covering the whole list drains the remaining entries in order, exactly once
each, then truncates and clears sid. -/
theorem runGen_noappend :
    ∀ (fuel : Nat) (st : RQState) (i b : Nat),
      st.gen = some (i, b) → b = st.subs.length → i ≤ b → b - i + 2 ≤ fuel →
      runGen (fun _ => []) fuel st
        = some { st with
            subs := []
            gen := none
            sid := none
            trace := st.trace ++ st.subs.drop i
            queuedN := st.queuedN - ((b - i : Nat) : Int) } := by
  intro fuel
  induction fuel with
  | zero =>
    intro st i b hg hb hi hf
    omega
  | succ f ih =>
    intro st i b hg hb hi hf
    unfold runGen
    rw [hg]
    by_cases hib : i < b
    · simp only [if_pos hib]
      have hilen : i < st.subs.length := by omega
      have hget : st.subs.get? i = some (st.subs.get ⟨i, hilen⟩) := List.get?_eq_get hilen
      have hstep : rqYieldStep (fun _ => []) st i b
          = { st with
              trace := st.trace ++ [st.subs.get ⟨i, hilen⟩]
              queuedN := st.queuedN - 1
              gen := some (i + 1, b) } := by
        unfold rqYieldStep
        rw [hget]
        simp
      rw [hstep]
      rw [ih { st with
              trace := st.trace ++ [st.subs.get ⟨i, hilen⟩]
              queuedN := st.queuedN - 1
              gen := some (i + 1, b) } (i + 1) b rfl hb (by omega) (by omega)]
      have htr : (st.trace ++ [st.subs.get ⟨i, hilen⟩]) ++ st.subs.drop (i + 1)
          = st.trace ++ st.subs.drop i := by
        rw [List.append_assoc]
        congr 1
        rw [List.singleton_append]
        have := List.drop_eq_getElem_cons hilen
        simpa using this.symm
      have hq : st.queuedN - 1 - ((b - (i + 1) : Nat) : Int)
          = st.queuedN - ((b - i : Nat) : Int) := by
        have h1 : ((b - (i + 1) : Nat) : Int) = (b : Int) - (i : Int) - 1 := by omega
        have h2 : ((b - i : Nat) : Int) = (b : Int) - (i : Int) := by omega
        rw [h1, h2]
        ring
      simp [htr, hq]
    · simp only [if_neg hib]
      have hieq : i = b := by omega
      have hnb : st.subs.length - b = 0 := by omega
      have hstep : rqBoundaryStep st b
          = { st with subs := [], gen := none, sid := none } := by
        unfold rqBoundaryStep
        simp [hnb]
      rw [hstep]
      match f, hf with
      | g + 1, _ =>
        unfold runGen
        simp only []
        have hdropnil : st.subs.drop i = [] := by
          apply List.drop_eq_nil_of_le
          omega
        have hbi : b - i = 0 := by omega
        simp [hdropnil, hbi]

/-- C3: behaviour of Queue.flush(recursive).  When the queue is not draining,
any outstanding backend scheduling is cancelled (the unschedule hook runs
exactly when a scheduling was outstanding and the queue supports
cancellation) and the queue drains immediately.  When flush is re-entered
from inside a subscriber callback while the same queue is mid-drain (the
generator is at position i of the current batch), recursive = true resumes
the very same in-flight iteration at its current position — the subscribers
already notified in this drain (the batch prefix before i) are not notified
again and every subscriber still pending is notified exactly once — and the
outer loop then finds the exhausted generator and adds nothing; with
recursive = false the re-entrant call returns without doing anything. -/
theorem queue_flush_semantics (st : RQState) (fuel : Nat)
    (hfuel : st.subs.length + 2 ≤ fuel) :
    (st.gen = none → ∀ r : Bool,
      rqFlush (fun _ => []) fuel r st
        = some { st with
            subs := []
            gen := none
            sid := none
            trace := st.trace ++ st.subs
            queuedN := st.queuedN - (st.subs.length : Int)
            calls := st.calls + 1
            cancels := st.cancels
              + (if st.sid ≠ none ∧ st.cancellable then 1 else 0) })
    ∧ (∀ i b, st.gen = some (i, b) → b = st.subs.length → i ≤ b →
      (rqFlush (fun _ => []) fuel false st = some st)
      ∧ (rqFlush (fun _ => []) fuel true st
          = some { st with
              subs := []
              gen := none
              sid := none
              trace := st.trace ++ st.subs.drop i
              queuedN := st.queuedN - ((b - i : Nat) : Int)
              calls := st.calls + 1 })
      ∧ (runGen (fun _ => []) 1 { st with
              subs := []
              gen := none
              sid := none
              trace := st.trace ++ st.subs.drop i
              queuedN := st.queuedN - ((b - i : Nat) : Int)
              calls := st.calls + 1 }
          = some { st with
              subs := []
              gen := none
              sid := none
              trace := st.trace ++ st.subs.drop i
              queuedN := st.queuedN - ((b - i : Nat) : Int)
              calls := st.calls + 1 })) := by
  have hnotify : ∀ (st1 : RQState), st1.gen = none →
      st1.subs.length + 2 ≤ fuel →
      rqNotify (fun _ => []) fuel st1
        = some { st1 with
            subs := []
            gen := none
            sid := none
            trace := st1.trace ++ st1.subs
            queuedN := st1.queuedN - (st1.subs.length : Int)
            calls := st1.calls + 1 } := by
    intro st1 hg1 hf1
    unfold rqNotify
    rw [hg1]
    rw [runGen_noappend fuel
      { st1 with calls := st1.calls + 1, gen := some (0, st1.subs.length) }
      0 st1.subs.length rfl rfl (by omega) (by omega)]
    simp
  constructor
  · intro hg r
    unfold rqFlush
    rw [hg]
    by_cases hsid : st.sid = none
    · simp only [if_pos hsid]
      rw [hnotify { st with sid := some true, gen := none } rfl
        (by simpa using hfuel)]
      have hcz : (if st.sid ≠ none ∧ st.cancellable then 1 else 0) = 0 := by
        simp [hsid]
      simp [hcz]
    · simp only [if_neg hsid]
      by_cases hcanc : st.cancellable
      · simp only [if_pos hcanc]
        rw [hnotify { st with cancels := st.cancels + 1, gen := none } rfl
          (by simpa using hfuel)]
        have hcz : (if st.sid ≠ none ∧ st.cancellable then 1 else 0) = 1 := by
          simp [hsid, hcanc]
        simp [hcz]
      · simp only [if_neg hcanc]
        rw [hnotify st hg hfuel]
        have hcz : (if st.sid ≠ none ∧ st.cancellable then 1 else 0) = 0 := by
          simp [hcanc]
        simp [hcz]
  · intro i b hg hb hi
    refine ⟨?_, ?_, ?_⟩
    · unfold rqFlush
      rw [hg]
      simp
    · unfold rqFlush
      rw [hg]
      unfold rqNotify
      rw [hg]
      simp only [if_true]
      rw [runGen_noappend fuel { st with gen := some (i, b), calls := st.calls + 1 }
        i b rfl hb hi (by omega)]
    · unfold runGen
      simp


/-- Witness state for queue_flush_semantics: two subscribers, the drain is
mid-batch at position 1 (subscriber 4 already notified). -/
def rqWitState : RQState :=
  { subs := [4, 6], queuedN := 2, sid := some true, cancellable := true
    gen := some (1, 2), calls := 1, cancels := 0, trace := [4] }

/-- Witness for queue_flush_semantics at rqWitState. -/
theorem queue_flush_semantics_witness :
    rqWitState.subs.length + 2 ≤ 4
    ∧ rqFlush (fun _ => []) 4 false rqWitState = some rqWitState
    ∧ rqFlush (fun _ => []) 4 true rqWitState
        = some { rqWitState with
            subs := []
            gen := none
            sid := none
            trace := rqWitState.trace ++ rqWitState.subs.drop 1
            queuedN := rqWitState.queuedN - ((2 - 1 : Nat) : Int)
            calls := rqWitState.calls + 1 } := by
  have h := queue_flush_semantics rqWitState 4 (by decide)
  have h2 := h.2 1 2 rfl rfl (by decide)
  exact ⟨by decide, h2.1, h2.2.1⟩

/-- The full stream of subscribers a drain handles: the initial pending list
followed by everything the successive calls recursively enqueue. -/
def rqStream (p0 : List Nat) (env : Nat → List Nat) (m : Nat) : List Nat :=
  p0 ++ (List.range m).flatMap env

theorem rqStream_succ (p0 : List Nat) (env : Nat → List Nat) (m : Nat) :
    rqStream p0 env (m + 1) = rqStream p0 env m ++ env m := by
  unfold rqStream
  rw [List.range_succ, List.flatMap_append, List.append_assoc]
  simp

theorem rqStream_take_succ (p0 : List Nat) (env : Nat → List Nat) (m k : Nat)
    (h : k ≤ (rqStream p0 env m).length) :
    (rqStream p0 env (m + 1)).take k = (rqStream p0 env m).take k := by
  rw [rqStream_succ]
  exact List.take_append_of_le_length h

/-- Invariant-carrying characterisation of a running RecursiveQueue drain:
starting from a generator position consistent with having already performed
m calls of the stream (d entries dropped so far), a successful run finishes
with an empty subscriber list and a trace that is exactly the full stream of
its own length. -/
theorem runGen_char (env : Nat → List Nat) (p0 : List Nat) :
    ∀ (fuel : Nat) (st : RQState) (i b d m : Nat),
      st.gen = some (i, b) →
      m = st.trace.length →
      st.trace = (rqStream p0 env m).take m →
      st.subs = (rqStream p0 env m).drop d →
      d + i = m →
      i ≤ b →
      d + b ≤ (rqStream p0 env m).length →
      ∀ st', runGen env fuel st = some st' →
        st'.subs = [] ∧ st'.gen = none ∧ st'.sid = none
        ∧ st'.trace = rqStream p0 env st'.trace.length
        ∧ st.calls ≤ st'.calls := by
  intro fuel
  induction fuel with
  | zero =>
    intro st i b d m hg hm ht hs hdi hib hdb st' hrun
    simp [runGen] at hrun
  | succ f ih =>
    intro st i b d m hg hm ht hs hdi hib hdb st' hrun0
    unfold runGen at hrun0
    rw [hg] at hrun0
    have hrun : (if i < b then runGen env f (rqYieldStep env st i b)
        else runGen env f (rqBoundaryStep st b)) = some st' := hrun0
    by_cases hilt : i < b
    · rw [if_pos hilt] at hrun
      have hmlt : m < (rqStream p0 env m).length := by omega
      have hget : st.subs.get? i = some ((rqStream p0 env m).get ⟨m, hmlt⟩) := by
        rw [hs]
        rw [List.get?_drop]
        have hdim : d + i = m := hdi
        rw [hdim]
        exact List.get?_eq_get hmlt
      have hstep : rqYieldStep env st i b
          = { st with
              trace := st.trace ++ [(rqStream p0 env m).get ⟨m, hmlt⟩]
              subs := st.subs ++ env st.trace.length
              queuedN := st.queuedN + ((env st.trace.length).length : Int) - 1
              gen := some (i + 1, b) } := by
        unfold rqYieldStep
        rw [hget]
      rw [hstep] at hrun
      refine (ih _ (i + 1) b d (m + 1) rfl ?_ ?_ ?_ (by omega) (by omega) ?_ st' hrun).imp
        id (fun hc => hc.imp id (fun hc2 => hc2.imp id (fun hc3 => hc3.imp id ?_)))
      · simp [← hm]
      · show st.trace ++ [(rqStream p0 env m).get ⟨m, hmlt⟩]
            = (rqStream p0 env (m + 1)).take (m + 1)
        rw [rqStream_take_succ p0 env m (m + 1) (by omega)]
        rw [List.take_succ, ht]
        have hofl : (rqStream p0 env m)[m]? = some ((rqStream p0 env m).get ⟨m, hmlt⟩) := by
          simp [List.getElem?_eq_getElem hmlt]
        rw [hofl]
        simp [List.take_take]
      · show st.subs ++ env st.trace.length = (rqStream p0 env (m + 1)).drop d
        rw [rqStream_succ, hs, ← hm]
        rw [List.drop_append_of_le_length (by omega)]
      · rw [rqStream_succ]
        simp only [List.length_append]
        omega
      · intro hcalls
        exact le_trans (le_refl st.calls) hcalls
    · rw [if_neg hilt] at hrun
      have hieq : i = b := by omega
      unfold rqBoundaryStep at hrun
      by_cases hnb : st.subs.length - b = 0
      · rw [hnb] at hrun
        simp only [if_pos rfl] at hrun
        match f, hrun with
        | g + 1, hrun =>
          have hrun2 : some { st with subs := [], gen := none, sid := none }
              = some st' := hrun
          have hst' : st' = { st with subs := [], gen := none, sid := none } :=
            (Option.some_inj.mp hrun2).symm
          subst hst'
          have hslen : st.subs.length = (rqStream p0 env m).length - d := by
            rw [hs, List.length_drop]
          have hmlen : m = (rqStream p0 env m).length := by omega
          refine ⟨rfl, rfl, rfl, ?_, le_refl _⟩
          show st.trace = rqStream p0 env st.trace.length
          have htl : st.trace.length = m := hm.symm
          rw [htl, ht]
          rw [← hmlen] at hmlen ⊢
          rw [List.take_of_length_le (by omega)]
      · rw [if_neg hnb] at hrun
        have hres := ih _ 0 (st.subs.length - b) (d + b) m rfl (by simpa using hm)
          (by simpa using ht) ?_ (by omega) (by omega) ?_ st' hrun
        · exact ⟨hres.1, hres.2.1, hres.2.2.1, hres.2.2.2.1,
            le_trans (Nat.le_succ _) hres.2.2.2.2⟩
        · show st.subs.drop b = (rqStream p0 env m).drop (d + b)
          rw [hs, List.drop_drop]
        · have hslen : st.subs.length = (rqStream p0 env m).length - d := by
            rw [hs, List.length_drop]
          omega

/-- C6: a RecursiveQueue drain proceeds in batches — iterate captures the
current pending length as batch_size, invokes exactly those subscribers in
FIFO order, then, if new subscribers were appended during the batch, drops
the first batch_size entries, makes the newly appended ones the next batch,
bumps the global call counter and loops, and otherwise truncates and exits
(rqYieldStep / rqBoundaryStep above are these exact mechanics).
Consequently every enqueue that happens during the drain is handled within
that same drain: a completed drain from an idle queue leaves the subscriber
list empty and its call trace is exactly the initial pending list followed
by everything the successive calls recursively enqueued, in arrival order
(the n-th call of the drain handles entry n of that stream). -/
theorem recursive_iterate_drains_all (env : Nat → List Nat) (fuel : Nat)
    (st st' : RQState) (hg : st.gen = none) (ht : st.trace = [])
    (hres : rqNotify env fuel st = some st') :
    st'.subs = [] ∧ st'.gen = none ∧ st'.sid = none
    ∧ st'.trace = st.subs ++ (List.range st'.trace.length).flatMap env
    ∧ st.calls + 1 ≤ st'.calls := by
  unfold rqNotify at hres
  rw [hg] at hres
  have hchar := runGen_char env st.subs fuel
    { st with calls := st.calls + 1, gen := some (0, st.subs.length) }
    0 st.subs.length 0 0 rfl ?_ ?_ ?_ (by omega) (by omega) ?_ st' hres
  · exact ⟨hchar.1, hchar.2.1, hchar.2.2.1, hchar.2.2.2.1, hchar.2.2.2.2⟩
  · show (0 : Nat) = st.trace.length
    rw [ht]
    rfl
  · show st.trace = (rqStream st.subs env 0).take 0
    rw [ht]
    rfl
  · show st.subs = (rqStream st.subs env 0).drop 0
    unfold rqStream
    simp
  · show (0 : Nat) + st.subs.length ≤ (rqStream st.subs env 0).length
    unfold rqStream
    simp

/-- Witness state for recursive_iterate_drains_all: one pending subscriber 5
whose call enqueues subscriber 7 (a second batch), which enqueues nothing. -/
def rqWitEnv : Nat → List Nat :=
  fun n => if n = 0 then [7] else []

/-- Witness start state for recursive_iterate_drains_all. -/
def rqWitStart : RQState :=
  { subs := [5], queuedN := 1, sid := some true, cancellable := false
    gen := none, calls := 0, cancels := 0, trace := [] }

/-- Witness for recursive_iterate_drains_all: the concrete two-batch drain. -/
theorem recursive_iterate_drains_all_witness :
    rqNotify rqWitEnv 10 rqWitStart
      = some { subs := [], queuedN := 0, sid := none, cancellable := false
               gen := none, calls := 2, cancels := 0, trace := [5, 7] }
    ∧ ([5, 7] : List Nat)
        = rqWitStart.subs ++ (List.range ([5, 7] : List Nat).length).flatMap rqWitEnv := by
  have hres : rqNotify rqWitEnv 10 rqWitStart
      = some { subs := [], queuedN := 0, sid := none, cancellable := false
               gen := none, calls := 2, cancels := 0, trace := [5, 7] } := by
    rfl
  have h := recursive_iterate_drains_all rqWitEnv 10 rqWitStart
    { subs := [], queuedN := 0, sid := none, cancellable := false
      gen := none, calls := 2, cancels := 0, trace := [5, 7] } rfl rfl hres
  exact ⟨hres, h.2.2.2.1⟩

/-! ## The ranked scheduler

Source: src/scheduler/Scheduler.mjs lines 5-87: RecursiveQueue (the ranked
registry of up to 32 queues, one bit of nonemptyMask per rank) and
FIFOBufferedQueue.  JS `m & -m` on a 32-bit operand is `m &&& (2^32 - m)`
and `m &= ~lowest` is `m &&& (2^32 - 1 - lowest)`; both taken verbatim.
Scheduler subscribers are modelled as effectless events (their notify hook
records the event in the trace). -/

theorem testBit_pred_of_odd {u : Nat} (hu : u % 2 = 1) (i : Nat) :
    (u - 1).testBit i = if i = 0 then false else u.testBit i := by
  cases i with
  | zero =>
    have h0 : (u - 1) % 2 = 0 := by omega
    simp [Nat.testBit_zero, h0]
  | succ i =>
    simp only [Nat.testBit_add_one, if_neg (Nat.succ_ne_zero i)]
    have : (u - 1) / 2 = u / 2 := by omega
    rw [this]

theorem odd_land_two_pow_sub {w u : Nat} (hu : u % 2 = 1) (hul : u < 2 ^ w) :
    u &&& (2 ^ w - u) = 1 := by
  have hu1 : 1 ≤ u := by omega
  have hw : 0 < w := by
    by_contra h
    have hw0 : w = 0 := by omega
    rw [hw0] at hul
    simp at hul
    omega
  have hsub : 2 ^ w - u = 2 ^ w - ((u - 1) + 1) := by omega
  apply Nat.eq_of_testBit_eq
  intro i
  rw [Nat.testBit_and, hsub,
    Nat.testBit_two_pow_sub_succ (x := u - 1) (by omega) i,
    testBit_pred_of_odd hu i]
  cases i with
  | zero =>
    simp [Nat.testBit_zero, hu, hw]
  | succ i =>
    cases hx : u.testBit (i + 1) <;>
      simp [hx, Nat.testBit_add_one, if_neg (Nat.succ_ne_zero i)]

theorem land_mul_two_pow (k a b : Nat) :
    (2 ^ k * a) &&& (2 ^ k * b) = 2 ^ k * (a &&& b) := by
  have hsh : ∀ x : Nat, 2 ^ k * x = x <<< k := by
    intro x
    rw [Nat.shiftLeft_eq]
    ring
  rw [hsh a, hsh b, hsh (a &&& b)]
  apply Nat.eq_of_testBit_eq
  intro j
  rw [Nat.testBit_and, Nat.testBit_shiftLeft, Nat.testBit_shiftLeft,
    Nat.testBit_shiftLeft, Nat.testBit_and]
  by_cases hj : j ≥ k <;> simp [hj]

theorem exists_two_pow_mul_odd : ∀ m : Nat, m ≠ 0 →
    ∃ k u, m = 2 ^ k * u ∧ u % 2 = 1 := by
  intro m
  induction m using Nat.strong_induction_on with
  | _ m ih =>
    intro hm
    by_cases hpar : m % 2 = 1
    · exact ⟨0, m, by ring, hpar⟩
    · have hm2 : m / 2 ≠ 0 := by omega
      have hlt : m / 2 < m := by omega
      obtain ⟨k, u, hdecomp, hodd⟩ := ih (m / 2) hlt hm2
      refine ⟨k + 1, u, ?_, hodd⟩
      have hhalf : m = 2 * (m / 2) := by omega
      rw [hhalf, hdecomp]
      ring

theorem decomp_k_lt {m k u : Nat} (hlt : m < 2 ^ 32) (hdec : m = 2 ^ k * u)
    (hodd : u % 2 = 1) : k < 32 ∧ u < 2 ^ (32 - k) := by
  have hu1 : 1 ≤ u := by omega
  have hk32 : k < 32 := by
    by_contra hk
    push_neg at hk
    have h1 : 2 ^ 32 ≤ 2 ^ k := Nat.pow_le_pow_right (by norm_num) hk
    have h2 : 2 ^ k ≤ 2 ^ k * u := Nat.le_mul_of_pos_right _ (by omega)
    omega
  refine ⟨hk32, ?_⟩
  by_contra h
  push_neg at h
  have h1 : 2 ^ k * 2 ^ (32 - k) ≤ 2 ^ k * u := Nat.mul_le_mul_left _ h
  have h2 : 2 ^ k * 2 ^ (32 - k) = 2 ^ 32 := by
    rw [← pow_add]
    congr 1
    omega
  omega

theorem lowest_bit_eq {m k u : Nat} (hlt : m < 2 ^ 32) (hdec : m = 2 ^ k * u)
    (hodd : u % 2 = 1) : m &&& (2 ^ 32 - m) = 2 ^ k := by
  obtain ⟨hk32, hulim⟩ := decomp_k_lt hlt hdec hodd
  have hsplit : 2 ^ 32 = 2 ^ k * 2 ^ (32 - k) := by
    rw [← pow_add]
    congr 1
    omega
  have hsub : 2 ^ 32 - m = 2 ^ k * (2 ^ (32 - k) - u) := by
    rw [hsplit, hdec, Nat.mul_sub_left_distrib]
  rw [hsub, hdec, land_mul_two_pow, odd_land_two_pow_sub hodd hulim, mul_one]

theorem testBit_decomp {m k u : Nat} (hdec : m = 2 ^ k * u) (hodd : u % 2 = 1) :
    m.testBit k = true ∧ ∀ j, j < k → m.testBit j = false := by
  have hsh : m = u <<< k := by
    rw [Nat.shiftLeft_eq, hdec]
    ring
  constructor
  · rw [hsh, Nat.testBit_shiftLeft]
    simp [Nat.testBit_zero, hodd]
  · intro j hj
    rw [hsh, Nat.testBit_shiftLeft]
    have : ¬ (j ≥ k) := by omega
    simp [this]

theorem mask_clear_eq {m k u : Nat} (hlt : m < 2 ^ 32) (hdec : m = 2 ^ k * u)
    (hodd : u % 2 = 1) :
    m &&& (2 ^ 32 - 1 - 2 ^ k) = 2 ^ k * (u - 1) := by
  obtain ⟨hk32, hulim⟩ := decomp_k_lt hlt hdec hodd
  have h2k : (2 : Nat) ^ k < 2 ^ 32 := Nat.pow_lt_pow_right (by norm_num) hk32
  have hsub1 : 2 ^ 32 - 1 - 2 ^ k = 2 ^ 32 - (2 ^ k + 1) := by omega
  apply Nat.eq_of_testBit_eq
  intro j
  rw [Nat.testBit_and, hsub1, Nat.testBit_two_pow_sub_succ (x := 2 ^ k) h2k j]
  have hmsh : m = u <<< k := by
    rw [Nat.shiftLeft_eq, hdec]
    ring
  have hrsh : 2 ^ k * (u - 1) = (u - 1) <<< k := by
    rw [Nat.shiftLeft_eq]
    ring
  rw [hmsh, hrsh, Nat.testBit_shiftLeft, Nat.testBit_shiftLeft,
    Nat.testBit_two_pow, testBit_pred_of_odd hodd]
  by_cases hjk : j ≥ k
  · by_cases hje : j = k
    · subst hje
      simp
    · have hj0 : ¬ (j - k = 0) := by omega
      have hkj : ¬ (k = j) := fun h => hje h.symm
      by_cases hj32 : j < 32
      · simp [hjk, hj0, hkj, hj32]
      · have hbu : u.testBit (j - k) = false := by
          apply Nat.testBit_lt_two_pow
          have h1 : (2 : Nat) ^ (32 - k) ≤ 2 ^ (j - k) :=
            Nat.pow_le_pow_right (by norm_num) (by omega)
          omega
        simp [hjk, hj0, hkj, hj32, hbu]
  · simp [hjk]

theorem mask_clear_lt {m k u : Nat} (hm : m ≠ 0) (hdec : m = 2 ^ k * u)
    (hodd : u % 2 = 1) : 2 ^ k * (u - 1) < m := by
  have hu1 : 1 ≤ u := by omega
  have h2k : 0 < 2 ^ k := Nat.pos_pow_of_pos k (by norm_num)
  rw [hdec]
  exact mul_lt_mul_of_pos_left (by omega) h2k

theorem filter_range_eq_cons (P Q : Nat → Bool) (k n : Nat) (hk : k < n)
    (hPk : P k = true) (hlow : ∀ j, j < k → P j = false)
    (hQk : Q k = false) (hagree : ∀ j, j ≠ k → Q j = P j) :
    (List.range n).filter P = k :: (List.range n).filter Q := by
  induction n with
  | zero => omega
  | succ n ih =>
    rw [List.range_succ, List.filter_append, List.filter_append]
    by_cases hkn : k < n
    · rw [ih hkn]
      have hne : n ≠ k := by omega
      have : Q n = P n := hagree n hne
      simp only [List.filter, this]
      rw [List.cons_append]
    · have hkeq : k = n := by omega
      subst hkeq
      have hP : (List.range k).filter P = [] := by
        apply List.filter_eq_nil_iff.mpr
        intro j hj
        simp [hlow j (List.mem_range.mp hj)]
      have hQ : (List.range k).filter Q = [] := by
        apply List.filter_eq_nil_iff.mpr
        intro j hj
        have hjk := List.mem_range.mp hj
        have : Q j = P j := hagree j (by omega)
        simp [this, hlow j hjk]
      simp [hP, hQ, List.filter, hPk, hQk]

/-- FIFOBufferedQueue of the scheduler: a double buffer.  The iter-resume
machinery is exercised only by re-entrant subscribers; with effectless
subscribers the flush loop below is its exact behaviour. -/
structure FifoQ where
  buffer : List Nat
  flushBuffer : List Nat
deriving Repr, DecidableEq

/-- FIFOBufferedQueue.flush: while the buffer is non-empty, swap the two
buffers, notify everything in the flush buffer, clear it, and loop. -/
def flushFifo : Nat → FifoQ → Option (List Nat × FifoQ)
  | 0, _ => none
  | fuel + 1, q =>
    if q.buffer.isEmpty then some ([], q)
    else
      match flushFifo fuel { buffer := q.flushBuffer, flushBuffer := [] } with
      | none => none
      | some (tr, q2) => some (q.buffer ++ tr, q2)

/-- The scheduler's ranked RecursiveQueue: one queue per rank bit. -/
structure SchedState where
  nonemptyMask : Nat
  /-- queues, keyed (as in the source) by the rank mask. -/
  queues : Nat → FifoQ
  /-- Ghost: subscriber notify events, in order. -/
  trace : List Nat

/-- Scheduler RecursiveQueue.enqueue(rankMask, subscriber). -/
def schedEnqueue (st : SchedState) (rankMask s : Nat) : SchedState :=
  { st with
    queues := Function.update st.queues rankMask
      { st.queues rankMask with
        buffer := (st.queues rankMask).buffer ++ [s] }
    nonemptyMask := st.nonemptyMask ||| rankMask }

/-- Scheduler RecursiveQueue.flush(rankMask): repeatedly take the lowest
non-empty rank (`nonemptyMask & -nonemptyMask` on the 32-bit operand),
stop once it exceeds rankMask (or no queue is non-empty), otherwise flush
that queue and clear its mask bit (`nonemptyMask &= ~lowest`). -/
def schedFlush : Nat → Nat → SchedState → Option SchedState
  | 0, _, _ => none
  | fuel + 1, rankMask, st =>
    if st.nonemptyMask &&& (2 ^ 32 - st.nonemptyMask) = 0
        ∨ rankMask < st.nonemptyMask &&& (2 ^ 32 - st.nonemptyMask) then
      some st
    else
      match flushFifo 2 (st.queues (st.nonemptyMask &&& (2 ^ 32 - st.nonemptyMask))) with
      | none => none
      | some (tr, q2) =>
        schedFlush fuel rankMask
          { nonemptyMask := st.nonemptyMask
              &&& (2 ^ 32 - 1 - (st.nonemptyMask &&& (2 ^ 32 - st.nonemptyMask)))
            queues := Function.update st.queues
              (st.nonemptyMask &&& (2 ^ 32 - st.nonemptyMask)) q2
            trace := st.trace ++ tr }

/-- Scheduler wellformedness: every mask bit whose queue holds pending
subscribers is set, and no queue is mid-swap. -/
def SchedWF (st : SchedState) : Prop :=
  st.nonemptyMask < 2 ^ 32
  ∧ (∀ j, j < 32 → st.nonemptyMask.testBit j = false →
      (st.queues (2 ^ j)).buffer = [])
  ∧ (∀ j, j < 32 → (st.queues (2 ^ j)).flushBuffer = [])

/-- The ranks a flush of rank-bit p must drain, lowest first. -/
def ranksUpTo (mask p : Nat) : List Nat :=
  (List.range 32).filter (fun k => mask.testBit k && decide (k ≤ p))

theorem flushFifo_wf (B : List Nat) :
    flushFifo 2 ⟨B, []⟩ = some (B, ⟨[], []⟩) := by
  cases B with
  | nil => rfl
  | cons x xs => simp [flushFifo]

theorem flatMap_congr_mem {α β : Type} {l : List α} {f g : α → List β}
    (h : ∀ x ∈ l, f x = g x) : l.flatMap f = l.flatMap g := by
  induction l with
  | nil => rfl
  | cons a t ih =>
    rw [List.flatMap_cons, List.flatMap_cons, h a (by simp),
      ih (fun x hx => h x (by simp [hx]))]

theorem mask_clear_testBit {m k u : Nat} (hdec : m = 2 ^ k * u)
    (hodd : u % 2 = 1) (j : Nat) :
    (2 ^ k * (u - 1)).testBit j = (m.testBit j && !(decide (j = k))) := by
  have hmsh : m = u <<< k := by
    rw [Nat.shiftLeft_eq, hdec]
    ring
  have hrsh : 2 ^ k * (u - 1) = (u - 1) <<< k := by
    rw [Nat.shiftLeft_eq]
    ring
  rw [hmsh, hrsh, Nat.testBit_shiftLeft, Nat.testBit_shiftLeft,
    testBit_pred_of_odd hodd]
  by_cases hjk : j ≥ k
  · by_cases hje : j = k
    · subst hje
      simp
    · have hj0 : ¬ (j - k = 0) := by omega
      simp [hjk, hj0, hje]
  · simp [hjk]

/-- C2 (amended): the scheduler RecursiveQueue's flush of rank P drains the
non-empty queues of rank at most P strictly from lowest rank to highest; in
particular every queue of rank strictly lower than P is fully drained before
any subscriber of the rank-P queue runs, all queues of rank at most P end
empty with their mask bits cleared, and queues of higher rank are untouched.
(The AutoQueue / Queue flush path enforces no such cross-queue ordering;
see the counterexample for the claim as stated.) -/
theorem sched_flush_drains_lower_ranks_first (p : Nat) (hp : p < 32) :
    ∀ (fuel : Nat) (st : SchedState), SchedWF st → st.nonemptyMask < fuel →
      ∃ st', schedFlush fuel (2 ^ p) st = some st'
        ∧ st'.trace = st.trace
            ++ (ranksUpTo st.nonemptyMask p).flatMap
                (fun k => (st.queues (2 ^ k)).buffer)
        ∧ (∀ k, k ≤ p → k < 32 → (st'.queues (2 ^ k)).buffer = []
            ∧ st'.nonemptyMask.testBit k = false)
        ∧ (∀ k, p < k → k < 32 → st'.queues (2 ^ k) = st.queues (2 ^ k)
            ∧ st'.nonemptyMask.testBit k = st.nonemptyMask.testBit k)
        ∧ SchedWF st' := by
  intro fuel
  induction fuel with
  | zero =>
    intro st hwf hfuel
    omega
  | succ f ih =>
    intro st hwf hfuel
    obtain ⟨hm32, hempty, hfb⟩ := hwf
    by_cases hm0 : st.nonemptyMask = 0
    · refine ⟨st, ?_, ?_, ?_, ?_, ⟨hm32, hempty, hfb⟩⟩
      · unfold schedFlush
        rw [if_pos]
        left
        rw [hm0]
        simp
      · have hranks : ranksUpTo st.nonemptyMask p = [] := by
          unfold ranksUpTo
          apply List.filter_eq_nil_iff.mpr
          intro j hj
          rw [hm0]
          simp
        rw [hranks]
        simp
      · intro k hkp hk32
        refine ⟨hempty k hk32 ?_, ?_⟩
        · rw [hm0]
          simp
        · rw [hm0]
          simp
      · intro k hkp hk32
        exact ⟨rfl, rfl⟩
    · obtain ⟨k, u, hdec, hodd⟩ := exists_two_pow_mul_odd st.nonemptyMask hm0
      obtain ⟨hk32, hulim⟩ := decomp_k_lt hm32 hdec hodd
      have hlow : st.nonemptyMask &&& (2 ^ 32 - st.nonemptyMask) = 2 ^ k :=
        lowest_bit_eq hm32 hdec hodd
      have hbitk : st.nonemptyMask.testBit k = true := (testBit_decomp hdec hodd).1
      have hbitlow : ∀ j, j < k → st.nonemptyMask.testBit j = false :=
        (testBit_decomp hdec hodd).2
      by_cases hpk : p < k
      · -- lowest non-empty rank is above P: nothing of rank ≤ P is pending
        refine ⟨st, ?_, ?_, ?_, ?_, ⟨hm32, hempty, hfb⟩⟩
        · unfold schedFlush
          rw [if_pos]
          right
          rw [hlow]
          exact Nat.pow_lt_pow_right (by norm_num) hpk
        · have hranks : ranksUpTo st.nonemptyMask p = [] := by
            unfold ranksUpTo
            apply List.filter_eq_nil_iff.mpr
            intro j hj
            have hjp : j ≤ p ∨ ¬ (j ≤ p) := em _
            rcases hjp with hjp | hjp
            · rw [hbitlow j (by omega)]
              simp
            · simp [hjp]
          rw [hranks]
          simp
        · intro j hjp hj32
          refine ⟨hempty j hj32 (hbitlow j (by omega)), hbitlow j (by omega)⟩
        · intro j hjp hj32
          exact ⟨rfl, rfl⟩
      · -- flush rank k, then recurse
        have hkp : k ≤ p := by omega
        have hfifo : flushFifo 2 (st.queues (2 ^ k))
            = some ((st.queues (2 ^ k)).buffer, ⟨[], []⟩) := by
          have hq : st.queues (2 ^ k) = ⟨(st.queues (2 ^ k)).buffer, []⟩ := by
            have := hfb k hk32
            cases hqe : st.queues (2 ^ k)
            simp [hqe] at this ⊢
            exact this
          rw [hq]
          exact flushFifo_wf _
        have hmask1 : st.nonemptyMask &&& (2 ^ 32 - 1 - 2 ^ k) = 2 ^ k * (u - 1) :=
          mask_clear_eq hm32 hdec hodd
        have hmask1lt : 2 ^ k * (u - 1) < st.nonemptyMask :=
          mask_clear_lt hm0 hdec hodd
        have hbit1 : ∀ j, (2 ^ k * (u - 1)).testBit j
            = (st.nonemptyMask.testBit j && !(decide (j = k))) :=
          mask_clear_testBit hdec hodd
        have hpowinj : ∀ j, j < 32 → j ≠ k → (2 : Nat) ^ j ≠ 2 ^ k := by
          intro j hj32 hjk he
          exact hjk (Nat.pow_right_injective (le_refl 2) he)
        -- the recursive state
        have hguard : ¬ (st.nonemptyMask &&& (2 ^ 32 - st.nonemptyMask) = 0
            ∨ 2 ^ p < st.nonemptyMask &&& (2 ^ 32 - st.nonemptyMask)) := by
          rw [hlow]
          intro hcon
          rcases hcon with h0 | hlt
          · exact (Nat.pos_pow_of_pos k (by norm_num)).ne' h0
          · exact absurd hlt (not_lt.mpr (Nat.pow_le_pow_right (by norm_num) hkp))
        have hstep : schedFlush (f + 1) (2 ^ p) st
            = schedFlush f (2 ^ p)
              { nonemptyMask := 2 ^ k * (u - 1)
                queues := Function.update st.queues (2 ^ k) ⟨[], []⟩
                trace := st.trace ++ (st.queues (2 ^ k)).buffer } := by
          conv_lhs => unfold schedFlush
          rw [if_neg hguard, hlow, hfifo, hmask1]
        have hwf1 : SchedWF
            { nonemptyMask := 2 ^ k * (u - 1)
              queues := Function.update st.queues (2 ^ k) ⟨[], []⟩
              trace := st.trace ++ (st.queues (2 ^ k)).buffer } := by
          refine ⟨lt_trans hmask1lt hm32, ?_, ?_⟩
          · intro j hj32 hbitj
            dsimp only at hbitj ⊢
            by_cases hjk : j = k
            · subst hjk
              simp [Function.update_same]
            · rw [Function.update_noteq (hpowinj j hj32 hjk)]
              rw [hbit1 j] at hbitj
              simp [hjk] at hbitj
              exact hempty j hj32 hbitj
          · intro j hj32
            dsimp only
            by_cases hjk : j = k
            · subst hjk
              simp [Function.update_same]
            · rw [Function.update_noteq (hpowinj j hj32 hjk)]
              exact hfb j hj32
        obtain ⟨st', hrun, htr, hle, hgt, hwf'⟩ :=
          ih { nonemptyMask := 2 ^ k * (u - 1)
               queues := Function.update st.queues (2 ^ k) ⟨[], []⟩
               trace := st.trace ++ (st.queues (2 ^ k)).buffer } hwf1
            (lt_of_lt_of_le hmask1lt (Nat.lt_succ_iff.mp hfuel))
        refine ⟨st', by rw [hstep]; exact hrun, ?_, ?_, ?_, hwf'⟩
        · -- trace characterisation
          rw [htr]
          have hcons : ranksUpTo st.nonemptyMask p
              = k :: ranksUpTo (2 ^ k * (u - 1)) p := by
            unfold ranksUpTo
            apply filter_range_eq_cons _ _ k 32 hk32
            · simp [hbitk, hkp]
            · intro j hj
              simp [hbitlow j hj]
            · simp [hbit1 k]
            · intro j hjk
              rw [hbit1 j]
              simp [hjk]
          rw [hcons]
          simp only [List.flatMap_cons, List.append_assoc]
          congr 2
          apply flatMap_congr_mem
          intro j hj
          have hj32 : j < 32 := by
            have := List.mem_range.mp (List.mem_of_mem_filter hj)
            exact this
          have hjbit : (2 ^ k * (u - 1)).testBit j = true := by
            have := List.of_mem_filter hj
            simp only [Bool.and_eq_true, decide_eq_true_eq] at this
            exact this.1
          have hjk : j ≠ k := by
            intro he
            subst he
            rw [hbit1 j] at hjbit
            simp at hjbit
          rw [Function.update_noteq (hpowinj j hj32 hjk)]
        · intro j hjp hj32
          exact hle j hjp hj32
        · intro j hjp hj32
          have hjk : j ≠ k := by omega
          obtain ⟨hq, hb⟩ := hgt j hjp hj32
          constructor
          · rw [hq]
            dsimp only
            rw [Function.update_noteq (hpowinj j hj32 hjk)]
          · rw [hb]
            dsimp only
            rw [hbit1 j]
            simp [hjk]

/-- Witness scheduler state: rank 1 holds subscriber 11, rank 3 holds 33. -/
def schedWitState : SchedState :=
  { nonemptyMask := 10
    queues := Function.update
      (Function.update (fun _ => ⟨[], []⟩) 2 ⟨[11], []⟩) 8 ⟨[33], []⟩
    trace := [] }

/-- Witness for sched_flush_drains_lower_ranks_first: flushing rank 3 drains
the rank-1 subscriber 11 strictly before the rank-3 subscriber 33. -/
theorem sched_flush_drains_lower_ranks_first_witness :
    SchedWF schedWitState
    ∧ schedWitState.nonemptyMask < 11
    ∧ (schedFlush 11 (2 ^ 3) schedWitState).map SchedState.trace = some [11, 33] := by
  have hwf : SchedWF schedWitState := by
    refine ⟨by norm_num [schedWitState], ?_, ?_⟩
    · decide
    · decide
  obtain ⟨st', hrun, htr, hrest⟩ :=
    sched_flush_drains_lower_ranks_first 3 (by norm_num) 11 schedWitState hwf
      (by norm_num [schedWitState])
  refine ⟨hwf, by norm_num [schedWitState], ?_⟩
  rw [hrun, Option.map_some', htr]
  have hranks : ranksUpTo schedWitState.nonemptyMask 3 = [1, 3] := by decide
  rw [hranks]
  rfl

/-! ## The reactive engine

Source: src/AutoQueue.mjs (Reactive: notify, unsubscribe; SynchronousIterator)
together with src/Subscriber.mjs (Subscriber, Link) and src/Queue.mjs
(Queue.enqueue / dequeue / flush / notify; RecursiveQueue.iterate).

Object identity is a Nat id; the shared mutable heap is an explicit record.
User callbacks are no-ops here (each Subscriber.call still performs its full
bookkeeping: the wrapped callable cleans the counter before the user code);
re-entrant generator resumption, which only a re-entering callback can
trigger, is modelled separately by RQState above.  The ghost field epoch
counts Queue.called events without wrapping, so a flush boundary is the set
of dispatches sharing one epoch value; trace records, per subscriber
invocation, the epoch in which it ran. -/

structure EngLink where
  /-- Link.subscriber. -/
  sub : Nat
  /-- Link._dirty. -/
  stamp : Int
  /-- Link.queue (qid); none for synchronous links. -/
  queue : Option Nat
deriving Repr, DecidableEq

structure EngSub where
  /-- Subscriber.calls. -/
  calls : Int
  /-- Subscriber.queued: qid → count, in insertion order. -/
  queued : List (Nat × Nat)
deriving Repr, DecidableEq

structure EngQueue where
  /-- Queue#subscribers. -/
  subs : List Nat
  /-- Queue#queued. -/
  queuedN : Int
  /-- Queue#sid. -/
  sid : Option Bool
  /-- Whether Queue#schedule is implemented. -/
  schedulable : Bool
  /-- Whether Queue#unschedule is implemented. -/
  cancellable : Bool
  /-- Queue#notifying, as a flag. -/
  notifying : Bool
  /-- Ghost: the clock source's priority rank (spec section 5 ordering). -/
  rank : Nat
deriving Repr, DecidableEq

structure EngCell where
  /-- The wrapped value (ReactiveValue._value). -/
  value : Int
  /-- Reactive#dirty (the Queue.calls stamp of the last async enqueue). -/
  dirty : Int
  /-- Reactive#sync. -/
  sync : List EngLink
  /-- Reactive#async. -/
  async : List EngLink
  /-- Reactive#sync_iter. -/
  syncIter : SyncIter
deriving Repr, DecidableEq

structure EngSt where
  /-- Queue.calls (the global counter, with wrap). -/
  calls : Int
  /-- Ghost: non-wrapping count of Queue.called events (flush boundaries). -/
  epoch : Nat
  cells : Nat → EngCell
  subsF : Nat → EngSub
  queues : Nat → EngQueue
  /-- Ghost: (epoch, subscriber) per callback invocation, in order. -/
  trace : List (Nat × Nat)

/-- Queue.called: bump the wrapped global counter; the ghost epoch counts
the same events without wrapping. -/
def engCalled (st : EngSt) : EngSt :=
  { st with
    calls := bumpCalls st.calls, epoch := st.epoch + 1 }

/-- Subscriber.clean: bump the subscriber counter (cleans all its links). -/
def subClean (st : EngSt) (s : Nat) : EngSt :=
  { st with
    subsF := Function.update st.subsF s
      { st.subsF s with calls := bumpCalls (st.subsF s).calls } }

/-- Remove the last occurrence: `subscribers.splice(subscribers.lastIndexOf(x), 1)`.
When x is absent, lastIndexOf is −1 and JS splice(−1, 1) removes the final
element. -/
def jsSpliceRemoveLast (l : List Nat) (s : Nat) : List Nat :=
  if s ∈ l then (l.reverse.erase s).reverse else l.dropLast

/-- Queue.dequeue(subscriber). -/
def queueDequeue (st : EngSt) (q s : Nat) : EngSt :=
  let qu := st.queues q
  let subs2 := jsSpliceRemoveLast qu.subs s
  let qu2 :=
    if subs2.isEmpty && qu.cancellable then
      { qu with
        queuedN := qu.queuedN - 1, subs := subs2, sid := none }
    else
      { qu with
        queuedN := qu.queuedN - 1, subs := subs2 }
  { st with
    queues := Function.update st.queues q qu2 }

/-- Subscriber.dequeue: dequeue from every queue in the queued map, then
clear the map. -/
def subDequeueAll (st : EngSt) (s : Nat) : EngSt :=
  let st1 := (st.subsF s).queued.foldl (fun acc p => queueDequeue acc p.1 s) st
  { st1 with
    subsF := Function.update st1.subsF s
      { st1.subsF s with queued := [] } }

/-- `delete this.queued[qid]` at the head of Subscriber.call(qid); a sync
dispatch passes no qid. -/
def removeQueuedKey (st : EngSt) (s : Nat) (q : Option Nat) : EngSt :=
  match q with
  | none => st
  | some qid =>
    { st with
      subsF := Function.update st.subsF s
        { st.subsF s with
          queued := (st.subsF s).queued.filter (fun p => p.1 ≠ qid) } }

/-- Everything Subscriber.call(qid) does before the user callback runs:
drop the dispatching queue's bookkeeping entry, dequeue from every other
queue, and (first thing inside the wrapped callable) clean the counter. -/
def subCallPre (st : EngSt) (s : Nat) (q : Option Nat) : EngSt :=
  subClean (subDequeueAll (removeQueuedKey st s q) s) s

/-- Subscriber.call(qid): the pre-callback bookkeeping, then the user
callback (a no-op whose invocation the trace records); nothing runs after
the callback, so on a throw the engine state is exactly subCallPre. -/
def subCall (st : EngSt) (s : Nat) (q : Option Nat) : EngSt :=
  let st3 := subCallPre st s q
  { st3 with
    trace := st3.trace ++ [(st3.epoch, s)] }

/-- Queue.queued_max. -/
def queuedMax : Int := 500

/-- One in-batch step of RecursiveQueue.iterate inside Queue.notify's loop:
read subscribers[i] live, call it, then decrement the queued count. -/
def engIter (q : Nat) : Nat → EngSt → Nat → Nat → EngSt
  | 0, st, _, _ => st
  | fuel + 1, st, i, b =>
    if i < b then
      match (st.queues q).subs.get? i with
      | none => st
      | some s =>
        let st1 := subCall st s (some q)
        let st2 := { st1 with
          queues := Function.update st1.queues q
            { st1.queues q with queuedN := (st1.queues q).queuedN - 1 } }
        engIter q fuel st2 (i + 1) b
    else
      if (st.queues q).subs.length - b = 0 then
        { st with
          queues := Function.update st.queues q
            { st.queues q with subs := [], sid := none, notifying := false } }
      else
        engIter q fuel
          (engCalled
            { st with
              queues := Function.update st.queues q
                { st.queues q with subs := (st.queues q).subs.drop b } })
          0 ((st.queues q).subs.length - b)

/-- Queue.notify: Queue.called, then drive iterate; notifying is set for
the duration (no callback here re-enters, so the generator is always
fresh — re-entrancy is RQState's business). -/
def engNotifyQ (st : EngSt) (q : Nat) : EngSt :=
  let st1 := engCalled st
  let st2 := { st1 with
    queues := Function.update st1.queues q
      { st1.queues q with notifying := true } }
  engIter q ((st2.queues q).subs.length + 2) st2 0 (st2.queues q).subs.length

/-- Queue.flush(recursive). -/
def engFlushQ (st : EngSt) (q : Nat) (recursive : Bool) : EngSt :=
  if (st.queues q).notifying = false then
    let st1 :=
      if (st.queues q).sid = none then
        { st with
          queues := Function.update st.queues q
            { st.queues q with sid := some true } }
      else st
    engNotifyQ st1 q
  else if recursive then engNotifyQ st q
  else st

/-- Queue.enqueue(subscriber): push, bump queued, flush synchronously past
the queued_max threshold (recursive by default), else schedule if needed. -/
def engEnqueueQ (st : EngSt) (q s : Nat) : EngSt :=
  let qu := st.queues q
  let st1 := { st with
    queues := Function.update st.queues q
      { qu with
        subs := qu.subs ++ [s], queuedN := qu.queuedN + 1 } }
  if queuedMax < qu.queuedN + 1 then
    engFlushQ st1 q true
  else if qu.sid = none && qu.schedulable then
    { st1 with
      queues := Function.update st1.queues q
        { st1.queues q with sid := some true } }
  else st1

/-- Bump the count of an existing queued entry. -/
def incrCount (l : List (Nat × Nat)) (q : Nat) : List (Nat × Nat) :=
  l.map (fun p => if p.1 = q then (p.1, p.2 + 1) else p)

/-- Decrement the count of an existing queued entry. -/
def decrCount (l : List (Nat × Nat)) (q : Nat) : List (Nat × Nat) :=
  l.map (fun p => if p.1 = q then (p.1, p.2 - 1) else p)

/-- Write a new dirty stamp into the async link at index idx of cell c. -/
def setAsyncStamp (st : EngSt) (c idx : Nat) (v : Int) : EngSt :=
  match (st.cells c).async.get? idx with
  | none => st
  | some L =>
    { st with
      cells := Function.update st.cells c
        { st.cells c with async := (st.cells c).async.set idx { L with stamp := v } } }

/-- Subscriber.enqueue(link) for the async link at index idx of cell c:
return if the link is already dirty, else mark it dirty, then either bump
the existing per-queue count or insert a fresh entry and enqueue on the
queue. -/
def subEnqueue (st : EngSt) (c idx : Nat) : EngSt :=
  match (st.cells c).async.get? idx with
  | none => st
  | some L =>
    if isDirty L.stamp ((st.subsF L.sub).calls) then st
    else
      let st1 := setAsyncStamp st c idx (setDirty ((st.subsF L.sub).calls) true)
      match L.queue with
      | none => st1
      | some qid =>
        if ((st1.subsF L.sub).queued.lookup qid).isSome then
          { st1 with
            subsF := Function.update st1.subsF L.sub
              { st1.subsF L.sub with
                queued := incrCount (st1.subsF L.sub).queued qid } }
        else
          let st2 := { st1 with
            subsF := Function.update st1.subsF L.sub
              { st1.subsF L.sub with
                queued := (st1.subsF L.sub).queued ++ [(qid, 1)] } }
          engEnqueueQ st2 qid L.sub

/-- The async phase loop of Reactive.notify: `for (const link of this.async)
link.enqueue()` (the list length is not changed by enqueues). -/
def asyncLoop (c : Nat) : Nat → Nat → EngSt → EngSt
  | 0, _, st => st
  | fuel + 1, idx, st =>
    if idx < (st.cells c).async.length then
      asyncLoop c fuel (idx + 1) (subEnqueue st c idx)
    else st

/-- `this.sync[i].dirty = true` for i in 1..sl−1. -/
def setSyncStamp (st : EngSt) (c idx : Nat) : EngSt :=
  match (st.cells c).sync.get? idx with
  | none => st
  | some L =>
    { st with
      cells := Function.update st.cells c
        { st.cells c with
          sync := (st.cells c).sync.set idx
            { L with stamp := setDirty ((st.subsF L.sub).calls) true } } }

def markLoop (c sl : Nat) : Nat → Nat → EngSt → EngSt
  | 0, _, st => st
  | fuel + 1, i, st =>
    if i < sl then markLoop c sl fuel (i + 1) (setSyncStamp st c i)
    else st

/-- `this.sync[0].call()` (Link.call forwards to subscriber.call with no
queue id). -/
def syncCall0 (st : EngSt) (c : Nat) : EngSt :=
  match (st.cells c).sync.get? 0 with
  | none => st
  | some L => subCall st L.sub none

/-- The residual sync loop of Reactive.notify, reading the shared iterator
live: `for (; iter.i < iter.stop; iter.i++){ link = sync[iter.i];
if (link.dirty) link.call(); }`. -/
def syncLoopE (c : Nat) : Nat → EngSt → EngSt
  | 0, st => st
  | fuel + 1, st =>
    let it := (st.cells c).syncIter
    if it.i < it.stop then
      if 0 ≤ it.i then
        match (st.cells c).sync.get? it.i.toNat with
        | none => st
        | some L =>
          let st1 :=
            if isDirty L.stamp ((st.subsF L.sub).calls) then subCall st L.sub none
            else st
          syncLoopE c fuel
            { st1 with
              cells := Function.update st1.cells c
                { st1.cells c with syncIter :=
                    ⟨(st1.cells c).syncIter.i + 1, (st1.cells c).syncIter.stop⟩ } }
      else st
    else st

/-- Reactive.notify: queue the async links first (skipped when the dirty
stamp matches the current global counter), then dispatch the sync links
under a fresh Queue.called with the dirty pre-mark and shared-iterator
protocol. -/
def reactiveNotify (st : EngSt) (c : Nat) : EngSt :=
  let st1 :=
    if (st.cells c).async.length ≠ 0 ∧ (st.cells c).dirty ≠ st.calls then
      asyncLoop c ((st.cells c).async.length + 1) 0
        { st with
          cells := Function.update st.cells c
            { st.cells c with dirty := st.calls } }
    else st
  let sl := (st1.cells c).sync.length
  if sl = 0 then st1
  else
    let st2 := engCalled st1
    let st3 :=
      if 1 < sl then
        let stM := markLoop c sl (sl + 1) 1 st2
        { stM with
          cells := Function.update stM.cells c
            { stM.cells c with syncIter := SyncIter.resetTo 1 sl } }
      else st2
    let st4 := syncCall0 st3 c
    if 1 < sl then
      let st5 := syncLoopE c (sl + 1) st4
      { st5 with
        cells := Function.update st5.cells c
          { st5.cells c with syncIter := SyncIter.reset } }
    else st4

/-- ReactiveValue value setter: store, then notify. -/
def reactiveSet (st : EngSt) (c : Nat) (v : Int) : EngSt :=
  reactiveNotify
    { st with
      cells := Function.update st.cells c
        { st.cells c with value := v } } c

/-- Subscriber.unsubscribe(dep, link): with no link, dequeue from every
queue (the unsubscribe-all path); with a link that is dirty and has a
queue, decrement that queue's count and dequeue when it reaches zero. -/
def subUnsubscribe (st : EngSt) (s : Nat) : Option EngLink → EngSt
  | none => subDequeueAll st s
  | some L =>
    if isDirty L.stamp ((st.subsF s).calls) then
      match L.queue with
      | none => st
      | some qid =>
        match (st.subsF s).queued.lookup qid with
        | none => st
        | some cnt =>
          if cnt - 1 = 0 then
            let st1 := queueDequeue st qid s
            { st1 with
              subsF := Function.update st1.subsF s
                { st1.subsF s with
                  queued := (st1.subsF s).queued.filter (fun p => p.1 ≠ qid) } }
          else
            { st with
              subsF := Function.update st.subsF s
                { st.subsF s with queued := decrCount (st.subsF s).queued qid } }
    else st

/-- Link.findSubscriber as an index search. -/
def findSubscriber (arr : List EngLink) (s : Nat) : Option Nat :=
  arr.findIdx? (fun L => L.sub = s)

/-- Reactive.unsubscribe.  With no subscriber: inform every linked
subscriber, reset the sync sentinel and clear both link lists, returning 0.
With a subscriber: splice its link out of sync (adjusting the shared
iterator) or async, throw "Not subscribed" when absent, then inform the
subscriber and return the remaining link count. -/
def reactiveUnsubscribe (st : EngSt) (c : Nat) :
    Option Nat → Except String (EngSt × Nat)
  | none =>
    let st1 :=
      if (st.cells c).sync.length ≠ 0 then
        let stA := (st.cells c).sync.foldl
          (fun acc L => subUnsubscribe acc L.sub (some L)) st
        { stA with
          cells := Function.update stA.cells c
            { stA.cells c with sync := [], syncIter := SyncIter.reset } }
      else st
    let st2 :=
      if (st1.cells c).async.length ≠ 0 then
        let stB := (st1.cells c).async.foldl
          (fun acc L => subUnsubscribe acc L.sub (some L)) st1
        { stB with
          cells := Function.update stB.cells c
            { stB.cells c with async := [] } }
      else st1
    Except.ok (st2, 0)
  | some s =>
    match findSubscriber (st.cells c).sync s with
    | some i =>
      match (st.cells c).sync.get? i with
      | none => Except.error "Not subscribed"
      | some L =>
        let st1 :=
          { st with
            cells := Function.update st.cells c
              { st.cells c with
                sync := (st.cells c).sync.eraseIdx i
                syncIter := (st.cells c).syncIter.unsubscribe i } }
        let st2 := subUnsubscribe st1 s (some L)
        Except.ok (st2, (st2.cells c).sync.length + (st2.cells c).async.length)
    | none =>
      match findSubscriber (st.cells c).async s with
      | some i =>
        match (st.cells c).async.get? i with
        | none => Except.error "Not subscribed"
        | some L =>
          let st1 :=
            { st with
              cells := Function.update st.cells c
                { st.cells c with async := (st.cells c).async.eraseIdx i } }
          let st2 := subUnsubscribe st1 s (some L)
          Except.ok (st2, (st2.cells c).sync.length + (st2.cells c).async.length)
      | none => Except.error "Not subscribed"

/-- Operations observable between flush boundaries: mutate a cell (store a
value and notify) or let a queue's clock source fire its scheduled notify. -/
inductive EngOp where
  | set (c : Nat) (v : Int)
  | drain (q : Nat)
deriving Repr, DecidableEq

def engStep (st : EngSt) : EngOp → EngSt
  | .set c v => reactiveSet st c v
  | .drain q => engNotifyQ st q

def engRun (st : EngSt) (ops : List EngOp) : EngSt :=
  ops.foldl engStep st

/-- Engine wellformedness, the invariants the subscribe path maintains:
no queue holds a subscriber twice; a subscriber sits in a queue exactly
when its queued map holds that qid (Subscriber.enqueue inserts both
together, Subscriber.call and unsubscribe remove both together); the
queued map has no duplicate keys; one cell never links the same subscriber
twice (the Already-subscribed guard); no queue is mid-drain; recorded
trace entries do not outrun the epoch. -/
def EngWF (st : EngSt) : Prop :=
  (∀ q, (st.queues q).subs.Nodup)
  ∧ (∀ q s, s ∈ (st.queues q).subs ↔ (((st.subsF s).queued.lookup q).isSome))
  ∧ (∀ s, (((st.subsF s).queued.map Prod.fst).Nodup))
  ∧ (∀ c, ((((st.cells c).sync ++ (st.cells c).async).map EngLink.sub).Nodup))
  ∧ (∀ q, (st.queues q).notifying = false)
  ∧ (∀ p ∈ st.trace, p.1 ≤ st.epoch)

theorem lookup_isSome_iff_mem_keys {l : List (Nat × Nat)} {k : Nat} :
    (l.lookup k).isSome ↔ k ∈ l.map Prod.fst := by
  rw [List.lookup_isSome_iff]
  constructor
  · rintro ⟨p, hp, he⟩
    have : k = p.1 := by simpa using he
    rw [this]
    exact List.mem_map_of_mem _ hp
  · intro hk
    obtain ⟨p, hp, he⟩ := List.mem_map.mp hk
    exact ⟨p, hp, by simp [he]⟩

theorem jsSplice_filter {l : List Nat} {s : Nat} (hn : l.Nodup) (hs : s ∈ l) :
    jsSpliceRemoveLast l s = l.filter (fun x => x != s) := by
  unfold jsSpliceRemoveLast
  rw [if_pos hs]
  rw [List.Nodup.erase_eq_filter (List.nodup_reverse.mpr hn) s]
  rw [List.filter_reverse, List.reverse_reverse]

theorem jsSplice_not_mem {l : List Nat} {s : Nat} (hn : l.Nodup) :
    s ∉ jsSpliceRemoveLast l s := by
  by_cases hs : s ∈ l
  · rw [jsSplice_filter hn hs]
    intro hmem
    have := List.of_mem_filter hmem
    simp at this
  · unfold jsSpliceRemoveLast
    rw [if_neg hs]
    intro hmem
    exact hs (List.dropLast_sublist l |>.mem hmem)

theorem jsSplice_mem_of_ne {l : List Nat} {s s' : Nat} (hn : l.Nodup)
    (hs : s ∈ l) (hne : s' ≠ s) :
    s' ∈ jsSpliceRemoveLast l s ↔ s' ∈ l := by
  rw [jsSplice_filter hn hs]
  constructor
  · intro h
    exact List.mem_of_mem_filter h
  · intro h
    exact List.mem_filter.mpr ⟨h, by simp [hne]⟩

theorem jsSplice_nodup {l : List Nat} {s : Nat} (hn : l.Nodup) :
    (jsSpliceRemoveLast l s).Nodup := by
  unfold jsSpliceRemoveLast
  split
  · apply List.nodup_reverse.mpr
    exact (List.nodup_reverse.mpr hn).erase s
  · exact hn.sublist (List.dropLast_sublist l)

theorem queueDequeue_misc (st : EngSt) (q s : Nat) :
    (queueDequeue st q s).cells = st.cells
    ∧ (queueDequeue st q s).subsF = st.subsF
    ∧ (queueDequeue st q s).calls = st.calls
    ∧ (queueDequeue st q s).epoch = st.epoch
    ∧ (queueDequeue st q s).trace = st.trace := by
  unfold queueDequeue
  exact ⟨rfl, rfl, rfl, rfl, rfl⟩

theorem queueDequeue_queues_other (st : EngSt) (q s q0 : Nat) (h : q0 ≠ q) :
    (queueDequeue st q s).queues q0 = st.queues q0 := by
  unfold queueDequeue
  dsimp only
  rw [Function.update_noteq h]

theorem queueDequeue_subs_self (st : EngSt) (q s : Nat) :
    ((queueDequeue st q s).queues q).subs
      = jsSpliceRemoveLast (st.queues q).subs s := by
  unfold queueDequeue
  dsimp only
  rw [Function.update_same]
  split <;> rfl

/-- Effect of Subscriber.dequeue's loop over the queued entries: the
subscriber is gone from every keyed queue, queues without a key are
untouched, other subscribers' membership survives, and nothing but the
queue table changes. -/
theorem foldDequeue_props (s : Nat) :
    ∀ (entries : List (Nat × Nat)) (st : EngSt),
      (∀ q, (st.queues q).subs.Nodup) →
      ((entries.map Prod.fst).Nodup) →
      (∀ q, q ∈ entries.map Prod.fst → s ∈ (st.queues q).subs) →
      (∀ q0, q0 ∉ entries.map Prod.fst →
        (entries.foldl (fun acc p => queueDequeue acc p.1 s) st).queues q0
          = st.queues q0)
      ∧ (∀ q0, q0 ∈ entries.map Prod.fst →
        s ∉ ((entries.foldl (fun acc p => queueDequeue acc p.1 s) st).queues q0).subs)
      ∧ (∀ q0 s', s' ≠ s →
        (s' ∈ ((entries.foldl (fun acc p => queueDequeue acc p.1 s) st).queues q0).subs
          ↔ s' ∈ (st.queues q0).subs))
      ∧ (∀ q0,
        ((entries.foldl (fun acc p => queueDequeue acc p.1 s) st).queues q0).subs.Nodup)
      ∧ (entries.foldl (fun acc p => queueDequeue acc p.1 s) st).cells = st.cells
      ∧ (entries.foldl (fun acc p => queueDequeue acc p.1 s) st).subsF = st.subsF
      ∧ (entries.foldl (fun acc p => queueDequeue acc p.1 s) st).calls = st.calls
      ∧ (entries.foldl (fun acc p => queueDequeue acc p.1 s) st).epoch = st.epoch
      ∧ (entries.foldl (fun acc p => queueDequeue acc p.1 s) st).trace = st.trace := by
  intro entries
  induction entries with
  | nil =>
    intro st hnodup hkeys hmem
    refine ⟨fun q0 _ => rfl, fun q0 h => absurd h (by simp), ?_, ?_, rfl, rfl, rfl, rfl, rfl⟩
    · intro q0 s' hne
      rfl
    · intro q0
      exact hnodup q0
  | cons p rest ih =>
    intro st hnodup hkeys hmem
    simp only [List.foldl_cons]
    have hps : s ∈ (st.queues p.1).subs := hmem p.1 (by simp)
    have hkeys2 : (p.1 :: rest.map Prod.fst).Nodup := by simpa using hkeys
    have hkeyrest : (rest.map Prod.fst).Nodup := hkeys2.of_cons
    have hpnot : p.1 ∉ rest.map Prod.fst := (List.nodup_cons.mp hkeys2).1
    have hnodup1 : ∀ q, ((queueDequeue st p.1 s).queues q).subs.Nodup := by
      intro q
      by_cases hq : q = p.1
      · subst hq
        rw [queueDequeue_subs_self]
        exact jsSplice_nodup (hnodup _)
      · rw [queueDequeue_queues_other st p.1 s q hq]
        exact hnodup q
    have hmem1 : ∀ q, q ∈ rest.map Prod.fst →
        s ∈ ((queueDequeue st p.1 s).queues q).subs := by
      intro q hq
      have hqne : q ≠ p.1 := fun he => hpnot (he ▸ hq)
      rw [queueDequeue_queues_other st p.1 s q hqne]
      exact hmem q (by simp [hq])
    obtain ⟨ha0, ha, hb, hc, hcells, hsubsF, hcalls, hepoch, htrace⟩ :=
      ih (queueDequeue st p.1 s) hnodup1 hkeyrest hmem1
    obtain ⟨hdc, hds, hdca, hde, hdt⟩ := queueDequeue_misc st p.1 s
    refine ⟨?_, ?_, ?_, hc, hcells.trans hdc, hsubsF.trans hds,
      hcalls.trans hdca, hepoch.trans hde, htrace.trans hdt⟩
    · intro q0 hq0
      have hq0p : q0 ≠ p.1 := by
        intro he
        exact hq0 (by simp [he])
      have hq0rest : q0 ∉ rest.map Prod.fst := by
        intro he
        exact hq0 (by simp [he])
      rw [ha0 q0 hq0rest, queueDequeue_queues_other st p.1 s q0 hq0p]
    · intro q0 hq0
      by_cases hq0rest : q0 ∈ rest.map Prod.fst
      · exact ha q0 hq0rest
      · have hq0p : q0 = p.1 := by
          simp only [List.map_cons, List.mem_cons] at hq0
          tauto
        subst hq0p
        rw [ha0 _ hq0rest, queueDequeue_subs_self]
        exact jsSplice_not_mem (hnodup _)
    · intro q0 s' hne
      rw [hb q0 s' hne]
      by_cases hq0 : q0 = p.1
      · subst hq0
        rw [queueDequeue_subs_self]
        exact jsSplice_mem_of_ne (hnodup _) hps hne
      · rw [queueDequeue_queues_other st p.1 s q0 hq0]

theorem mem_filtered_keys {l : List (Nat × Nat)} {qid q0 : Nat} :
    q0 ∈ (l.filter (fun p => p.1 ≠ qid)).map Prod.fst
      ↔ (q0 ∈ l.map Prod.fst ∧ q0 ≠ qid) := by
  simp only [List.mem_map, List.mem_filter, decide_eq_true_eq]
  constructor
  · rintro ⟨p, ⟨hp, hpred⟩, rfl⟩
    exact ⟨⟨p, hp, rfl⟩, hpred⟩
  · rintro ⟨⟨p, hp, rfl⟩, hne⟩
    exact ⟨p, ⟨hp, hne⟩, rfl⟩

theorem filtered_keys_nodup {l : List (Nat × Nat)}
    (h : (l.map Prod.fst).Nodup) (qid : Nat) :
    ((l.filter (fun p => p.1 ≠ qid)).map Prod.fst).Nodup :=
  h.sublist ((l.filter_sublist).map Prod.fst)

/-- Full effect of the pre-callback part of Subscriber.call in a state whose
queue bookkeeping is consistent for the called subscriber: the counter is
bumped, the queued map emptied, the subscriber removed from every queue
other than the dispatching one (which Subscriber.call leaves to the drain
loop), everything else untouched. -/
theorem subCallPre_props (st : EngSt) (s : Nat) (q : Option Nat)
    (hnodup : ∀ q0, (st.queues q0).subs.Nodup)
    (hmem : ∀ q0, s ∈ (st.queues q0).subs ↔ ((st.subsF s).queued.lookup q0).isSome)
    (hkeys : ((st.subsF s).queued.map Prod.fst).Nodup) :
    (subCallPre st s q).cells = st.cells
    ∧ (subCallPre st s q).calls = st.calls
    ∧ (subCallPre st s q).epoch = st.epoch
    ∧ (subCallPre st s q).trace = st.trace
    ∧ (subCallPre st s q).subsF s
        = { calls := bumpCalls ((st.subsF s).calls), queued := [] }
    ∧ (∀ s', s' ≠ s → (subCallPre st s q).subsF s' = st.subsF s')
    ∧ (∀ q0, q = some q0 → (subCallPre st s q).queues q0 = st.queues q0)
    ∧ (∀ q0, q ≠ some q0 → s ∉ ((subCallPre st s q).queues q0).subs)
    ∧ (∀ q0 s', s' ≠ s →
        (s' ∈ ((subCallPre st s q).queues q0).subs ↔ s' ∈ (st.queues q0).subs))
    ∧ (∀ q0, ((subCallPre st s q).queues q0).subs.Nodup) := by
  have hlookup_mem : ∀ q0, ((st.subsF s).queued.lookup q0).isSome
      ↔ q0 ∈ (st.subsF s).queued.map Prod.fst := fun q0 => lookup_isSome_iff_mem_keys
  -- the state after removeQueuedKey, and the entry list the loop walks
  cases q with
  | none =>
    have hrm : removeQueuedKey st s none = st := rfl
    have hfold := foldDequeue_props s ((st.subsF s).queued) st hnodup hkeys
      (fun q0 hq0 => (hmem q0).mpr ((hlookup_mem q0).mpr hq0))
    obtain ⟨ha0, ha, hb, hc, hcells, hsubsF, hcalls, hepoch, htrace⟩ := hfold
    unfold subCallPre subDequeueAll subClean
    rw [hrm]
    refine ⟨?_, ?_, ?_, ?_, ?_, ?_, ?_, ?_, ?_, ?_⟩
    · simpa using hcells
    · simpa using hcalls
    · simpa using hepoch
    · simpa using htrace
    · simp only [Function.update_same, hsubsF]
    · intro s' hne
      simp only [Function.update_noteq hne, hsubsF]
    · intro q0 h
      exact absurd h (by simp)
    · intro q0 _
      by_cases hq0 : q0 ∈ (st.subsF s).queued.map Prod.fst
      · exact ha q0 hq0
      · rw [ha0 q0 hq0]
        intro hmem0
        exact hq0 ((hlookup_mem q0).mp ((hmem q0).mp hmem0))
    · intro q0 s' hne
      exact hb q0 s' hne
    · intro q0
      exact hc q0
  | some qid =>
    set entries := (st.subsF s).queued.filter (fun p => p.1 ≠ qid) with hentries
    have hrmsub : (removeQueuedKey st s (some qid)).subsF s
        = { st.subsF s with queued := entries } := by
      unfold removeQueuedKey
      simp [Function.update_same, hentries]
    have hrmsub' : ∀ s', s' ≠ s →
        (removeQueuedKey st s (some qid)).subsF s' = st.subsF s' := by
      intro s' hne
      unfold removeQueuedKey
      simp [Function.update_noteq hne]
    have hrmq : (removeQueuedKey st s (some qid)).queues = st.queues := rfl
    have hrmc : (removeQueuedKey st s (some qid)).cells = st.cells := rfl
    have hkeysE : (entries.map Prod.fst).Nodup := filtered_keys_nodup hkeys qid
    have hmemE : ∀ q0, q0 ∈ entries.map Prod.fst →
        s ∈ ((removeQueuedKey st s (some qid)).queues q0).subs := by
      intro q0 hq0
      rw [hrmq]
      have := (mem_filtered_keys.mp (hentries ▸ hq0)).1
      exact (hmem q0).mpr ((hlookup_mem q0).mpr this)
    have hnodupE : ∀ q0, ((removeQueuedKey st s (some qid)).queues q0).subs.Nodup := by
      intro q0
      rw [hrmq]
      exact hnodup q0
    have hfold := foldDequeue_props s entries (removeQueuedKey st s (some qid))
      hnodupE hkeysE hmemE
    obtain ⟨ha0, ha, hb, hc, hcells, hsubsF, hcalls, hepoch, htrace⟩ := hfold
    have hentfold : ((removeQueuedKey st s (some qid)).subsF s).queued = entries := by
      rw [hrmsub]
    unfold subCallPre subDequeueAll subClean
    rw [hentfold]
    refine ⟨?_, ?_, ?_, ?_, ?_, ?_, ?_, ?_, ?_, ?_⟩
    · simpa [hrmc] using hcells
    · simpa using hcalls
    · simpa using hepoch
    · simpa using htrace
    · simp only [Function.update_same, hsubsF, hrmsub]
    · intro s' hne
      simp only [Function.update_noteq hne, hsubsF, hrmsub' s' hne]
    · intro q0 hq
      have hq0 : q0 = qid := by
        injection hq
        omega
      subst hq0
      have hnotkey : q0 ∉ entries.map Prod.fst := by
        intro hk
        exact (mem_filtered_keys.mp (hentries ▸ hk)).2 rfl
      have := ha0 q0 hnotkey
      rw [this, hrmq]
    · intro q0 hqne
      have hq0qid : q0 ≠ qid := fun he => hqne (by rw [he])
      by_cases hq0 : q0 ∈ entries.map Prod.fst
      · exact ha q0 hq0
      · rw [ha0 q0 hq0, hrmq]
        intro hmem0
        have hkey := (hlookup_mem q0).mp ((hmem q0).mp hmem0)
        exact hq0 (hentries ▸ mem_filtered_keys.mpr ⟨hkey, hq0qid⟩)
    · intro q0 s' hne
      rw [hb q0 s' hne, hrmq]
    · intro q0
      exact hc q0

/-- C4: when Subscriber.call(qid) dispatches a subscriber, the bookkeeping
completes before the user callback is invoked: the qid entry is deleted from
the queued map, the subscriber is dequeued from every other queue with those
entries deleted (the queued map is empty), and the call counter is
incremented, cleaning every link that references the subscriber — all of
this already holds in the pre-callback state subCallPre, and Subscriber.call
is exactly that state plus the callback invocation, so an exception thrown
by the callback propagates while the subscriber is left with an empty
queued map and all links clean, never mid-enqueued. -/
theorem call_bookkeeping_before_callback (st : EngSt) (s : Nat) (q : Option Nat)
    (hnodup : ∀ q0, (st.queues q0).subs.Nodup)
    (hmem : ∀ q0, s ∈ (st.queues q0).subs ↔ ((st.subsF s).queued.lookup q0).isSome)
    (hkeys : ((st.subsF s).queued.map Prod.fst).Nodup)
    (hstamps : ∀ c L, L ∈ (st.cells c).sync ++ (st.cells c).async → L.sub = s →
      L.stamp = (st.subsF s).calls ∨ L.stamp = (st.subsF s).calls - 1)
    (hrange : counterInRange ((st.subsF s).calls)) :
    ((subCallPre st s q).subsF s).queued = []
    ∧ ((subCallPre st s q).subsF s).calls = bumpCalls ((st.subsF s).calls)
    ∧ (∀ q0, q ≠ some q0 → s ∉ ((subCallPre st s q).queues q0).subs)
    ∧ (∀ c L, L ∈ ((subCallPre st s q).cells c).sync
          ++ ((subCallPre st s q).cells c).async → L.sub = s →
        isDirty L.stamp (((subCallPre st s q).subsF s).calls) = false)
    ∧ subCall st s q
        = { subCallPre st s q with
            trace := (subCallPre st s q).trace ++ [((subCallPre st s q).epoch, s)] } := by
  obtain ⟨hcells, hcalls, hepoch, htrace, hsubS, hsubO, hqsame, hqnot, hqmem, hqnd⟩ :=
    subCallPre_props st s q hnodup hmem hkeys
  refine ⟨?_, ?_, hqnot, ?_, rfl⟩
  · rw [hsubS]
  · rw [hsubS]
  · intro c L hL hLs
    rw [hcells] at hL
    rw [hsubS]
    have hst := hstamps c L hL hLs
    simp only [isDirty, decide_eq_false_iff_not]
    intro he
    rcases hst with h1 | h1
    · rw [h1] at he
      exact bumpCalls_ne_self hrange he.symm
    · rw [h1] at he
      exact bumpCalls_ne_pred hrange he.symm

/-- The empty engine state, for witnesses. -/
def engEmpty : EngSt :=
  { calls := 0
    epoch := 0
    cells := fun _ =>
      { value := 0, dirty := -1, sync := [], async := [], syncIter := SyncIter.reset }
    subsF := fun _ => { calls := 0, queued := [] }
    queues := fun _ =>
      { subs := [], queuedN := 0, sid := none, schedulable := true
        cancellable := false, notifying := false, rank := 0 }
    trace := [] }

theorem engEmpty_wf_queues : ∀ q0, (engEmpty.queues q0).subs.Nodup := by
  intro q0
  simp [engEmpty]

theorem engEmpty_wf_mem (s : Nat) :
    ∀ q0, s ∈ (engEmpty.queues q0).subs
      ↔ ((engEmpty.subsF s).queued.lookup q0).isSome := by
  intro q0
  simp [engEmpty]

/-- Witness for call_bookkeeping_before_callback at subscriber 7 of the
empty engine, dispatched from queue 3. -/
theorem call_bookkeeping_before_callback_witness :
    ((subCallPre engEmpty 7 (some 3)).subsF 7).queued = []
    ∧ subCall engEmpty 7 (some 3)
        = { subCallPre engEmpty 7 (some 3) with
            trace := (subCallPre engEmpty 7 (some 3)).trace
              ++ [((subCallPre engEmpty 7 (some 3)).epoch, 7)] } := by
  have h := call_bookkeeping_before_callback engEmpty 7 (some 3)
    engEmpty_wf_queues (engEmpty_wf_mem 7)
    (by simp [engEmpty])
    (by intro c L hL hLs; simp [engEmpty] at hL)
    (by constructor <;> decide)
  exact ⟨h.1, h.2.2.2.2⟩

theorem foldDequeue_cells (s : Nat) (entries : List (Nat × Nat)) :
    ∀ st : EngSt,
      (entries.foldl (fun acc p => queueDequeue acc p.1 s) st).cells = st.cells := by
  induction entries with
  | nil => intro st; rfl
  | cons p rest ih =>
    intro st
    simp only [List.foldl_cons]
    rw [ih (queueDequeue st p.1 s)]
    exact (queueDequeue_misc st p.1 s).1

theorem subDequeueAll_cells (st : EngSt) (s : Nat) :
    (subDequeueAll st s).cells = st.cells := by
  unfold subDequeueAll
  exact foldDequeue_cells s _ st

theorem subUnsubscribe_cells (st : EngSt) (s : Nat) (l : Option EngLink) :
    (subUnsubscribe st s l).cells = st.cells := by
  cases l with
  | none => exact subDequeueAll_cells st s
  | some L =>
    simp only [subUnsubscribe]
    split
    · split
      · rfl
      · split
        · rfl
        · split
          · rfl
          · rfl
    · rfl

theorem foldSubUnsub_cells (links : List EngLink) :
    ∀ st : EngSt,
      (links.foldl (fun acc L => subUnsubscribe acc L.sub (some L)) st).cells
        = st.cells := by
  induction links with
  | nil => intro st; rfl
  | cons L rest ih =>
    intro st
    simp only [List.foldl_cons]
    rw [ih, subUnsubscribe_cells]

/-- C10: unsubscribe-all never throws and always returns 0 — it informs
every linked subscriber, clears both the sync and async link lists and
(whenever sync links existed, the only case in which the JS sync_iter field
exists) resets the sync iteration sentinel, succeeding even when the cell
already has no subscribers — whereas the single-subscriber form throws
"Not subscribed" when no link for that subscriber exists. -/
theorem unsubscribe_semantics (st : EngSt) (c : Nat) :
    (∃ st2, reactiveUnsubscribe st c none = Except.ok (st2, 0)
      ∧ (st2.cells c).sync = [] ∧ (st2.cells c).async = []
      ∧ ((st.cells c).sync ≠ [] → (st2.cells c).syncIter = SyncIter.reset))
    ∧ (∀ s, findSubscriber (st.cells c).sync s = none →
        findSubscriber (st.cells c).async s = none →
        reactiveUnsubscribe st c (some s) = Except.error "Not subscribed") := by
  constructor
  · unfold reactiveUnsubscribe
    refine ⟨_, rfl, ?_, ?_, ?_⟩
    · split
      · split
        · simp [Function.update_same, foldSubUnsub_cells]
        · simp [Function.update_same, foldSubUnsub_cells]
      · rename_i hs
        push_neg at hs
        have hse : (st.cells c).sync = [] := List.length_eq_zero.mp hs
        split
        · simp only [Function.update_same, foldSubUnsub_cells]
          exact hse
        · exact hse
    · split
      · split
        · simp [Function.update_same, foldSubUnsub_cells]
        · rename_i ha2
          push_neg at ha2
          simp only [Function.update_same, foldSubUnsub_cells] at ha2
          simp only [Function.update_same, foldSubUnsub_cells]
          exact List.length_eq_zero.mp ha2
      · split
        · simp [Function.update_same, foldSubUnsub_cells]
        · rename_i ha2
          push_neg at ha2
          exact List.length_eq_zero.mp ha2
    · intro hsne
      have hs : (st.cells c).sync.length ≠ 0 := by
        intro h0
        exact hsne (List.length_eq_zero.mp h0)
      rw [if_pos hs]
      split
      · simp [Function.update_same, foldSubUnsub_cells]
      · simp [Function.update_same, foldSubUnsub_cells]
  · intro s hsync hasync
    simp only [reactiveUnsubscribe]
    rw [hsync, hasync]

/-- A one-sync-link cell on the otherwise empty engine. -/
def engC10 : EngSt :=
  { engEmpty with
    cells := Function.update engEmpty.cells 0
      { value := 0, dirty := -1, sync := [⟨5, -1, none⟩], async := []
        syncIter := SyncIter.reset } }

/-- Witness for unsubscribe_semantics on a cell with one sync link:
unsubscribe-all succeeds with 0 and a targeted unsubscribe of the
non-subscriber 9 throws. -/
theorem unsubscribe_semantics_witness :
    (∃ st2, reactiveUnsubscribe engC10 0 none = Except.ok (st2, 0)
      ∧ (st2.cells 0).sync = [] ∧ (st2.cells 0).async = []
      ∧ ((engC10.cells 0).sync ≠ [] → (st2.cells 0).syncIter = SyncIter.reset))
    ∧ reactiveUnsubscribe engC10 0 (some 9) = Except.error "Not subscribed" :=
  ⟨(unsubscribe_semantics engC10 0).1,
   (unsubscribe_semantics engC10 0).2 9 rfl rfl⟩

/-- Two independent queues: queue 0 at rank 1 (lower priority) holding
subscriber 1, queue 5 at rank 6 (higher priority) holding subscriber 2. -/
def engC2 : EngSt :=
  { engEmpty with
    subsF := fun s =>
      if s = 1 then { calls := 0, queued := [(0, 1)] }
      else if s = 2 then { calls := 0, queued := [(5, 1)] }
      else { calls := 0, queued := [] }
    queues := fun q =>
      if q = 0 then
        { subs := [1], queuedN := 1, sid := some true, schedulable := true
          cancellable := true, notifying := false, rank := 1 }
      else if q = 5 then
        { subs := [2], queuedN := 1, sid := some true, schedulable := true
          cancellable := true, notifying := false, rank := 6 }
      else engEmpty.queues q }

/-- C2 counterexample for the claim as stated: Queue.flush (the explicit
flush path, also what AutoQueue's flush methods delegate to) drains only
its own queue.  Flushing the rank-6 queue invokes its subscriber (the
trace records subscriber 2) while the rank-1 queue still holds its pending
subscriber, so a strictly lower-priority queue was not drained before a
priority-P subscriber ran.  Only the scheduler's RecursiveQueue.flush
honours the ranking (sched_flush model). -/
theorem queue_flush_skips_lower_ranks_counterexample :
    (engC2.queues 0).rank < (engC2.queues 5).rank
    ∧ (engC2.queues 0).subs = [1]
    ∧ (engFlushQ engC2 5 false).trace = [(1, 2)]
    ∧ ((engFlushQ engC2 5 false).queues 0).subs = [1] :=
  ⟨by decide, rfl, rfl, rfl⟩

/-! ### AutoQueue registry (AutoQueue.mjs): acquisition of shared queues -/

/-- An AutoQueue handle: the fields the constructor assigns. -/
structure AQ where
  mode : String
  timeout : Int
  qid : String
deriving Repr, DecidableEq

/-- The managed backing queue, with the back-reference installed by
ensure (`queue.autoqueue = this`). -/
structure RegQueue where
  qid : String
  autoqueue : Option AQ
deriving Repr, DecidableEq

/-- The module-level `queues` Map of AutoQueue.mjs.  `autoqueueProp` is
the `autoqueue` expando property of the Map object itself: no statement in
the module ever assigns to it, so it stays `undefined` (`none`); the
constructor nevertheless reads it on the existing-queue path. -/
structure Registry where
  entries : List (String × RegQueue)
  autoqueueProp : Option AQ
deriving Repr, DecidableEq

def emptyRegistry : Registry := ⟨[], none⟩

/-- The AutoQueue constructor-function: compute `qid = mode+timeout`; when
a queue with that qid already exists, `return queues.autoqueue` — a
property read off the Map object, not off the existing queue — otherwise
construct a fresh handle carrying mode, timeout and qid. -/
def autoQueueNew (reg : Registry) (mode : String) (timeout : Int) : Option AQ :=
  let qid := mode ++ toString timeout
  match reg.entries.lookup qid with
  | some _ => reg.autoqueueProp
  | none => some { mode := mode, timeout := timeout, qid := qid }

/-- AutoQueue.prototype.ensure: on first use create the backing queue,
install the back-reference and register it under qid (Map insertion
order); otherwise return the registered queue. -/
def aqEnsure (reg : Registry) (a : AQ) : Registry × RegQueue :=
  match reg.entries.lookup a.qid with
  | some q => (reg, q)
  | none =>
    let q : RegQueue := { qid := a.qid, autoqueue := some a }
    ({ reg with entries := reg.entries ++ [(a.qid, q)] }, q)

/-- C9: acquiring the shared queue twice with the same (mode, timeout) is
NOT idempotent — the code has a bug.  The first AutoQueue("microtask", -1)
returns a fresh handle; once ensure registers its backing queue (which any
first enqueue does), a second AutoQueue("microtask", -1) call finds the
existing queue and executes `return queues.autoqueue`, a read of an
unassigned property of the Map object, yielding `undefined` (`none`)
instead of the live handle stored on the existing queue
(`exists.autoqueue`, here still recorded in the registry entry). -/
theorem acquire_twice_returns_undefined :
    ∃ a reg1,
      autoQueueNew emptyRegistry "microtask" (-1) = some a
      ∧ aqEnsure emptyRegistry a = (reg1, { qid := a.qid, autoqueue := some a })
      ∧ (reg1.entries.lookup ("microtask" ++ toString (-1 : Int))).isSome = true
      ∧ autoQueueNew reg1 "microtask" (-1) = none
      ∧ reg1.entries.lookup "microtask-1"
          = some { qid := "microtask-1"
                   autoqueue := some { mode := "microtask", timeout := -1
                                       qid := "microtask-1" } } := by
  refine ⟨_, _, rfl, rfl, rfl, rfl, rfl⟩

/-! ### Silencing: once a subscriber is linked to no cell-c link and sits in
no queue, engine activity on c and queue drains never dispatch it -/

/-- S has no link on cell c and sits in no queue. -/
def NoSub (c S : Nat) (st : EngSt) : Prop :=
  (∀ L ∈ (st.cells c).sync, L.sub ≠ S)
  ∧ (∀ L ∈ (st.cells c).async, L.sub ≠ S)
  ∧ (∀ q, S ∉ (st.queues q).subs)

/-- st' extends st's trace by entries that never mention S. -/
def SilentExt (S : Nat) (st st' : EngSt) : Prop :=
  ∃ t, st'.trace = st.trace ++ t ∧ ∀ p ∈ t, p.2 ≠ S

theorem silentExt_refl (S : Nat) (st : EngSt) : SilentExt S st st :=
  ⟨[], by simp, by simp⟩

theorem silentExt_of_eq {S : Nat} {st st' : EngSt} (h : st'.trace = st.trace) :
    SilentExt S st st' :=
  ⟨[], by simp [h], by simp⟩

theorem silentExt_trans {S : Nat} {st st' st'' : EngSt}
    (h1 : SilentExt S st st') (h2 : SilentExt S st' st'') :
    SilentExt S st st'' := by
  obtain ⟨t1, e1, f1⟩ := h1
  obtain ⟨t2, e2, f2⟩ := h2
  refine ⟨t1 ++ t2, by rw [e2, e1, List.append_assoc], ?_⟩
  intro p hp
  rcases List.mem_append.mp hp with h | h
  · exact f1 p h
  · exact f2 p h

/-- Transport NoSub along a state change that keeps cell c's links and
only shrinks (for S) each queue's membership. -/
theorem noSub_congr (c S : Nat) (st st' : EngSt)
    (hn : NoSub c S st)
    (hc : st'.cells c = st.cells c)
    (hq : ∀ q0, S ∈ (st'.queues q0).subs → S ∈ (st.queues q0).subs) :
    NoSub c S st' := by
  obtain ⟨h1, h2, h3⟩ := hn
  refine ⟨?_, ?_, ?_⟩
  · rw [hc]; exact h1
  · rw [hc]; exact h2
  · intro q0 hmem
    exact h3 q0 (hq q0 hmem)

/-- Replacing one queue by a record whose subscriber list cannot newly
contain S keeps NoSub. -/
theorem noSub_queues_update (c S : Nat) (st : EngSt) (q : Nat) (qu' : EngQueue)
    (hn : NoSub c S st)
    (hsub : S ∈ qu'.subs → S ∈ (st.queues q).subs) :
    NoSub c S { st with queues := Function.update st.queues q qu' } := by
  refine ⟨hn.1, hn.2.1, ?_⟩
  intro q0 hmem
  dsimp only at hmem
  by_cases hq0 : q0 = q
  · subst hq0
    rw [Function.update_same] at hmem
    exact hn.2.2 _ (hsub hmem)
  · rw [Function.update_noteq hq0] at hmem
    exact hn.2.2 q0 hmem

theorem jsSplice_subset {l : List Nat} {s x : Nat}
    (h : x ∈ jsSpliceRemoveLast l s) : x ∈ l := by
  unfold jsSpliceRemoveLast at h
  split at h
  · have h2 : x ∈ l.reverse.erase s := List.mem_reverse.mp h
    exact List.mem_reverse.mp (List.mem_of_mem_erase h2)
  · exact (List.dropLast_sublist l).mem h

theorem foldDequeue_untouched (s : Nat) (entries : List (Nat × Nat)) :
    ∀ st : EngSt,
      (entries.foldl (fun acc p => queueDequeue acc p.1 s) st).trace = st.trace
      ∧ (entries.foldl (fun acc p => queueDequeue acc p.1 s) st).epoch = st.epoch := by
  induction entries with
  | nil => intro st; exact ⟨rfl, rfl⟩
  | cons p rest ih =>
    intro st
    simp only [List.foldl_cons]
    obtain ⟨ht, he⟩ := ih (queueDequeue st p.1 s)
    obtain ⟨_, _, _, hde, hdt⟩ := queueDequeue_misc st p.1 s
    exact ⟨ht.trans hdt, he.trans hde⟩

theorem foldDequeue_subs_subset (s : Nat) (entries : List (Nat × Nat)) :
    ∀ (st : EngSt) (q0 x : Nat),
      x ∈ ((entries.foldl (fun acc p => queueDequeue acc p.1 s) st).queues q0).subs
      → x ∈ (st.queues q0).subs := by
  induction entries with
  | nil => intro st q0 x h; exact h
  | cons p rest ih =>
    intro st q0 x h
    simp only [List.foldl_cons] at h
    have h1 := ih (queueDequeue st p.1 s) q0 x h
    by_cases hq0 : q0 = p.1
    · subst hq0
      rw [queueDequeue_subs_self] at h1
      exact jsSplice_subset h1
    · rwa [queueDequeue_queues_other st p.1 s q0 hq0] at h1

theorem removeQueuedKey_untouched (st : EngSt) (s : Nat) (q : Option Nat) :
    (removeQueuedKey st s q).cells = st.cells
    ∧ (removeQueuedKey st s q).queues = st.queues
    ∧ (removeQueuedKey st s q).trace = st.trace
    ∧ (removeQueuedKey st s q).epoch = st.epoch := by
  cases q with
  | none => exact ⟨rfl, rfl, rfl, rfl⟩
  | some qid => exact ⟨rfl, rfl, rfl, rfl⟩

theorem subCallPre_untouched (st : EngSt) (s : Nat) (q : Option Nat) :
    (subCallPre st s q).cells = st.cells
    ∧ (subCallPre st s q).trace = st.trace
    ∧ (subCallPre st s q).epoch = st.epoch := by
  obtain ⟨hc, hq, ht, he⟩ := removeQueuedKey_untouched st s q
  obtain ⟨hft, hfe⟩ := foldDequeue_untouched s
    ((removeQueuedKey st s q).subsF s).queued (removeQueuedKey st s q)
  unfold subCallPre subClean subDequeueAll
  refine ⟨?_, ?_, ?_⟩
  · simpa [foldDequeue_cells] using hc
  · simpa [hft] using ht
  · simpa [hfe] using he

theorem subCall_trace (st : EngSt) (s : Nat) (q : Option Nat) :
    (subCall st s q).trace = st.trace ++ [(st.epoch, s)] := by
  unfold subCall
  obtain ⟨_, ht, he⟩ := subCallPre_untouched st s q
  dsimp only
  rw [ht, he]

theorem subCall_cells (st : EngSt) (s : Nat) (q : Option Nat) :
    (subCall st s q).cells = st.cells :=
  (subCallPre_untouched st s q).1

theorem subCall_epoch (st : EngSt) (s : Nat) (q : Option Nat) :
    (subCall st s q).epoch = st.epoch :=
  (subCallPre_untouched st s q).2.2

theorem subCall_queues_subset (st : EngSt) (s : Nat) (q : Option Nat)
    (q0 x : Nat) (h : x ∈ ((subCall st s q).queues q0).subs) :
    x ∈ (st.queues q0).subs := by
  unfold subCall subCallPre subClean subDequeueAll at h
  dsimp only at h
  have h1 := foldDequeue_subs_subset s
    ((removeQueuedKey st s q).subsF s).queued (removeQueuedKey st s q) q0 x h
  rwa [(removeQueuedKey_untouched st s q).2.1] at h1

theorem subCall_noSub {c S : Nat} {st : EngSt} (hn : NoSub c S st)
    (s : Nat) (q : Option Nat) :
    NoSub c S (subCall st s q) :=
  noSub_congr c S st (subCall st s q) hn (by rw [subCall_cells])
    (fun q0 => subCall_queues_subset st s q q0 S)

theorem subCall_silent {S : Nat} {st : EngSt} {s : Nat} (hs : s ≠ S)
    (q : Option Nat) : SilentExt S st (subCall st s q) :=
  ⟨[(st.epoch, s)], subCall_trace st s q, by simpa using hs⟩

theorem engCalled_noSub (c S : Nat) (st : EngSt) (hn : NoSub c S st) :
    NoSub c S (engCalled st) :=
  noSub_congr c S st (engCalled st) hn rfl (fun _ h => h)

theorem engIter_silent (q c S : Nat) :
    ∀ (fuel : Nat) (st : EngSt) (i b : Nat), NoSub c S st →
      NoSub c S (engIter q fuel st i b) ∧ SilentExt S st (engIter q fuel st i b) := by
  intro fuel
  induction fuel with
  | zero =>
    intro st i b hn
    exact ⟨hn, silentExt_refl S st⟩
  | succ n ih =>
    intro st i b hn
    simp only [engIter]
    split
    · split
      · exact ⟨hn, silentExt_refl S st⟩
      · rename_i s hsome
        have hsmem : s ∈ (st.queues q).subs := List.get?_mem hsome
        have hsne : s ≠ S := fun he => hn.2.2 q (he ▸ hsmem)
        have hn1 : NoSub c S (subCall st s (some q)) := subCall_noSub hn s (some q)
        have hn2 := noSub_queues_update c S (subCall st s (some q)) q
          { (subCall st s (some q)).queues q with
            queuedN := ((subCall st s (some q)).queues q).queuedN - 1 }
          hn1 (fun h => h)
        obtain ⟨hA, hB⟩ := ih _ (i + 1) b hn2
        exact ⟨hA, silentExt_trans (subCall_silent hsne (some q))
          (silentExt_trans (silentExt_of_eq rfl) hB)⟩
    · split
      · refine ⟨noSub_queues_update c S st q
          { st.queues q with subs := [], sid := none, notifying := false }
          hn ?_, silentExt_of_eq rfl⟩
        intro h
        simp at h
      · have hnB : NoSub c S
            (engCalled
              { st with
                queues := Function.update st.queues q
                  { st.queues q with subs := (st.queues q).subs.drop b } }) :=
          engCalled_noSub c S _ (noSub_queues_update c S st q
            { st.queues q with subs := (st.queues q).subs.drop b } hn
            (fun h => (List.drop_sublist b (st.queues q).subs).mem h))
        obtain ⟨hA, hB⟩ := ih _ 0 ((st.queues q).subs.length - b) hnB
        exact ⟨hA, silentExt_trans (silentExt_of_eq rfl) hB⟩

theorem engNotifyQ_silent {c S : Nat} {st : EngSt} (hn : NoSub c S st) (q : Nat) :
    NoSub c S (engNotifyQ st q) ∧ SilentExt S st (engNotifyQ st q) := by
  unfold engNotifyQ
  dsimp only
  have hn2 := noSub_queues_update c S (engCalled st) q
    { (engCalled st).queues q with notifying := true }
    (engCalled_noSub c S st hn) (fun h => h)
  obtain ⟨hA, hB⟩ := engIter_silent q c S _ _ 0 _ hn2
  exact ⟨hA, silentExt_trans (silentExt_of_eq rfl) hB⟩

theorem engFlushQ_silent {c S : Nat} {st : EngSt} (hn : NoSub c S st)
    (q : Nat) (recursive : Bool) :
    NoSub c S (engFlushQ st q recursive)
    ∧ SilentExt S st (engFlushQ st q recursive) := by
  unfold engFlushQ
  split
  · split
    · have hn1 := noSub_queues_update c S st q
        { st.queues q with sid := some true } hn (fun h => h)
      obtain ⟨hA, hB⟩ := engNotifyQ_silent hn1 q
      exact ⟨hA, silentExt_trans (silentExt_of_eq rfl) hB⟩
    · exact engNotifyQ_silent hn q
  · split
    · exact engNotifyQ_silent hn q
    · exact ⟨hn, silentExt_refl S st⟩

theorem engEnqueueQ_silent {c S : Nat} {st : EngSt} {s : Nat} (hs : s ≠ S)
    (hn : NoSub c S st) (q : Nat) :
    NoSub c S (engEnqueueQ st q s) ∧ SilentExt S st (engEnqueueQ st q s) := by
  unfold engEnqueueQ
  dsimp only
  have hn1 : NoSub c S
      { st with
        queues := Function.update st.queues q
          { st.queues q with
            subs := (st.queues q).subs ++ [s], queuedN := (st.queues q).queuedN + 1 } } := by
    refine noSub_queues_update c S st q _ hn ?_
    intro h
    rcases List.mem_append.mp h with h | h
    · exact h
    · simp at h
      exact absurd h.symm hs
  split
  · obtain ⟨hA, hB⟩ := engFlushQ_silent hn1 q true
    exact ⟨hA, silentExt_trans (silentExt_of_eq rfl) hB⟩
  · split
    · exact ⟨noSub_queues_update c S _ q _ hn1 (fun h => h), silentExt_of_eq rfl⟩
    · exact ⟨hn1, silentExt_of_eq rfl⟩

/-- Replacing one cell by a record whose link lists (when it is cell c)
still avoid S keeps NoSub. -/
theorem noSub_cells_update (c S : Nat) (st : EngSt) (c' : Nat) (cc' : EngCell)
    (hn : NoSub c S st)
    (hs : c' = c → (∀ L ∈ cc'.sync, L.sub ≠ S) ∧ (∀ L ∈ cc'.async, L.sub ≠ S)) :
    NoSub c S { st with cells := Function.update st.cells c' cc' } := by
  refine ⟨?_, ?_, hn.2.2⟩
  · intro L hL
    dsimp only at hL
    by_cases hc : c' = c
    · rw [← hc, Function.update_same] at hL
      exact (hs hc).1 L hL
    · rw [Function.update_noteq (fun he => hc he.symm)] at hL
      exact hn.1 L hL
  · intro L hL
    dsimp only at hL
    by_cases hc : c' = c
    · rw [← hc, Function.update_same] at hL
      exact (hs hc).2 L hL
    · rw [Function.update_noteq (fun he => hc he.symm)] at hL
      exact hn.2.1 L hL

/-- Changing only the subscriber table keeps NoSub. -/
theorem noSub_subsF (c S : Nat) (st : EngSt) (f : Nat → EngSub)
    (hn : NoSub c S st) : NoSub c S { st with subsF := f } :=
  ⟨hn.1, hn.2.1, hn.2.2⟩

theorem setAsyncStamp_trace (st : EngSt) (c' idx : Nat) (v : Int) :
    (setAsyncStamp st c' idx v).trace = st.trace := by
  unfold setAsyncStamp
  split <;> rfl

theorem setAsyncStamp_noSub (c S : Nat) (st : EngSt) (c' idx : Nat) (v : Int)
    (hn : NoSub c S st) : NoSub c S (setAsyncStamp st c' idx v) := by
  unfold setAsyncStamp
  split
  · exact hn
  · rename_i L hL
    refine noSub_cells_update c S st c' _ hn ?_
    intro hc
    constructor
    · intro L' hL'
      have h2 : L' ∈ (st.cells c').sync := hL'
      rw [hc] at h2
      exact hn.1 L' h2
    · intro L' hL'
      have h2 : L' ∈ (st.cells c').async.set idx { L with stamp := v } := hL'
      rcases List.mem_or_eq_of_mem_set h2 with h | h
      · rw [hc] at h
        exact hn.2.1 L' h
      · have hm : L ∈ (st.cells c').async := List.get?_mem hL
        rw [hc] at hm
        have := hn.2.1 L hm
        rw [h]
        exact this

theorem setSyncStamp_trace (st : EngSt) (c' idx : Nat) :
    (setSyncStamp st c' idx).trace = st.trace := by
  unfold setSyncStamp
  split <;> rfl

theorem setSyncStamp_noSub (c S : Nat) (st : EngSt) (c' idx : Nat)
    (hn : NoSub c S st) : NoSub c S (setSyncStamp st c' idx) := by
  unfold setSyncStamp
  split
  · exact hn
  · rename_i L hL
    refine noSub_cells_update c S st c' _ hn ?_
    intro hc
    constructor
    · intro L' hL'
      have h2 : L' ∈ (st.cells c').sync.set idx
          { L with stamp := setDirty ((st.subsF L.sub).calls) true } := hL'
      rcases List.mem_or_eq_of_mem_set h2 with h | h
      · rw [hc] at h
        exact hn.1 L' h
      · have hm : L ∈ (st.cells c').sync := List.get?_mem hL
        rw [hc] at hm
        have := hn.1 L hm
        rw [h]
        exact this
    · intro L' hL'
      have h2 : L' ∈ (st.cells c').async := hL'
      rw [hc] at h2
      exact hn.2.1 L' h2

theorem subEnqueue_silent (c S : Nat) (st : EngSt) (idx : Nat)
    (hn : NoSub c S st) :
    NoSub c S (subEnqueue st c idx) ∧ SilentExt S st (subEnqueue st c idx) := by
  unfold subEnqueue
  dsimp only
  split
  · exact ⟨hn, silentExt_refl S st⟩
  · rename_i L hL
    have hLS : L.sub ≠ S := hn.2.1 L (List.get?_mem hL)
    split
    · exact ⟨hn, silentExt_refl S st⟩
    · have hn1 := setAsyncStamp_noSub c S st c idx
        (setDirty ((st.subsF L.sub).calls) true) hn
      have hext1 : SilentExt S st
          (setAsyncStamp st c idx (setDirty ((st.subsF L.sub).calls) true)) :=
        silentExt_of_eq (setAsyncStamp_trace st c idx _)
      split
      · exact ⟨hn1, hext1⟩
      · split
        · exact ⟨noSub_subsF c S _ _ hn1,
            silentExt_of_eq (setAsyncStamp_trace st c idx _)⟩
        · rename_i qid hqeq hnsome
          obtain ⟨hA, hB⟩ := engEnqueueQ_silent hLS
            (noSub_subsF c S _ _ hn1) qid
          refine ⟨hA, silentExt_trans ?_ hB⟩
          exact silentExt_of_eq (setAsyncStamp_trace st c idx _)

theorem asyncLoop_silent (c S : Nat) :
    ∀ (fuel idx : Nat) (st : EngSt), NoSub c S st →
      NoSub c S (asyncLoop c fuel idx st) ∧ SilentExt S st (asyncLoop c fuel idx st) := by
  intro fuel
  induction fuel with
  | zero => intro idx st hn; exact ⟨hn, silentExt_refl S st⟩
  | succ n ih =>
    intro idx st hn
    simp only [asyncLoop]
    split
    · obtain ⟨hn1, he1⟩ := subEnqueue_silent c S st idx hn
      obtain ⟨hA, hB⟩ := ih (idx + 1) _ hn1
      exact ⟨hA, silentExt_trans he1 hB⟩
    · exact ⟨hn, silentExt_refl S st⟩

theorem markLoop_silent (c S sl : Nat) :
    ∀ (fuel i : Nat) (st : EngSt), NoSub c S st →
      NoSub c S (markLoop c sl fuel i st)
      ∧ (markLoop c sl fuel i st).trace = st.trace := by
  intro fuel
  induction fuel with
  | zero => intro i st hn; exact ⟨hn, rfl⟩
  | succ n ih =>
    intro i st hn
    simp only [markLoop]
    split
    · obtain ⟨hA, hB⟩ := ih (i + 1) _ (setSyncStamp_noSub c S st c i hn)
      exact ⟨hA, hB.trans (setSyncStamp_trace st c i)⟩
    · exact ⟨hn, rfl⟩

theorem syncCall0_silent (c S : Nat) (st : EngSt) (hn : NoSub c S st) :
    NoSub c S (syncCall0 st c) ∧ SilentExt S st (syncCall0 st c) := by
  unfold syncCall0
  split
  · exact ⟨hn, silentExt_refl S st⟩
  · rename_i L hL
    have hLS : L.sub ≠ S := hn.1 L (List.get?_mem hL)
    exact ⟨subCall_noSub hn L.sub none, subCall_silent hLS none⟩

theorem syncLoopE_silent (c S : Nat) :
    ∀ (fuel : Nat) (st : EngSt), NoSub c S st →
      NoSub c S (syncLoopE c fuel st) ∧ SilentExt S st (syncLoopE c fuel st) := by
  intro fuel
  induction fuel with
  | zero => intro st hn; exact ⟨hn, silentExt_refl S st⟩
  | succ n ih =>
    intro st hn
    simp only [syncLoopE]
    split
    · split
      · split
        · exact ⟨hn, silentExt_refl S st⟩
        · rename_i L hL
          have hLS : L.sub ≠ S := hn.1 L (List.get?_mem hL)
          by_cases hd : isDirty L.stamp ((st.subsF L.sub).calls) = true
          · rw [if_pos hd]
            have hn1 : NoSub c S (subCall st L.sub none) := subCall_noSub hn L.sub none
            have hn2 := noSub_cells_update c S (subCall st L.sub none) c
              { (subCall st L.sub none).cells c with
                syncIter := ⟨((subCall st L.sub none).cells c).syncIter.i + 1,
                  ((subCall st L.sub none).cells c).syncIter.stop⟩ }
              hn1 (fun _ => ⟨fun L' hL' => hn1.1 L' hL', fun L' hL' => hn1.2.1 L' hL'⟩)
            obtain ⟨hA, hB⟩ := ih _ hn2
            exact ⟨hA, silentExt_trans (subCall_silent hLS none)
              (silentExt_trans (silentExt_of_eq rfl) hB)⟩
          · rw [if_neg hd]
            have hn2 := noSub_cells_update c S st c
              { st.cells c with
                syncIter := ⟨(st.cells c).syncIter.i + 1, (st.cells c).syncIter.stop⟩ }
              hn (fun _ => ⟨fun L' hL' => hn.1 L' hL', fun L' hL' => hn.2.1 L' hL'⟩)
            obtain ⟨hA, hB⟩ := ih _ hn2
            exact ⟨hA, silentExt_trans (silentExt_of_eq rfl) hB⟩
      · exact ⟨hn, silentExt_refl S st⟩
    · exact ⟨hn, silentExt_refl S st⟩

theorem reactiveNotify_silent (c S : Nat) (st : EngSt) (hn : NoSub c S st) :
    NoSub c S (reactiveNotify st c) ∧ SilentExt S st (reactiveNotify st c) := by
  have main : ∀ stx : EngSt, NoSub c S stx → SilentExt S st stx →
      NoSub c S (
        if (stx.cells c).sync.length = 0 then stx
        else
          let st2 := engCalled stx
          let st3 :=
            if 1 < (stx.cells c).sync.length then
              let stM := markLoop c (stx.cells c).sync.length
                ((stx.cells c).sync.length + 1) 1 st2
              { stM with
                cells := Function.update stM.cells c
                  { stM.cells c with
                    syncIter := SyncIter.resetTo 1 (stx.cells c).sync.length } }
            else st2
          let st4 := syncCall0 st3 c
          if 1 < (stx.cells c).sync.length then
            let st5 := syncLoopE c ((stx.cells c).sync.length + 1) st4
            { st5 with
              cells := Function.update st5.cells c
                { st5.cells c with syncIter := SyncIter.reset } }
          else st4)
      ∧ SilentExt S st (
        if (stx.cells c).sync.length = 0 then stx
        else
          let st2 := engCalled stx
          let st3 :=
            if 1 < (stx.cells c).sync.length then
              let stM := markLoop c (stx.cells c).sync.length
                ((stx.cells c).sync.length + 1) 1 st2
              { stM with
                cells := Function.update stM.cells c
                  { stM.cells c with
                    syncIter := SyncIter.resetTo 1 (stx.cells c).sync.length } }
            else st2
          let st4 := syncCall0 st3 c
          if 1 < (stx.cells c).sync.length then
            let st5 := syncLoopE c ((stx.cells c).sync.length + 1) st4
            { st5 with
              cells := Function.update st5.cells c
                { st5.cells c with syncIter := SyncIter.reset } }
          else st4) := by
    intro stx hnx hex
    dsimp only
    split
    · exact ⟨hnx, hex⟩
    · have hn2 : NoSub c S (engCalled stx) := engCalled_noSub c S stx hnx
      split
      · rename_i hsl
        obtain ⟨hnM, htM⟩ := markLoop_silent c S (stx.cells c).sync.length
          ((stx.cells c).sync.length + 1) 1 (engCalled stx) hn2
        have hn3 := noSub_cells_update c S _ c
          { (markLoop c (stx.cells c).sync.length
              ((stx.cells c).sync.length + 1) 1 (engCalled stx)).cells c with
            syncIter := SyncIter.resetTo 1 (stx.cells c).sync.length }
          hnM (fun _ => ⟨fun L hL => hnM.1 L hL, fun L hL => hnM.2.1 L hL⟩)
        obtain ⟨hn4, he4⟩ := syncCall0_silent c S _ hn3
        obtain ⟨hn5, he5⟩ := syncLoopE_silent c S ((stx.cells c).sync.length + 1) _ hn4
        refine ⟨noSub_cells_update c S _ c _ hn5
          (fun _ => ⟨fun L hL => hn5.1 L hL, fun L hL => hn5.2.1 L hL⟩), ?_⟩
        refine silentExt_trans hex (silentExt_trans (silentExt_of_eq htM)
          (silentExt_trans (silentExt_of_eq rfl)
            (silentExt_trans he4 (silentExt_trans he5 (silentExt_of_eq rfl)))))
      · rename_i hsl
        obtain ⟨hn4, he4⟩ := syncCall0_silent c S _ hn2
        exact ⟨hn4, silentExt_trans hex (silentExt_trans (silentExt_of_eq rfl) he4)⟩
  unfold reactiveNotify
  by_cases hcond : (st.cells c).async.length ≠ 0 ∧ (st.cells c).dirty ≠ st.calls
  · rw [if_pos hcond]
    have hnd := noSub_cells_update c S st c { st.cells c with dirty := st.calls } hn
      (fun _ => ⟨fun L hL => hn.1 L hL, fun L hL => hn.2.1 L hL⟩)
    obtain ⟨hnA, heA⟩ := asyncLoop_silent c S ((st.cells c).async.length + 1) 0 _ hnd
    exact main _ hnA (silentExt_trans (silentExt_of_eq rfl) heA)
  · rw [if_neg hcond]
    exact main st hn (silentExt_refl S st)

theorem reactiveSet_silent (c S : Nat) (st : EngSt) (v : Int) (hn : NoSub c S st) :
    NoSub c S (reactiveSet st c v) ∧ SilentExt S st (reactiveSet st c v) := by
  unfold reactiveSet
  have hnv := noSub_cells_update c S st c { st.cells c with value := v } hn
    (fun _ => ⟨fun L hL => hn.1 L hL, fun L hL => hn.2.1 L hL⟩)
  obtain ⟨hA, hB⟩ := reactiveNotify_silent c S _ hnv
  exact ⟨hA, silentExt_trans (silentExt_of_eq rfl) hB⟩

theorem engStep_silent (c S : Nat) (st : EngSt) (op : EngOp)
    (hop : (∃ v, op = EngOp.set c v) ∨ (∃ q0, op = EngOp.drain q0))
    (hn : NoSub c S st) :
    NoSub c S (engStep st op) ∧ SilentExt S st (engStep st op) := by
  cases op with
  | set c' v =>
    rcases hop with ⟨v', he⟩ | ⟨q0, he⟩
    · injection he with hc hv
      subst hc
      exact reactiveSet_silent c' S st v hn
    · exact EngOp.noConfusion he
  | drain q => exact engNotifyQ_silent hn q

theorem engRun_silent (c S : Nat) :
    ∀ (ops : List EngOp) (st : EngSt),
      (∀ op ∈ ops, (∃ v, op = EngOp.set c v) ∨ (∃ q0, op = EngOp.drain q0)) →
      NoSub c S st →
      NoSub c S (engRun st ops) ∧ SilentExt S st (engRun st ops) := by
  intro ops
  induction ops with
  | nil => intro st _ hn; exact ⟨hn, silentExt_refl S st⟩
  | cons op rest ih =>
    intro st hops hn
    obtain ⟨hn1, he1⟩ := engStep_silent c S st op (hops op (by simp)) hn
    obtain ⟨hA, hB⟩ := ih (engStep st op)
      (fun o ho => hops o (List.mem_cons_of_mem _ ho)) hn1
    exact ⟨hA, silentExt_trans he1 hB⟩

theorem findSubscriber_none {arr : List EngLink} {s : Nat}
    (h : findSubscriber arr s = none) : ∀ L ∈ arr, L.sub ≠ s := by
  intro L hL
  have h2 := List.findIdx?_eq_none_iff.mp h L hL
  simpa using h2

theorem eraseIdx_sub_ne {S : Nat} :
    ∀ (l : List EngLink) (i : Nat) (L : EngLink),
      (l.map EngLink.sub).Nodup → l.get? i = some L → L.sub = S →
      ∀ L' ∈ l.eraseIdx i, L'.sub ≠ S := by
  intro l
  induction l with
  | nil =>
    intro i L _ hg
    simp at hg
  | cons a tl ih =>
    intro i L hnd hg hLS L' hL'
    have hnd2 : (∀ x ∈ tl, x.sub ≠ a.sub) ∧ (tl.map EngLink.sub).Nodup := by
      simpa using hnd
    cases i with
    | zero =>
      have ha : a = L := by simpa using hg
      have hL'2 : L' ∈ tl := by simpa [List.eraseIdx] using hL'
      intro he
      exact hnd2.1 L' hL'2 (by rw [he, ha, hLS])
    | succ n =>
      have hg2 : tl.get? n = some L := hg
      have hL'2 : L' = a ∨ L' ∈ tl.eraseIdx n := by
        simpa [List.eraseIdx] using hL'
      rcases hL'2 with h | h
      · subst h
        intro he
        exact hnd2.1 L (List.get?_mem hg2) (by rw [hLS, he])
      · exact ih n L hnd2.2 hg2 hLS L' h

theorem lookup_single_self (qid cnt : Nat) :
    ([(qid, cnt)] : List (Nat × Nat)).lookup qid = some cnt := by
  simp [List.lookup]

theorem lookup_single_other {qid q' : Nat} (h : q' ≠ qid) (cnt : Nat) :
    ([(qid, cnt)] : List (Nat × Nat)).lookup q' = none := by
  have hb : (q' == qid) = false := beq_eq_false_iff_ne.mpr h
  simp [List.lookup, hb]

theorem queueDequeue_sid_none (st : EngSt) (qid S : Nat)
    (hsubs : (st.queues qid).subs = [S])
    (hc : (st.queues qid).cancellable = true) :
    ((queueDequeue st qid S).queues qid).sid = none := by
  have hsp : jsSpliceRemoveLast (st.queues qid).subs S = [] := by
    rw [hsubs]
    simp [jsSpliceRemoveLast]
  unfold queueDequeue
  dsimp only
  rw [Function.update_same, hsp, hc]
  simp

theorem subUnsubscribe_eval (st : EngSt) (S qid cnt : Nat) (L : EngLink)
    (hd : isDirty L.stamp ((st.subsF S).calls) = true)
    (hq : L.queue = some qid)
    (hl : (st.subsF S).queued.lookup qid = some cnt) :
    subUnsubscribe st S (some L)
      = if cnt - 1 = 0 then
          { queueDequeue st qid S with
            subsF := Function.update (queueDequeue st qid S).subsF S
              { (queueDequeue st qid S).subsF S with
                queued := ((queueDequeue st qid S).subsF S).queued.filter
                  (fun p => p.1 ≠ qid) } }
        else
          { st with
            subsF := Function.update st.subsF S
              { st.subsF S with queued := decrCount (st.subsF S).queued qid } } := by
  simp only [subUnsubscribe]
  rw [if_pos hd, hq]
  dsimp only
  rw [hl]

/-- Effect of Subscriber.unsubscribe on a dirty async link whose queue
count drops to zero: entry deleted, dequeued from the queue (with backend
cancel when it empties), everything outside the bookkeeping untouched. -/
theorem subUnsub_dequeue_props (u : EngSt) (S qid cnt : Nat) (L : EngLink)
    (hd : isDirty L.stamp ((u.subsF S).calls) = true)
    (hq : L.queue = some qid)
    (hqd : (u.subsF S).queued = [(qid, cnt)])
    (hnodup : (u.queues qid).subs.Nodup)
    (hc0 : cnt - 1 = 0) :
    ((subUnsubscribe u S (some L)).subsF S).queued = []
    ∧ (subUnsubscribe u S (some L)).cells = u.cells
    ∧ (∀ q', q' ≠ qid → (subUnsubscribe u S (some L)).queues q' = u.queues q')
    ∧ S ∉ ((subUnsubscribe u S (some L)).queues qid).subs
    ∧ ((u.queues qid).subs = [S] → (u.queues qid).cancellable = true →
        ((subUnsubscribe u S (some L)).queues qid).sid = none)
    ∧ (subUnsubscribe u S (some L)).trace = u.trace := by
  have he := subUnsubscribe_eval u S qid cnt L hd hq
    (by rw [hqd]; exact lookup_single_self qid cnt)
  rw [if_pos hc0] at he
  rw [he]
  refine ⟨?_, ?_, ?_, ?_, ?_, ?_⟩
  · dsimp only
    rw [Function.update_same, (queueDequeue_misc u qid S).2.1, hqd]
    simp
  · exact (queueDequeue_misc u qid S).1
  · intro q' hq'
    exact queueDequeue_queues_other u qid S q' hq'
  · rw [queueDequeue_subs_self]
    exact jsSplice_not_mem hnodup
  · intro h1 h2
    exact queueDequeue_sid_none u qid S h1 h2
  · exact (queueDequeue_misc u qid S).2.2.2.2

/-- Effect of Subscriber.unsubscribe on a dirty async link whose queue
count stays positive: only the count is decremented. -/
theorem subUnsub_decr_props (u : EngSt) (S qid cnt : Nat) (L : EngLink)
    (hd : isDirty L.stamp ((u.subsF S).calls) = true)
    (hq : L.queue = some qid)
    (hqd : (u.subsF S).queued = [(qid, cnt)])
    (hc0 : ¬ cnt - 1 = 0) :
    ((subUnsubscribe u S (some L)).subsF S).queued = [(qid, cnt - 1)]
    ∧ (subUnsubscribe u S (some L)).queues = u.queues
    ∧ (subUnsubscribe u S (some L)).cells = u.cells := by
  have he := subUnsubscribe_eval u S qid cnt L hd hq
    (by rw [hqd]; exact lookup_single_self qid cnt)
  rw [if_neg hc0] at he
  rw [he]
  refine ⟨?_, rfl, rfl⟩
  dsimp only
  rw [Function.update_same, hqd]
  simp [decrCount]

/-- C5: after Reactive.unsubscribe removes a subscribed S (here via a dirty
async link, the pending-enqueue case), the pending enqueue that was due
only to this link is cancelled: the per-queue count is decremented, and
when it reaches zero S is dequeued (deleted from the queued map, removed
from the queue's subscriber list, with the backend schedule cancelled when
the queue empties and supports cancellation); and no future mutation of C
or queue drain can invoke S's callback — every trace entry added later
belongs to other subscribers. -/
theorem unsubscribe_cancels_pending (st : EngSt) (c S qid i cnt : Nat) (L : EngLink)
    (hwf : EngWF st)
    (hsync : findSubscriber (st.cells c).sync S = none)
    (hfind : findSubscriber (st.cells c).async S = some i)
    (hget : (st.cells c).async.get? i = some L)
    (hLs : L.sub = S)
    (hLq : L.queue = some qid)
    (hdirty : isDirty L.stamp ((st.subsF S).calls) = true)
    (hqd : (st.subsF S).queued = [(qid, cnt)]) :
    ∃ st2,
      reactiveUnsubscribe st c (some S)
        = Except.ok (st2, (st2.cells c).sync.length + (st2.cells c).async.length)
      ∧ (1 < cnt →
          (st2.subsF S).queued.lookup qid = some (cnt - 1) ∧ st2.queues = st.queues)
      ∧ (cnt = 1 →
          (st2.subsF S).queued = []
          ∧ (∀ q', S ∉ (st2.queues q').subs)
          ∧ ((st.queues qid).subs = [S] → (st.queues qid).cancellable = true →
              (st2.queues qid).sid = none)
          ∧ (∀ ops, (∀ op ∈ ops,
                (∃ v, op = EngOp.set c v) ∨ (∃ q0, op = EngOp.drain q0)) →
              ∃ t, (engRun st2 ops).trace = st2.trace ++ t ∧ ∀ p ∈ t, p.2 ≠ S)) := by
  have heval : reactiveUnsubscribe st c (some S)
      = Except.ok
          (subUnsubscribe
            { st with cells := Function.update st.cells c
                        { st.cells c with async := (st.cells c).async.eraseIdx i } } S (some L),
           ((subUnsubscribe
              { st with cells := Function.update st.cells c
                          { st.cells c with async := (st.cells c).async.eraseIdx i } } S (some L)).cells c).sync.length
           + ((subUnsubscribe
              { st with cells := Function.update st.cells c
                          { st.cells c with async := (st.cells c).async.eraseIdx i } } S (some L)).cells c).async.length) := by
    simp only [reactiveUnsubscribe]
    rw [hsync, hfind]
    dsimp only
    rw [hget]
  by_cases hc0 : cnt - 1 = 0
  · refine ⟨_, heval, ?_, ?_⟩
    · intro h1
      exact absurd hc0 (by omega)
    · intro _
      obtain ⟨p1, p2, p3, p4, p5, p6⟩ := subUnsub_dequeue_props
        { st with cells := Function.update st.cells c
                    { st.cells c with async := (st.cells c).async.eraseIdx i } }
        S qid cnt L hdirty hLq hqd (hwf.1 qid) hc0
      have hqall : ∀ q',
          S ∉ ((subUnsubscribe
            { st with cells := Function.update st.cells c
                        { st.cells c with async := (st.cells c).async.eraseIdx i } } S (some L)).queues q').subs := by
        intro q'
        by_cases hq' : q' = qid
        · rw [hq']
          exact p4
        · rw [p3 q' hq']
          intro hmem
          have h2 := (hwf.2.1 q' S).mp hmem
          rw [hqd, lookup_single_other hq'] at h2
          simp at h2
      refine ⟨p1, hqall, p5, ?_⟩
      intro ops hops
      have hcc : ((subUnsubscribe
          { st with cells := Function.update st.cells c
                      { st.cells c with async := (st.cells c).async.eraseIdx i } } S (some L)).cells) c
          = { st.cells c with async := (st.cells c).async.eraseIdx i } := by
        rw [p2]
        dsimp only
        rw [Function.update_same]
      have hnodupasync : ((st.cells c).async.map EngLink.sub).Nodup := by
        have h2 := hwf.2.2.2.1 c
        rw [List.map_append] at h2
        exact (List.nodup_append.mp h2).2.1
      have hnosub : NoSub c S (subUnsubscribe
          { st with cells := Function.update st.cells c
                      { st.cells c with async := (st.cells c).async.eraseIdx i } } S (some L)) := by
        refine ⟨?_, ?_, hqall⟩
        · intro L' hL'
          rw [hcc] at hL'
          exact findSubscriber_none hsync L' hL'
        · intro L' hL'
          rw [hcc] at hL'
          exact eraseIdx_sub_ne (st.cells c).async i L hnodupasync hget hLs L' hL'
      exact (engRun_silent c S ops _ hops hnosub).2
  · refine ⟨_, heval, ?_, ?_⟩
    · intro _
      obtain ⟨d1, d2, d3⟩ := subUnsub_decr_props
        { st with cells := Function.update st.cells c
                    { st.cells c with async := (st.cells c).async.eraseIdx i } }
        S qid cnt L hdirty hLq hqd hc0
      constructor
      · rw [d1]
        exact lookup_single_self qid (cnt - 1)
      · rw [d2]
    · intro hcnt1
      exact absurd (by omega : cnt - 1 = 0) hc0

/-- Cell 0 with a single dirty async link for subscriber 3 pending on
queue 7. -/
def engC5 : EngSt :=
  { calls := 0
    epoch := 0
    cells := fun k =>
      if k = 0 then
        { value := 0, dirty := -1, sync := [], async := [⟨3, 0, some 7⟩]
          syncIter := SyncIter.reset }
      else
        { value := 0, dirty := -1, sync := [], async := [], syncIter := SyncIter.reset }
    subsF := fun s =>
      if s = 3 then { calls := 0, queued := [(7, 1)] } else { calls := 0, queued := [] }
    queues := fun q =>
      if q = 7 then
        { subs := [3], queuedN := 1, sid := some true, schedulable := true
          cancellable := true, notifying := false, rank := 0 }
      else
        { subs := [], queuedN := 0, sid := none, schedulable := true
          cancellable := false, notifying := false, rank := 0 }
    trace := [] }

theorem engC5_wf : EngWF engC5 := by
  refine ⟨?_, ?_, ?_, ?_, ?_, ?_⟩
  · intro q
    by_cases h : q = 7 <;> simp [engC5, h]
  · intro q s
    by_cases hq : q = 7
    · by_cases hs : s = 3 <;> simp [engC5, hq, hs, List.lookup]
    · have hb : (q == 7) = false := beq_eq_false_iff_ne.mpr hq
      by_cases hs : s = 3 <;> simp [engC5, hq, hs, List.lookup, hb]
  · intro s
    by_cases hs : s = 3 <;> simp [engC5, hs]
  · intro c0
    by_cases hc : c0 = 0 <;> simp [engC5, hc]
  · intro q
    by_cases h : q = 7 <;> simp [engC5, h]
  · intro p hp
    simp [engC5] at hp

/-- Witness for unsubscribe_cancels_pending: unsubscribing subscriber 3
(dirty async link, count 1 on queue 7) from cell 0 of engC5. -/
theorem unsubscribe_cancels_pending_witness :
    ∃ st2,
      reactiveUnsubscribe engC5 0 (some 3)
        = Except.ok (st2, (st2.cells 0).sync.length + (st2.cells 0).async.length)
      ∧ (1 < 1 →
          (st2.subsF 3).queued.lookup 7 = some (1 - 1) ∧ st2.queues = engC5.queues)
      ∧ (1 = 1 →
          (st2.subsF 3).queued = []
          ∧ (∀ q', 3 ∉ (st2.queues q').subs)
          ∧ ((engC5.queues 7).subs = [3] → (engC5.queues 7).cancellable = true →
              (st2.queues 7).sid = none)
          ∧ (∀ ops, (∀ op ∈ ops,
                (∃ v, op = EngOp.set 0 v) ∨ (∃ q0, op = EngOp.drain q0)) →
              ∃ t, (engRun st2 ops).trace = st2.trace ++ t ∧ ∀ p ∈ t, p.2 ≠ 3)) :=
  unsubscribe_cancels_pending engC5 0 3 7 0 1 ⟨3, 0, some 7⟩ engC5_wf
    rfl rfl rfl rfl rfl rfl rfl

/-! ### C1: the ghost trace never repeats a (epoch, subscriber) pair -/

theorem queueDequeue_notifying (st : EngSt) (q s q0 : Nat) :
    ((queueDequeue st q s).queues q0).notifying = (st.queues q0).notifying := by
  by_cases hq0 : q0 = q
  · subst hq0
    unfold queueDequeue
    dsimp only
    rw [Function.update_same]
    split <;> rfl
  · rw [queueDequeue_queues_other st q s q0 hq0]

theorem foldDequeue_notifying (s : Nat) (entries : List (Nat × Nat)) :
    ∀ (st : EngSt) (q0 : Nat),
      ((entries.foldl (fun acc p => queueDequeue acc p.1 s) st).queues q0).notifying
        = (st.queues q0).notifying := by
  induction entries with
  | nil => intro st q0; rfl
  | cons p rest ih =>
    intro st q0
    simp only [List.foldl_cons]
    rw [ih (queueDequeue st p.1 s) q0, queueDequeue_notifying]

theorem subCall_notifying (st : EngSt) (s : Nat) (q : Option Nat) (q0 : Nat) :
    ((subCall st s q).queues q0).notifying = (st.queues q0).notifying := by
  unfold subCall subCallPre subClean subDequeueAll
  dsimp only
  rw [foldDequeue_notifying]
  rw [(removeQueuedKey_untouched st s q).2.1]

theorem map_sub_set_stamp :
    ∀ (l : List EngLink) (idx : Nat) (L : EngLink) (v : Int),
      l.get? idx = some L →
      (l.set idx { L with stamp := v }).map EngLink.sub = l.map EngLink.sub := by
  intro l
  induction l with
  | nil => intro idx L v h; simp at h
  | cons a tl ih =>
    intro idx L v h
    cases idx with
    | zero =>
      have ha : a = L := by simpa using h
      simp [List.set, ha]
    | succ n =>
      have h2 : tl.get? n = some L := h
      simp [List.set, ih n L v h2]

theorem incrCount_keys (l : List (Nat × Nat)) (q : Nat) :
    (incrCount l q).map Prod.fst = l.map Prod.fst := by
  induction l with
  | nil => rfl
  | cons p rest ih =>
    simp only [incrCount, List.map_cons] at *
    by_cases hp : p.1 = q <;> simp [hp, ih]

theorem lookup_incrCount (l : List (Nat × Nat)) (q q0 : Nat) :
    ((incrCount l q).lookup q0).isSome = (l.lookup q0).isSome := by
  induction l with
  | nil => rfl
  | cons p rest ih =>
    have ih2 : (List.lookup q0
        (List.map (fun p => if p.1 = q then (p.1, p.2 + 1) else p) rest)).isSome
        = (List.lookup q0 rest).isSome := ih
    simp only [incrCount, List.map_cons]
    by_cases hp : p.1 = q
    · rw [if_pos hp]
      by_cases hq0 : q0 = p.1
      · have hb : (q0 == p.1) = true := beq_iff_eq.mpr hq0
        simp [List.lookup, hb]
      · have hb : (q0 == p.1) = false := beq_eq_false_iff_ne.mpr hq0
        simp only [List.lookup, hb]
        exact ih2
    · rw [if_neg hp]
      by_cases hq0 : q0 = p.1
      · have hb : (q0 == p.1) = true := beq_iff_eq.mpr hq0
        simp [List.lookup, hb]
      · have hb : (q0 == p.1) = false := beq_eq_false_iff_ne.mpr hq0
        simp only [List.lookup, hb]
        exact ih2

theorem lookup_append_self (l : List (Nat × Nat)) (qid v : Nat)
    (h : l.lookup qid = none) : (l ++ [(qid, v)]).lookup qid = some v := by
  induction l with
  | nil => simp [List.lookup]
  | cons p rest ih =>
    by_cases hq : qid = p.1
    · have hb : (qid == p.1) = true := beq_iff_eq.mpr hq
      simp only [List.lookup, hb] at h
      cases h
    · have hb : (qid == p.1) = false := beq_eq_false_iff_ne.mpr hq
      simp only [List.lookup, hb] at h
      simp only [List.cons_append, List.lookup, hb]
      exact ih h

theorem lookup_append_ne (l : List (Nat × Nat)) (qid v q0 : Nat)
    (h : q0 ≠ qid) : (l ++ [(qid, v)]).lookup q0 = l.lookup q0 := by
  induction l with
  | nil =>
    have hb : (q0 == qid) = false := beq_eq_false_iff_ne.mpr h
    simp [List.lookup, hb]
  | cons p rest ih =>
    by_cases hq : q0 = p.1
    · have hb : (q0 == p.1) = true := beq_iff_eq.mpr hq
      simp [List.lookup, hb]
    · have hb : (q0 == p.1) = false := beq_eq_false_iff_ne.mpr hq
      simp only [List.cons_append, List.lookup, hb]
      exact ih

theorem drop_cons_of_get? {l : List Nat} {i : Nat} {s : Nat}
    (h : l.get? i = some s) : l.drop i = s :: l.drop (i + 1) := by
  have hi : i < l.length := by
    by_contra hc
    rw [List.get?_eq_none.mpr (by omega)] at h
    cases h
  rw [List.drop_eq_getElem_cons hi]
  obtain ⟨h2, h3⟩ := List.get?_eq_some.mp h
  simp [← h3]

/-- One dispatch of Queue.notify's drain loop: call subscribers[i], then
decrement the queued count (the same state the loop body builds). -/
def engIterStep (st : EngSt) (q s : Nat) : EngSt :=
  let st1 := subCall st s (some q)
  { st1 with
    queues := Function.update st1.queues q
      { st1.queues q with queuedN := (st1.queues q).queuedN - 1 } }

theorem engIterStep_facts (st : EngSt) (q s : Nat) :
    (engIterStep st q s).cells = st.cells
    ∧ (engIterStep st q s).epoch = st.epoch
    ∧ (engIterStep st q s).trace = st.trace ++ [(st.epoch, s)]
    ∧ (engIterStep st q s).subsF = (subCallPre st s (some q)).subsF
    ∧ (∀ q0, ((engIterStep st q s).queues q0).subs
        = ((subCall st s (some q)).queues q0).subs)
    ∧ (∀ q0, ((engIterStep st q s).queues q0).notifying
        = ((subCall st s (some q)).queues q0).notifying) := by
  refine ⟨subCall_cells st s (some q), subCall_epoch st s (some q),
    subCall_trace st s (some q), rfl, ?_, ?_⟩
  · intro q0
    unfold engIterStep
    dsimp only
    by_cases hq0 : q0 = q
    · subst hq0
      rw [Function.update_same]
    · rw [Function.update_noteq hq0]
  · intro q0
    unfold engIterStep
    dsimp only
    by_cases hq0 : q0 = q
    · subst hq0
      rw [Function.update_same]
    · rw [Function.update_noteq hq0]

/-- The drain loop of Queue.notify preserves all the queue/subscriber
bookkeeping, appends only fresh (epoch, subscriber) pairs to the trace
(each batch member once, at the batch's epoch), and finishes with the
queue emptied and no queue mid-notify. -/
theorem engIter_ok (q : Nat) :
    ∀ (fuel : Nat) (st : EngSt) (i b : Nat),
      (∀ q0, (st.queues q0).subs.Nodup) →
      (∀ s' q0, q0 ≠ q → (s' ∈ (st.queues q0).subs
        ↔ ((st.subsF s').queued.lookup q0).isSome)) →
      (∀ s', s' ∈ (st.queues q).subs.drop i
        ↔ ((st.subsF s').queued.lookup q).isSome) →
      (∀ s', ((st.subsF s').queued.map Prod.fst).Nodup) →
      st.trace.Nodup →
      (∀ p ∈ st.trace, p.1 ≤ st.epoch) →
      (∀ s' ∈ (st.queues q).subs.drop i, (st.epoch, s') ∉ st.trace) →
      b = (st.queues q).subs.length →
      i ≤ b →
      b - i + 2 ≤ fuel →
      (∀ q0, q0 ≠ q → (st.queues q0).notifying = false) →
      (∀ q0, ((engIter q fuel st i b).queues q0).subs.Nodup)
      ∧ (∀ s' q0, s' ∈ ((engIter q fuel st i b).queues q0).subs
          ↔ (((engIter q fuel st i b).subsF s').queued.lookup q0).isSome)
      ∧ (∀ s', (((engIter q fuel st i b).subsF s').queued.map Prod.fst).Nodup)
      ∧ (engIter q fuel st i b).cells = st.cells
      ∧ (engIter q fuel st i b).trace.Nodup
      ∧ (∀ p ∈ (engIter q fuel st i b).trace, p.1 ≤ (engIter q fuel st i b).epoch)
      ∧ st.epoch ≤ (engIter q fuel st i b).epoch
      ∧ (∀ q0, ((engIter q fuel st i b).queues q0).notifying = false) := by
  intro fuel
  induction fuel with
  | zero =>
    intro st i b _ _ _ _ _ _ _ _ _ H10 _
    omega
  | succ n ih =>
    intro st i b H1 H2 H3 H4 H5 H6 H7 H8 H9 H10 H11
    simp only [engIter]
    split
    · rename_i hib
      split
      · rename_i hnone
        have hlen := List.get?_eq_none.mp hnone
        rw [← H8] at hlen
        omega
      · rename_i s hsome
        have hdrop : (st.queues q).subs.drop i = s :: (st.queues q).subs.drop (i + 1) :=
          drop_cons_of_get? hsome
        have hsmem : s ∈ (st.queues q).subs := List.get?_mem hsome
        have hsdrop : s ∈ (st.queues q).subs.drop i := by
          rw [hdrop]
          exact List.mem_cons_self s _
        have hsnottail : s ∉ (st.queues q).subs.drop (i + 1) := by
          have hnd := (H1 q).sublist (List.drop_sublist i (st.queues q).subs)
          rw [hdrop] at hnd
          exact (List.nodup_cons.mp hnd).1
        have hmem_s : ∀ q0, s ∈ (st.queues q0).subs
            ↔ ((st.subsF s).queued.lookup q0).isSome := by
          intro q0
          by_cases hq0 : q0 = q
          · subst hq0
            exact ⟨fun _ => (H3 s).mp hsdrop, fun _ => hsmem⟩
          · exact H2 s q0 hq0
        obtain ⟨hPcells, hPcalls, hPepoch, hPtrace, hPs, hPo, hPsame, hPnot, hPmem, hPnd⟩ :=
          subCallPre_props st s (some q) H1 hmem_s (H4 s)
        obtain ⟨hFcells, hFepoch, hFtrace, hFsubsF, hFsubs, hFnot⟩ :=
          engIterStep_facts st q s
        have hqsubs : ((engIterStep st q s).queues q).subs = (st.queues q).subs := by
          rw [hFsubs q]
          have h2 : ((subCall st s (some q)).queues q)
              = (st.queues q) := hPsame q rfl
          rw [h2]
        have h1' : ∀ q0, ((engIterStep st q s).queues q0).subs.Nodup := by
          intro q0
          rw [hFsubs q0]
          exact hPnd q0
        have h2' : ∀ s' q0, q0 ≠ q →
            (s' ∈ ((engIterStep st q s).queues q0).subs
              ↔ (((engIterStep st q s).subsF s').queued.lookup q0).isSome) := by
          intro s' q0 hq0
          rw [hFsubs q0, hFsubsF]
          by_cases hne : s' = s
          · subst hne
            have hno : s' ∉ ((subCall st s' (some q)).queues q0).subs :=
              hPnot q0 (by intro he; exact hq0 (Option.some.inj he).symm)
            rw [hPs]
            simp [hno]
          · rw [hPo s' hne]
            constructor
            · intro hm
              exact (H2 s' q0 hq0).mp ((hPmem q0 s' hne).mp hm)
            · intro hl
              exact (hPmem q0 s' hne).mpr ((H2 s' q0 hq0).mpr hl)
        have h3' : ∀ s', s' ∈ ((engIterStep st q s).queues q).subs.drop (i + 1)
            ↔ (((engIterStep st q s).subsF s').queued.lookup q).isSome := by
          intro s'
          rw [hqsubs, hFsubsF]
          by_cases hne : s' = s
          · subst hne
            rw [hPs]
            simp [hsnottail]
          · rw [hPo s' hne]
            constructor
            · intro hm
              exact (H3 s').mp (by rw [hdrop]; exact List.mem_cons_of_mem _ hm)
            · intro hl
              have hm := (H3 s').mpr hl
              rw [hdrop] at hm
              rcases List.mem_cons.mp hm with h | h
              · exact absurd h hne
              · exact h
        have h4' : ∀ s',
            (((engIterStep st q s).subsF s').queued.map Prod.fst).Nodup := by
          intro s'
          rw [hFsubsF]
          by_cases hne : s' = s
          · subst hne
            rw [hPs]
            simp
          · rw [hPo s' hne]
            exact H4 s'
        have hfresh : (st.epoch, s) ∉ st.trace := H7 s hsdrop
        have h5' : (engIterStep st q s).trace.Nodup := by
          rw [hFtrace]
          refine List.nodup_append.mpr ⟨H5, by simp, ?_⟩
          intro a ha hb
          have : a = (st.epoch, s) := by simpa using hb
          rw [this] at ha
          exact hfresh ha
        have h6' : ∀ p ∈ (engIterStep st q s).trace,
            p.1 ≤ (engIterStep st q s).epoch := by
          intro p hp
          rw [hFtrace] at hp
          rw [hFepoch]
          rcases List.mem_append.mp hp with h | h
          · exact H6 p h
          · have : p = (st.epoch, s) := by simpa using h
            rw [this]
        have h7' : ∀ s' ∈ ((engIterStep st q s).queues q).subs.drop (i + 1),
            ((engIterStep st q s).epoch, s') ∉ (engIterStep st q s).trace := by
          intro s' hs'
          rw [hqsubs] at hs'
          rw [hFepoch, hFtrace]
          intro hmem2
          rcases List.mem_append.mp hmem2 with h | h
          · exact H7 s' (by rw [hdrop]; exact List.mem_cons_of_mem _ hs') h
          · have hpe : s' = s := by
              have : (st.epoch, s') = (st.epoch, s) := by simpa using h
              exact (Prod.mk.injEq _ _ _ _).mp this |>.2
            rw [hpe] at hs'
            exact hsnottail hs'
        have h8' : b = ((engIterStep st q s).queues q).subs.length := by
          rw [hqsubs]
          exact H8
        have h11' : ∀ q0, q0 ≠ q →
            ((engIterStep st q s).queues q0).notifying = false := by
          intro q0 hq0
          rw [hFnot q0, subCall_notifying]
          exact H11 q0 hq0
        have hall := ih (engIterStep st q s) (i + 1) b h1' h2' h3' h4' h5' h6' h7'
          h8' (by omega) (by omega) h11'
        refine ⟨hall.1, hall.2.1, hall.2.2.1, ?_, hall.2.2.2.2.1,
          hall.2.2.2.2.2.1, ?_, hall.2.2.2.2.2.2.2⟩
        · exact hall.2.2.2.1.trans hFcells
        · exact (le_of_eq hFepoch.symm).trans hall.2.2.2.2.2.2.1
    · rename_i hib
      split
      · rename_i hz
        have hieq : i = b := by omega
        have hdropb : (st.queues q).subs.drop i = [] := by
          rw [hieq, H8]
          exact List.drop_length _
        refine ⟨?_, ?_, H4, rfl, H5, H6, le_refl _, ?_⟩
        · intro q0
          dsimp only
          by_cases hq0 : q0 = q
          · subst hq0
            rw [Function.update_same]
            simp
          · rw [Function.update_noteq hq0]
            exact H1 q0
        · intro s' q0
          dsimp only
          by_cases hq0 : q0 = q
          · subst hq0
            rw [Function.update_same]
            have hnone := H3 s'
            rw [hdropb] at hnone
            simp at hnone
            simp [hnone]
          · rw [Function.update_noteq hq0]
            exact H2 s' q0 hq0
        · intro q0
          dsimp only
          by_cases hq0 : q0 = q
          · subst hq0
            rw [Function.update_same]
          · rw [Function.update_noteq hq0]
            exact H11 q0 hq0
      · rename_i hz
        have hlb : (st.queues q).subs.length = b := H8.symm
        omega

/-- The pre-iterate state of Queue.notify: Queue.called, notifying set. -/
def engNotifyPre (st : EngSt) (q : Nat) : EngSt :=
  let st1 := engCalled st
  { st1 with
    queues := Function.update st1.queues q
      { st1.queues q with notifying := true } }

theorem engNotifyPre_facts (st : EngSt) (q : Nat) :
    (∀ q0, ((engNotifyPre st q).queues q0).subs = (st.queues q0).subs)
    ∧ (∀ q0, q0 ≠ q →
        ((engNotifyPre st q).queues q0).notifying = (st.queues q0).notifying) := by
  constructor
  · intro q0
    unfold engNotifyPre
    dsimp only
    by_cases hq0 : q0 = q
    · subst hq0
      rw [Function.update_same]
      rfl
    · rw [Function.update_noteq hq0]
      rfl
  · intro q0 hq0
    unfold engNotifyPre
    dsimp only
    rw [Function.update_noteq hq0]
    rfl

theorem engWF_set_sid (st : EngSt) (q : Nat) (v : Option Bool) (hwf : EngWF st) :
    EngWF { st with
      queues := Function.update st.queues q { st.queues q with sid := v } } := by
  obtain ⟨W1, W2, W3, W4, W5, W6⟩ := hwf
  refine ⟨?_, ?_, W3, W4, ?_, W6⟩
  · intro q0
    dsimp only
    by_cases hq0 : q0 = q
    · subst hq0
      rw [Function.update_same]
      exact W1 _
    · rw [Function.update_noteq hq0]
      exact W1 q0
  · intro q0 s'
    dsimp only
    by_cases hq0 : q0 = q
    · subst hq0
      rw [Function.update_same]
      exact W2 _ s'
    · rw [Function.update_noteq hq0]
      exact W2 q0 s'
  · intro q0
    dsimp only
    by_cases hq0 : q0 = q
    · subst hq0
      rw [Function.update_same]
      exact W5 _
    · rw [Function.update_noteq hq0]
      exact W5 q0

/-- Queue.notify preserves wellformedness and the no-repeat trace, leaves
the cells alone and only advances the epoch. -/
theorem engNotifyQ_ok (st : EngSt) (q : Nat)
    (hwf : EngWF st) (hnd : st.trace.Nodup) :
    EngWF (engNotifyQ st q) ∧ (engNotifyQ st q).trace.Nodup
    ∧ (engNotifyQ st q).cells = st.cells
    ∧ st.epoch ≤ (engNotifyQ st q).epoch := by
  obtain ⟨W1, W2, W3, W4, W5, W6⟩ := hwf
  obtain ⟨hsubs, hnot⟩ := engNotifyPre_facts st q
  have hcalls := engIter_ok q (((engNotifyPre st q).queues q).subs.length + 2)
    (engNotifyPre st q) 0 ((engNotifyPre st q).queues q).subs.length
    (fun q0 => by rw [hsubs q0]; exact W1 q0)
    (fun s' q0 hq0 => by rw [hsubs q0]; exact W2 q0 s')
    (fun s' => by rw [List.drop_zero, hsubs q]; exact W2 q s')
    W3 hnd
    (fun p hp => by
      have := W6 p hp
      have he : (engNotifyPre st q).epoch = st.epoch + 1 := rfl
      omega)
    (fun s' _ hmem => by
      have h2 := W6 _ hmem
      simp only at h2
      have he : (engNotifyPre st q).epoch = st.epoch + 1 := rfl
      omega)
    rfl (Nat.zero_le _) (by omega)
    (fun q0 hq0 => by rw [hnot q0 hq0]; exact W5 q0)
  obtain ⟨C1, C2, C3, C4, C5, C6, C7, C8⟩ := hcalls
  have hcells : (engNotifyQ st q).cells = st.cells := C4
  refine ⟨⟨C1, fun q0 s' => C2 s' q0, C3, ?_, C8, C6⟩, C5, hcells, ?_⟩
  · intro c0
    rw [hcells]
    exact W4 c0
  · exact le_trans (Nat.le_succ _) C7

/-- Queue.flush preserves wellformedness (in a wellformed state no queue
is mid-notify, so flush always notifies). -/
theorem engFlushQ_ok (st : EngSt) (q : Nat) (recursive : Bool)
    (hwf : EngWF st) (hnd : st.trace.Nodup) :
    EngWF (engFlushQ st q recursive) ∧ (engFlushQ st q recursive).trace.Nodup
    ∧ (engFlushQ st q recursive).cells = st.cells
    ∧ st.epoch ≤ (engFlushQ st q recursive).epoch := by
  unfold engFlushQ
  rw [if_pos (hwf.2.2.2.2.1 q)]
  dsimp only
  split
  · have hwf1 := engWF_set_sid st q (some true) hwf
    obtain ⟨A, B, C, D⟩ := engNotifyQ_ok
      { st with queues :=
          Function.update st.queues q { st.queues q with sid := some true } }
      q hwf1 hnd
    exact ⟨A, B, C, D⟩
  · exact engNotifyQ_ok st q hwf hnd

/-- Queue.enqueue, called right after the subscriber's queued map gained
the entry for q (so the membership invariant holds except for (s, q),
which the push restores), preserves wellformedness. -/
theorem engEnqueueQ_ok (st : EngSt) (q s : Nat)
    (W1 : ∀ q0, (st.queues q0).subs.Nodup)
    (W2 : ∀ s' q0, ¬(s' = s ∧ q0 = q) →
        (s' ∈ (st.queues q0).subs ↔ ((st.subsF s').queued.lookup q0).isSome))
    (W2a : s ∉ (st.queues q).subs)
    (W2b : ((st.subsF s).queued.lookup q).isSome)
    (W3 : ∀ s', ((st.subsF s').queued.map Prod.fst).Nodup)
    (W4 : ∀ c, (((st.cells c).sync ++ (st.cells c).async).map EngLink.sub).Nodup)
    (W5 : ∀ q0, (st.queues q0).notifying = false)
    (W6 : ∀ p ∈ st.trace, p.1 ≤ st.epoch)
    (hnd : st.trace.Nodup) :
    EngWF (engEnqueueQ st q s) ∧ (engEnqueueQ st q s).trace.Nodup
    ∧ (engEnqueueQ st q s).cells = st.cells
    ∧ st.epoch ≤ (engEnqueueQ st q s).epoch := by
  have hwf1 : EngWF { st with
      queues := Function.update st.queues q
        { st.queues q with
          subs := (st.queues q).subs ++ [s]
          queuedN := (st.queues q).queuedN + 1 } } := by
    refine ⟨?_, ?_, W3, W4, ?_, W6⟩
    · intro q0
      dsimp only
      by_cases hq0 : q0 = q
      · subst hq0
        rw [Function.update_same]
        refine List.nodup_append.mpr ⟨W1 _, by simp, ?_⟩
        intro a ha hb
        have he : a = s := by simpa using hb
        rw [he] at ha
        exact W2a ha
      · rw [Function.update_noteq hq0]
        exact W1 q0
    · intro q0 s'
      dsimp only
      by_cases hq0 : q0 = q
      · subst hq0
        rw [Function.update_same]
        by_cases hs' : s' = s
        · subst hs'
          simp only [List.mem_append, List.mem_singleton]
          exact ⟨fun _ => W2b, fun _ => Or.inr trivial⟩
        · rw [List.mem_append]
          constructor
          · intro hm
            rcases hm with hm | hm
            · exact (W2 s' _ (fun hand => hs' hand.1)).mp hm
            · exact absurd (by simpa using hm) hs'
          · intro hl
            exact Or.inl ((W2 s' _ (fun hand => hs' hand.1)).mpr hl)
      · rw [Function.update_noteq hq0]
        exact W2 s' q0 (fun hand => hq0 hand.2)
    · intro q0
      dsimp only
      by_cases hq0 : q0 = q
      · subst hq0
        rw [Function.update_same]
        exact W5 _
      · rw [Function.update_noteq hq0]
        exact W5 q0
  unfold engEnqueueQ
  dsimp only
  split
  · exact engFlushQ_ok _ q true hwf1 hnd
  · split
    · exact ⟨engWF_set_sid _ q (some true) hwf1, hnd, rfl, le_refl _⟩
    · exact ⟨hwf1, hnd, rfl, le_refl _⟩

theorem setAsyncStamp_wf (st : EngSt) (c idx : Nat) (v : Int) (hwf : EngWF st) :
    EngWF (setAsyncStamp st c idx v)
    ∧ (setAsyncStamp st c idx v).trace = st.trace
    ∧ (setAsyncStamp st c idx v).epoch = st.epoch
    ∧ (setAsyncStamp st c idx v).queues = st.queues
    ∧ (setAsyncStamp st c idx v).subsF = st.subsF := by
  unfold setAsyncStamp
  split
  · exact ⟨hwf, rfl, rfl, rfl, rfl⟩
  · rename_i L hL
    obtain ⟨W1, W2, W3, W4, W5, W6⟩ := hwf
    refine ⟨⟨W1, W2, W3, ?_, W5, W6⟩, rfl, rfl, rfl, rfl⟩
    intro c0
    dsimp only
    by_cases hc0 : c0 = c
    · subst hc0
      rw [Function.update_same]
      dsimp only
      rw [List.map_append, map_sub_set_stamp (st.cells c0).async idx L v hL,
        ← List.map_append]
      exact W4 c0
    · rw [Function.update_noteq hc0]
      exact W4 c0

/-- Subscriber.enqueue keeps the engine wellformed: either the link was
already dirty (no-op), or the dirty mark plus the count/queue updates
restore the bookkeeping exactly. -/
theorem subEnqueue_ok (st : EngSt) (c idx : Nat)
    (hwf : EngWF st) (hnd : st.trace.Nodup) :
    EngWF (subEnqueue st c idx) ∧ (subEnqueue st c idx).trace.Nodup
    ∧ st.epoch ≤ (subEnqueue st c idx).epoch := by
  unfold subEnqueue
  dsimp only
  split
  · exact ⟨hwf, hnd, le_refl _⟩
  · rename_i L hL
    split
    · exact ⟨hwf, hnd, le_refl _⟩
    · obtain ⟨hwf1, ht1, he1, hq1, hs1⟩ :=
        setAsyncStamp_wf st c idx (setDirty ((st.subsF L.sub).calls) true) hwf
      obtain ⟨V1, V2, V3, V4, V5, V6⟩ := hwf1
      split
      · exact ⟨⟨V1, V2, V3, V4, V5, V6⟩, by rw [ht1]; exact hnd, by rw [he1]⟩
      · split
        · rename_i hsome
          refine ⟨⟨V1, ?_, ?_, V4, V5, V6⟩, by rw [ht1]; exact hnd, by rw [he1]⟩
          · intro q0 s'
            try dsimp only
            by_cases hs' : s' = L.sub
            · subst hs'
              rw [Function.update_same]
              try dsimp only
              rw [lookup_incrCount]
              exact V2 q0 _
            · rw [Function.update_noteq hs']
              exact V2 q0 s'
          · intro s'
            try dsimp only
            by_cases hs' : s' = L.sub
            · subst hs'
              rw [Function.update_same]
              try dsimp only
              rw [incrCount_keys]
              exact V3 _
            · rw [Function.update_noteq hs']
              exact V3 s'
        · rename_i qid hqeq hnsome
          have hnone : (((setAsyncStamp st c idx
              (setDirty ((st.subsF L.sub).calls) true)).subsF L.sub).queued.lookup qid)
              = none := by
            rcases h2 : (((setAsyncStamp st c idx
                (setDirty ((st.subsF L.sub).calls) true)).subsF L.sub).queued.lookup qid)
              with _ | cnt
            · rfl
            · exact absurd (by rw [h2]; rfl) hnsome
          obtain ⟨A, B, C, D⟩ := engEnqueueQ_ok
            ({ setAsyncStamp st c idx (setDirty ((st.subsF L.sub).calls) true) with
                subsF := Function.update (setAsyncStamp st c idx
                    (setDirty ((st.subsF L.sub).calls) true)).subsF L.sub
                  { (setAsyncStamp st c idx
                      (setDirty ((st.subsF L.sub).calls) true)).subsF L.sub with
                    queued := ((setAsyncStamp st c idx
                        (setDirty ((st.subsF L.sub).calls) true)).subsF L.sub).queued
                      ++ [(qid, 1)] } } : EngSt) qid L.sub
            (fun q0 => by try dsimp only; exact V1 q0)
            (fun s' q0 hno => by
              try dsimp only
              by_cases hs' : s' = L.sub
              · subst hs'
                rw [Function.update_same]
                try dsimp only
                have hq0 : q0 ≠ qid := fun he => hno ⟨rfl, he⟩
                rw [lookup_append_ne _ qid 1 q0 hq0]
                exact V2 q0 _
              · rw [Function.update_noteq hs']
                exact V2 q0 s')
            (by
              try dsimp only
              intro hmem
              have h2 := (V2 qid L.sub).mp hmem
              rw [hnone] at h2
              cases h2)
            (by
              try dsimp only
              rw [Function.update_same]
              try dsimp only
              rw [lookup_append_self _ qid 1 hnone]
              rfl)
            (fun s' => by
              try dsimp only
              by_cases hs' : s' = L.sub
              · subst hs'
                rw [Function.update_same]
                try dsimp only
                rw [List.map_append]
                refine List.nodup_append.mpr ⟨V3 _, by simp, ?_⟩
                intro a ha hb
                have he : a = qid := by simpa using hb
                rw [he] at ha
                have := lookup_isSome_iff_mem_keys.mpr ha
                rw [hnone] at this
                cases this
              · rw [Function.update_noteq hs']
                exact V3 s')
            (fun c0 => by try dsimp only; exact V4 c0)
            (fun q0 => by try dsimp only; exact V5 q0)
            (fun p hp => by try dsimp only at hp ⊢; exact V6 p hp)
            (by try dsimp only; rw [ht1]; exact hnd)
          refine ⟨A, B, ?_⟩
          have he2 : st.epoch
              ≤ ({ setAsyncStamp st c idx (setDirty ((st.subsF L.sub).calls) true) with
                  subsF := Function.update (setAsyncStamp st c idx
                      (setDirty ((st.subsF L.sub).calls) true)).subsF L.sub
                    { (setAsyncStamp st c idx
                        (setDirty ((st.subsF L.sub).calls) true)).subsF L.sub with
                      queued := ((setAsyncStamp st c idx
                          (setDirty ((st.subsF L.sub).calls) true)).subsF L.sub).queued
                        ++ [(qid, 1)] } } : EngSt).epoch := by
            try dsimp only
            rw [he1]
          exact le_trans he2 D

theorem asyncLoop_ok (c : Nat) :
    ∀ (fuel idx : Nat) (st : EngSt), EngWF st → st.trace.Nodup →
      EngWF (asyncLoop c fuel idx st) ∧ (asyncLoop c fuel idx st).trace.Nodup
      ∧ st.epoch ≤ (asyncLoop c fuel idx st).epoch := by
  intro fuel
  induction fuel with
  | zero => intro idx st hwf hnd; exact ⟨hwf, hnd, le_refl _⟩
  | succ n ih =>
    intro idx st hwf hnd
    simp only [asyncLoop]
    split
    · obtain ⟨A, B, C⟩ := subEnqueue_ok st c idx hwf hnd
      obtain ⟨A2, B2, C2⟩ := ih (idx + 1) _ A B
      exact ⟨A2, B2, le_trans C C2⟩
    · exact ⟨hwf, hnd, le_refl _⟩

/-- Subscriber.call dispatched synchronously (no queue id) keeps all the
bookkeeping consistent: the subscriber leaves every queue and its queued
map empties together. -/
theorem subCall_none_ok (st : EngSt) (s : Nat) (hwf : EngWF st) :
    (∀ q0, ((subCall st s none).queues q0).subs.Nodup)
    ∧ (∀ q0 s', s' ∈ ((subCall st s none).queues q0).subs
        ↔ (((subCall st s none).subsF s').queued.lookup q0).isSome)
    ∧ (∀ s', (((subCall st s none).subsF s').queued.map Prod.fst).Nodup)
    ∧ (subCall st s none).cells = st.cells
    ∧ (∀ q0, ((subCall st s none).queues q0).notifying = (st.queues q0).notifying)
    ∧ (subCall st s none).trace = st.trace ++ [(st.epoch, s)]
    ∧ (subCall st s none).epoch = st.epoch := by
  obtain ⟨W1, W2, W3, W4, W5, W6⟩ := hwf
  obtain ⟨hPcells, hPcalls, hPepoch, hPtrace, hPs, hPo, hPsame, hPnot, hPmem, hPnd⟩ :=
    subCallPre_props st s none W1 (fun q0 => W2 q0 s) (W3 s)
  have hPs2 : (subCall st s none).subsF s
      = { calls := bumpCalls ((st.subsF s).calls), queued := [] } := hPs
  have hPo2 : ∀ s', s' ≠ s → (subCall st s none).subsF s' = st.subsF s' := hPo
  refine ⟨hPnd, ?_, ?_, subCall_cells st s none,
    fun q0 => subCall_notifying st s none q0, subCall_trace st s none,
    subCall_epoch st s none⟩
  · intro q0 s'
    by_cases hs' : s' = s
    · subst hs'
      have hno : s' ∉ ((subCall st s' none).queues q0).subs :=
        hPnot q0 (by simp)
      rw [hPs2]
      simp [hno]
    · rw [hPo2 s' hs']
      constructor
      · intro hm
        exact (W2 q0 s').mp ((hPmem q0 s' hs').mp hm)
      · intro hl
        exact (hPmem q0 s' hs').mpr ((W2 q0 s').mpr hl)
  · intro s'
    by_cases hs' : s' = s
    · subst hs'
      rw [hPs2]
      simp
    · rw [hPo2 s' hs']
      exact W3 s'

theorem map_nodup_get?_ne :
    ∀ (l : List EngLink) (j k : Nat) (L' L : EngLink),
      (l.map EngLink.sub).Nodup → l.get? j = some L' → l.get? k = some L →
      j ≠ k → L'.sub ≠ L.sub := by
  intro l
  induction l with
  | nil => intro j k L' L _ hj; simp at hj
  | cons a tl ih =>
    intro j k L' L hnd hj hk hjk
    have hnd2 : (∀ x ∈ tl, x.sub ≠ a.sub) ∧ (tl.map EngLink.sub).Nodup := by
      simpa using hnd
    cases j with
    | zero =>
      have ha : a = L' := by simpa using hj
      cases k with
      | zero => exact absurd rfl hjk
      | succ k2 =>
        have hL : L ∈ tl := List.get?_mem hk
        intro he
        exact hnd2.1 L hL (by rw [← he, ← ha])
    | succ j2 =>
      cases k with
      | zero =>
        have ha : a = L := by simpa using hk
        have hL' : L' ∈ tl := List.get?_mem hj
        intro he
        exact hnd2.1 L' hL' (by rw [he, ← ha])
      | succ k2 =>
        exact ih j2 k2 L' L hnd2.2 hj hk (fun he => hjk (by rw [he]))

theorem set_syncIter_wf (st : EngSt) (c : Nat) (it : SyncIter) (hwf : EngWF st) :
    EngWF { st with
      cells := Function.update st.cells c { st.cells c with syncIter := it } } := by
  obtain ⟨W1, W2, W3, W4, W5, W6⟩ := hwf
  refine ⟨W1, W2, W3, ?_, W5, W6⟩
  intro c0
  dsimp only
  by_cases hc0 : c0 = c
  · subst hc0
    rw [Function.update_same]
    exact W4 _
  · rw [Function.update_noteq hc0]
    exact W4 c0

theorem set_dirty_wf (st : EngSt) (c : Nat) (v : Int) (hwf : EngWF st) :
    EngWF { st with
      cells := Function.update st.cells c { st.cells c with dirty := v } } := by
  obtain ⟨W1, W2, W3, W4, W5, W6⟩ := hwf
  refine ⟨W1, W2, W3, ?_, W5, W6⟩
  intro c0
  dsimp only
  by_cases hc0 : c0 = c
  · subst hc0
    rw [Function.update_same]
    exact W4 _
  · rw [Function.update_noteq hc0]
    exact W4 c0

theorem set_value_wf (st : EngSt) (c : Nat) (v : Int) (hwf : EngWF st) :
    EngWF { st with
      cells := Function.update st.cells c { st.cells c with value := v } } := by
  obtain ⟨W1, W2, W3, W4, W5, W6⟩ := hwf
  refine ⟨W1, W2, W3, ?_, W5, W6⟩
  intro c0
  dsimp only
  by_cases hc0 : c0 = c
  · subst hc0
    rw [Function.update_same]
    exact W4 _
  · rw [Function.update_noteq hc0]
    exact W4 c0

theorem setSyncStamp_wf (st : EngSt) (c idx : Nat) (hwf : EngWF st) :
    EngWF (setSyncStamp st c idx)
    ∧ (setSyncStamp st c idx).trace = st.trace
    ∧ (setSyncStamp st c idx).epoch = st.epoch := by
  unfold setSyncStamp
  split
  · exact ⟨hwf, rfl, rfl⟩
  · rename_i L hL
    obtain ⟨W1, W2, W3, W4, W5, W6⟩ := hwf
    refine ⟨⟨W1, W2, W3, ?_, W5, W6⟩, rfl, rfl⟩
    intro c0
    dsimp only
    by_cases hc0 : c0 = c
    · subst hc0
      rw [Function.update_same]
      dsimp only
      rw [List.map_append,
        map_sub_set_stamp (st.cells c0).sync idx L
          (setDirty ((st.subsF L.sub).calls) true) hL,
        ← List.map_append]
      exact W4 c0
    · rw [Function.update_noteq hc0]
      exact W4 c0

theorem markLoop_wf (c sl : Nat) :
    ∀ (fuel i : Nat) (st : EngSt), EngWF st →
      EngWF (markLoop c sl fuel i st)
      ∧ (markLoop c sl fuel i st).trace = st.trace
      ∧ (markLoop c sl fuel i st).epoch = st.epoch := by
  intro fuel
  induction fuel with
  | zero => intro i st hwf; exact ⟨hwf, rfl, rfl⟩
  | succ n ih =>
    intro i st hwf
    simp only [markLoop]
    split
    · obtain ⟨A, B, C⟩ := setSyncStamp_wf st c i hwf
      obtain ⟨A2, B2, C2⟩ := ih (i + 1) _ A
      exact ⟨A2, B2.trans B, C2.trans C⟩
    · exact ⟨hwf, rfl, rfl⟩

/-- The residual sync loop preserves wellformedness and never repeats a
trace pair: every link it may still visit has no entry at the current
epoch, and each dispatch retires its link index. -/
theorem syncLoopE_ok (c : Nat) :
    ∀ (fuel : Nat) (st : EngSt),
      EngWF st → st.trace.Nodup →
      (∀ (j : Nat) (L' : EngLink), ((st.cells c).syncIter.i ≤ (j : Int)) →
        (st.cells c).sync.get? j = some L' → (st.epoch, L'.sub) ∉ st.trace) →
      EngWF (syncLoopE c fuel st) ∧ (syncLoopE c fuel st).trace.Nodup
      ∧ (syncLoopE c fuel st).epoch = st.epoch := by
  intro fuel
  induction fuel with
  | zero => intro st hwf hnd _; exact ⟨hwf, hnd, rfl⟩
  | succ n ih =>
    intro st hwf hnd K3
    simp only [syncLoopE]
    split
    · split
      · split
        · exact ⟨hwf, hnd, rfl⟩
        · rename_i hpos x L hL
          have hisync : ((st.cells c).syncIter.i.toNat : Int)
              = (st.cells c).syncIter.i := Int.toNat_of_nonneg hpos
          have hfresh : (st.epoch, L.sub) ∉ st.trace :=
            K3 (st.cells c).syncIter.i.toNat L (by rw [hisync]) hL
          have hsyncnd : ((st.cells c).sync.map EngLink.sub).Nodup := by
            have h2 := hwf.2.2.2.1 c
            rw [List.map_append] at h2
            exact (List.nodup_append.mp h2).1
          by_cases hd : isDirty L.stamp ((st.subsF L.sub).calls) = true
          · rw [if_pos hd]
            obtain ⟨F1, F2, F3, F4, F5, F6, F7⟩ := subCall_none_ok st L.sub hwf
            have hwf1 : EngWF (subCall st L.sub none) := by
              refine ⟨F1, F2, F3, ?_, ?_, ?_⟩
              · intro c0
                rw [F4]
                exact hwf.2.2.2.1 c0
              · intro q0
                rw [F5]
                exact hwf.2.2.2.2.1 q0
              · intro p hp
                rw [F6] at hp
                rw [F7]
                rcases List.mem_append.mp hp with h | h
                · exact hwf.2.2.2.2.2 p h
                · have he : p = (st.epoch, L.sub) := by simpa using h
                  rw [he]
            have hnd1 : (subCall st L.sub none).trace.Nodup := by
              rw [F6]
              refine List.nodup_append.mpr ⟨hnd, by simp, ?_⟩
              intro a ha hb
              have he : a = (st.epoch, L.sub) := by simpa using hb
              rw [he] at ha
              exact hfresh ha
            have hwf2 := set_syncIter_wf (subCall st L.sub none) c
              ⟨((subCall st L.sub none).cells c).syncIter.i + 1,
                ((subCall st L.sub none).cells c).syncIter.stop⟩ hwf1
            have hcc : (({ subCall st L.sub none with
                cells := Function.update (subCall st L.sub none).cells c
                  { (subCall st L.sub none).cells c with
                    syncIter := ⟨((subCall st L.sub none).cells c).syncIter.i + 1,
                      ((subCall st L.sub none).cells c).syncIter.stop⟩ } } : EngSt).cells) c
                = { (subCall st L.sub none).cells c with
                    syncIter := ⟨((subCall st L.sub none).cells c).syncIter.i + 1,
                      ((subCall st L.sub none).cells c).syncIter.stop⟩ } := by
              dsimp only
              rw [Function.update_same]
            obtain ⟨A, B, C⟩ := ih
              ({ subCall st L.sub none with
                cells := Function.update (subCall st L.sub none).cells c
                  { (subCall st L.sub none).cells c with
                    syncIter := ⟨((subCall st L.sub none).cells c).syncIter.i + 1,
                      ((subCall st L.sub none).cells c).syncIter.stop⟩ } } : EngSt)
              hwf2 hnd1 (by
                intro j L' hj hg
                rw [hcc] at hj hg
                have hcells : (subCall st L.sub none).cells c = st.cells c := by
                  rw [F4]
                rw [hcells] at hj hg
                dsimp only at hj hg
                rw [F6, F7]
                intro hmem2
                rcases List.mem_append.mp hmem2 with h | h
                · exact K3 j L' (by omega) hg h
                · have he : L'.sub = L.sub := by
                    have h2 : (st.epoch, L'.sub) = (st.epoch, L.sub) := by simpa using h
                    exact ((Prod.mk.injEq _ _ _ _).mp h2).2
                  have hjne : j ≠ (st.cells c).syncIter.i.toNat := by omega
                  exact map_nodup_get?_ne (st.cells c).sync j
                    (st.cells c).syncIter.i.toNat L' L hsyncnd hg hL hjne he)
            exact ⟨A, B, C.trans F7⟩
          · rw [if_neg hd]
            have hwf2 := set_syncIter_wf st c
              ⟨(st.cells c).syncIter.i + 1, (st.cells c).syncIter.stop⟩ hwf
            have hcc : (({ st with
                cells := Function.update st.cells c
                  { st.cells c with
                    syncIter := ⟨(st.cells c).syncIter.i + 1,
                      (st.cells c).syncIter.stop⟩ } } : EngSt).cells) c
                = { st.cells c with
                    syncIter := ⟨(st.cells c).syncIter.i + 1,
                      (st.cells c).syncIter.stop⟩ } := by
              dsimp only
              rw [Function.update_same]
            obtain ⟨A, B, C⟩ := ih
              ({ st with
                cells := Function.update st.cells c
                  { st.cells c with
                    syncIter := ⟨(st.cells c).syncIter.i + 1,
                      (st.cells c).syncIter.stop⟩ } } : EngSt)
              hwf2 hnd (by
                intro j L' hj hg
                rw [hcc] at hj hg
                dsimp only at hj hg
                exact K3 j L' (by omega) hg)
            exact ⟨A, B, C⟩
      · exact ⟨hwf, hnd, rfl⟩
    · exact ⟨hwf, hnd, rfl⟩

theorem engCalled_wf (st : EngSt) (hwf : EngWF st) : EngWF (engCalled st) := by
  obtain ⟨W1, W2, W3, W4, W5, W6⟩ := hwf
  refine ⟨W1, W2, W3, W4, W5, ?_⟩
  intro p hp
  have h2 := W6 p hp
  have he : (engCalled st).epoch = st.epoch + 1 := rfl
  omega

theorem subCall_none_wf (st : EngSt) (s : Nat) (hwf : EngWF st)
    (hnd : st.trace.Nodup) (hfresh : (st.epoch, s) ∉ st.trace) :
    EngWF (subCall st s none) ∧ (subCall st s none).trace.Nodup := by
  obtain ⟨F1, F2, F3, F4, F5, F6, F7⟩ := subCall_none_ok st s hwf
  refine ⟨⟨F1, F2, F3, ?_, ?_, ?_⟩, ?_⟩
  · intro c0
    rw [F4]
    exact hwf.2.2.2.1 c0
  · intro q0
    rw [F5]
    exact hwf.2.2.2.2.1 q0
  · intro p hp
    rw [F6] at hp
    rw [F7]
    rcases List.mem_append.mp hp with h | h
    · exact hwf.2.2.2.2.2 p h
    · have he : p = (st.epoch, s) := by simpa using h
      rw [he]
  · rw [F6]
    refine List.nodup_append.mpr ⟨hnd, by simp, ?_⟩
    intro a ha hb
    have he : a = (st.epoch, s) := by simpa using hb
    rw [he] at ha
    exact hfresh ha

/-- Dispatching sync[0] in a state whose epoch is fresh keeps the trace
free of repeats, and every later sync link still has no entry. -/
theorem syncCall0_ok (st : EngSt) (c : Nat)
    (hwf : EngWF st) (hnd : st.trace.Nodup)
    (hfresh : ∀ s', (st.epoch, s') ∉ st.trace) :
    EngWF (syncCall0 st c) ∧ (syncCall0 st c).trace.Nodup
    ∧ (syncCall0 st c).epoch = st.epoch
    ∧ (syncCall0 st c).cells = st.cells
    ∧ (∀ (j : Nat) (L' : EngLink), 1 ≤ j →
        (st.cells c).sync.get? j = some L' →
        (st.epoch, L'.sub) ∉ (syncCall0 st c).trace) := by
  unfold syncCall0
  split
  · exact ⟨hwf, hnd, rfl, rfl, fun j L' _ _ => hfresh L'.sub⟩
  · rename_i L0 hL0
    obtain ⟨F1, F2, F3, F4, F5, F6, F7⟩ := subCall_none_ok st L0.sub hwf
    obtain ⟨hwfA, hndA⟩ := subCall_none_wf st L0.sub hwf hnd (hfresh L0.sub)
    have hsyncnd : ((st.cells c).sync.map EngLink.sub).Nodup := by
      have h2 := hwf.2.2.2.1 c
      rw [List.map_append] at h2
      exact (List.nodup_append.mp h2).1
    refine ⟨hwfA, hndA, F7, F4, ?_⟩
    intro j L' hj hg
    rw [F6]
    intro hmem2
    rcases List.mem_append.mp hmem2 with h | h
    · exact hfresh L'.sub h
    · have he : L'.sub = L0.sub := by
        have h2 : (st.epoch, L'.sub) = (st.epoch, L0.sub) := by simpa using h
        exact ((Prod.mk.injEq _ _ _ _).mp h2).2
      exact map_nodup_get?_ne (st.cells c).sync j 0 L' L0 hsyncnd hg hL0
        (by omega) he

/-- Reactive.notify preserves wellformedness and the no-repeat trace. -/
theorem reactiveNotify_ok (c : Nat) (st : EngSt)
    (hwf : EngWF st) (hnd : st.trace.Nodup) :
    EngWF (reactiveNotify st c) ∧ (reactiveNotify st c).trace.Nodup
    ∧ st.epoch ≤ (reactiveNotify st c).epoch := by
  have main : ∀ stx : EngSt, EngWF stx → stx.trace.Nodup → st.epoch ≤ stx.epoch →
      EngWF (
        if (stx.cells c).sync.length = 0 then stx
        else
          let st2 := engCalled stx
          let st3 :=
            if 1 < (stx.cells c).sync.length then
              let stM := markLoop c (stx.cells c).sync.length
                ((stx.cells c).sync.length + 1) 1 st2
              { stM with
                cells := Function.update stM.cells c
                  { stM.cells c with
                    syncIter := SyncIter.resetTo 1 (stx.cells c).sync.length } }
            else st2
          let st4 := syncCall0 st3 c
          if 1 < (stx.cells c).sync.length then
            let st5 := syncLoopE c ((stx.cells c).sync.length + 1) st4
            { st5 with
              cells := Function.update st5.cells c
                { st5.cells c with syncIter := SyncIter.reset } }
          else st4)
      ∧ (
        if (stx.cells c).sync.length = 0 then stx
        else
          let st2 := engCalled stx
          let st3 :=
            if 1 < (stx.cells c).sync.length then
              let stM := markLoop c (stx.cells c).sync.length
                ((stx.cells c).sync.length + 1) 1 st2
              { stM with
                cells := Function.update stM.cells c
                  { stM.cells c with
                    syncIter := SyncIter.resetTo 1 (stx.cells c).sync.length } }
            else st2
          let st4 := syncCall0 st3 c
          if 1 < (stx.cells c).sync.length then
            let st5 := syncLoopE c ((stx.cells c).sync.length + 1) st4
            { st5 with
              cells := Function.update st5.cells c
                { st5.cells c with syncIter := SyncIter.reset } }
          else st4).trace.Nodup
      ∧ st.epoch ≤ (
        if (stx.cells c).sync.length = 0 then stx
        else
          let st2 := engCalled stx
          let st3 :=
            if 1 < (stx.cells c).sync.length then
              let stM := markLoop c (stx.cells c).sync.length
                ((stx.cells c).sync.length + 1) 1 st2
              { stM with
                cells := Function.update stM.cells c
                  { stM.cells c with
                    syncIter := SyncIter.resetTo 1 (stx.cells c).sync.length } }
            else st2
          let st4 := syncCall0 st3 c
          if 1 < (stx.cells c).sync.length then
            let st5 := syncLoopE c ((stx.cells c).sync.length + 1) st4
            { st5 with
              cells := Function.update st5.cells c
                { st5.cells c with syncIter := SyncIter.reset } }
          else st4).epoch := by
    intro stx hwfx hndx hex
    dsimp only
    have hwf2 : EngWF (engCalled stx) := engCalled_wf stx hwfx
    have hfresh2 : ∀ s', ((engCalled stx).epoch, s') ∉ (engCalled stx).trace := by
      intro s' hmem
      have h2 := hwfx.2.2.2.2.2 ((engCalled stx).epoch, s') hmem
      simp only at h2
      have he : (engCalled stx).epoch = stx.epoch + 1 := rfl
      omega
    split
    · exact ⟨hwfx, hndx, hex⟩
    · split
      · rename_i hsl
        obtain ⟨hwfM, htM, heM⟩ := markLoop_wf c (stx.cells c).sync.length
          ((stx.cells c).sync.length + 1) 1 (engCalled stx) hwf2
        have hwf3 := set_syncIter_wf
          (markLoop c (stx.cells c).sync.length
            ((stx.cells c).sync.length + 1) 1 (engCalled stx)) c
          (SyncIter.resetTo 1 (stx.cells c).sync.length) hwfM
        have hep3 : ({ markLoop c (stx.cells c).sync.length
              ((stx.cells c).sync.length + 1) 1 (engCalled stx) with
            cells := Function.update (markLoop c (stx.cells c).sync.length
                ((stx.cells c).sync.length + 1) 1 (engCalled stx)).cells c
              { (markLoop c (stx.cells c).sync.length
                  ((stx.cells c).sync.length + 1) 1 (engCalled stx)).cells c with
                syncIter := SyncIter.resetTo 1 (stx.cells c).sync.length } } : EngSt).epoch
            = (engCalled stx).epoch := heM
        have htr3 : ({ markLoop c (stx.cells c).sync.length
              ((stx.cells c).sync.length + 1) 1 (engCalled stx) with
            cells := Function.update (markLoop c (stx.cells c).sync.length
                ((stx.cells c).sync.length + 1) 1 (engCalled stx)).cells c
              { (markLoop c (stx.cells c).sync.length
                  ((stx.cells c).sync.length + 1) 1 (engCalled stx)).cells c with
                syncIter := SyncIter.resetTo 1 (stx.cells c).sync.length } } : EngSt).trace
            = (engCalled stx).trace := htM
        have hnd3 : ({ markLoop c (stx.cells c).sync.length
              ((stx.cells c).sync.length + 1) 1 (engCalled stx) with
            cells := Function.update (markLoop c (stx.cells c).sync.length
                ((stx.cells c).sync.length + 1) 1 (engCalled stx)).cells c
              { (markLoop c (stx.cells c).sync.length
                  ((stx.cells c).sync.length + 1) 1 (engCalled stx)).cells c with
                syncIter := SyncIter.resetTo 1 (stx.cells c).sync.length } } : EngSt).trace.Nodup := by
          rw [htr3]
          exact hndx
        have hfresh3 : ∀ s',
            (({ markLoop c (stx.cells c).sync.length
                  ((stx.cells c).sync.length + 1) 1 (engCalled stx) with
                cells := Function.update (markLoop c (stx.cells c).sync.length
                    ((stx.cells c).sync.length + 1) 1 (engCalled stx)).cells c
                  { (markLoop c (stx.cells c).sync.length
                      ((stx.cells c).sync.length + 1) 1 (engCalled stx)).cells c with
                    syncIter := SyncIter.resetTo 1 (stx.cells c).sync.length } } : EngSt).epoch, s')
            ∉ ({ markLoop c (stx.cells c).sync.length
                  ((stx.cells c).sync.length + 1) 1 (engCalled stx) with
                cells := Function.update (markLoop c (stx.cells c).sync.length
                    ((stx.cells c).sync.length + 1) 1 (engCalled stx)).cells c
                  { (markLoop c (stx.cells c).sync.length
                      ((stx.cells c).sync.length + 1) 1 (engCalled stx)).cells c with
                    syncIter := SyncIter.resetTo 1 (stx.cells c).sync.length } } : EngSt).trace := by
          intro s'
          rw [hep3, htr3]
          exact hfresh2 s'
        obtain ⟨hwf4, hnd4, hep4, hcell4, hK4⟩ := syncCall0_ok
          ({ markLoop c (stx.cells c).sync.length
              ((stx.cells c).sync.length + 1) 1 (engCalled stx) with
            cells := Function.update (markLoop c (stx.cells c).sync.length
                ((stx.cells c).sync.length + 1) 1 (engCalled stx)).cells c
              { (markLoop c (stx.cells c).sync.length
                  ((stx.cells c).sync.length + 1) 1 (engCalled stx)).cells c with
                syncIter := SyncIter.resetTo 1 (stx.cells c).sync.length } } : EngSt)
          c hwf3 hnd3 hfresh3
        have hcc3 : (({ markLoop c (stx.cells c).sync.length
              ((stx.cells c).sync.length + 1) 1 (engCalled stx) with
            cells := Function.update (markLoop c (stx.cells c).sync.length
                ((stx.cells c).sync.length + 1) 1 (engCalled stx)).cells c
              { (markLoop c (stx.cells c).sync.length
                  ((stx.cells c).sync.length + 1) 1 (engCalled stx)).cells c with
                syncIter := SyncIter.resetTo 1 (stx.cells c).sync.length } } : EngSt).cells) c
            = { (markLoop c (stx.cells c).sync.length
                  ((stx.cells c).sync.length + 1) 1 (engCalled stx)).cells c with
                syncIter := SyncIter.resetTo 1 (stx.cells c).sync.length } := by
          dsimp only
          rw [Function.update_same]
        obtain ⟨A, B, C⟩ := syncLoopE_ok c ((stx.cells c).sync.length + 1)
          (syncCall0
            ({ markLoop c (stx.cells c).sync.length
                ((stx.cells c).sync.length + 1) 1 (engCalled stx) with
              cells := Function.update (markLoop c (stx.cells c).sync.length
                  ((stx.cells c).sync.length + 1) 1 (engCalled stx)).cells c
                { (markLoop c (stx.cells c).sync.length
                    ((stx.cells c).sync.length + 1) 1 (engCalled stx)).cells c with
                  syncIter := SyncIter.resetTo 1 (stx.cells c).sync.length } } : EngSt) c)
          hwf4 hnd4 (by
            intro j L' hj hg
            rw [hcell4] at hj hg
            rw [hcc3] at hj
            dsimp only at hj
            have hj2 : 1 ≤ j := by
              have hres : (SyncIter.resetTo 1 ((stx.cells c).sync.length : Int)).i
                  = 1 := rfl
              rw [hres] at hj
              exact_mod_cast hj
            rw [hep4]
            exact hK4 j L' hj2 hg)
        refine ⟨set_syncIter_wf _ c SyncIter.reset A, B, ?_⟩
        show st.epoch ≤ (syncLoopE c ((stx.cells c).sync.length + 1)
          (syncCall0
            ({ markLoop c (stx.cells c).sync.length
                ((stx.cells c).sync.length + 1) 1 (engCalled stx) with
              cells := Function.update (markLoop c (stx.cells c).sync.length
                  ((stx.cells c).sync.length + 1) 1 (engCalled stx)).cells c
                { (markLoop c (stx.cells c).sync.length
                    ((stx.cells c).sync.length + 1) 1 (engCalled stx)).cells c with
                  syncIter := SyncIter.resetTo 1 (stx.cells c).sync.length } } : EngSt) c)).epoch
        have e4 : (engCalled stx).epoch = stx.epoch + 1 := rfl
        omega
      · rename_i hsl
        obtain ⟨hwf4, hnd4, hep4, hcell4, hK4⟩ := syncCall0_ok (engCalled stx) c
          hwf2 hndx hfresh2
        refine ⟨hwf4, hnd4, ?_⟩
        show st.epoch ≤ (syncCall0 (engCalled stx) c).epoch
        have e4 : (engCalled stx).epoch = stx.epoch + 1 := rfl
        omega
  unfold reactiveNotify
  by_cases hcond : (st.cells c).async.length ≠ 0 ∧ (st.cells c).dirty ≠ st.calls
  · rw [if_pos hcond]
    have hwfd := set_dirty_wf st c st.calls hwf
    obtain ⟨A, B, C⟩ := asyncLoop_ok c ((st.cells c).async.length + 1) 0
      { st with cells :=
          Function.update st.cells c { st.cells c with dirty := st.calls } }
      hwfd hnd
    exact main _ A B C
  · rw [if_neg hcond]
    exact main st hwf hnd (le_refl _)

theorem reactiveSet_ok (c : Nat) (st : EngSt) (v : Int)
    (hwf : EngWF st) (hnd : st.trace.Nodup) :
    EngWF (reactiveSet st c v) ∧ (reactiveSet st c v).trace.Nodup
    ∧ st.epoch ≤ (reactiveSet st c v).epoch := by
  unfold reactiveSet
  have hwfv := set_value_wf st c v hwf
  obtain ⟨A, B, C⟩ := reactiveNotify_ok c
    { st with cells :=
        Function.update st.cells c { st.cells c with value := v } }
    hwfv hnd
  exact ⟨A, B, C⟩

theorem engStep_ok (st : EngSt) (op : EngOp)
    (hwf : EngWF st) (hnd : st.trace.Nodup) :
    EngWF (engStep st op) ∧ (engStep st op).trace.Nodup := by
  cases op with
  | set c v =>
    obtain ⟨A, B, _⟩ := reactiveSet_ok c st v hwf hnd
    exact ⟨A, B⟩
  | drain q =>
    obtain ⟨A, B, _, _⟩ := engNotifyQ_ok st q hwf hnd
    exact ⟨A, B⟩

theorem engRun_ok :
    ∀ (ops : List EngOp) (st : EngSt), EngWF st → st.trace.Nodup →
      EngWF (engRun st ops) ∧ (engRun st ops).trace.Nodup := by
  intro ops
  induction ops with
  | nil => intro st hwf hnd; exact ⟨hwf, hnd⟩
  | cons op rest ih =>
    intro st hwf hnd
    obtain ⟨A, B⟩ := engStep_ok st op hwf hnd
    exact ih (engStep st op) A B

/-- C1: within a single flush boundary (one value of the ghost epoch
counter, bumped exactly at each Queue.called) every subscriber's callback
runs at most once, over any sequence of mutations and queue drains from a
wellformed state: the sync loop only calls still-dirty links,
Subscriber.enqueue returns without re-enqueueing when the link is already
dirty, and Subscriber.call dequeues the subscriber from every other queue
before the callback, so no (epoch, subscriber) pair is ever recorded
twice. -/
theorem count_pair_eq_decide (p : Nat × Nat) :
    ∀ l : List (Nat × Nat),
      l.count p = @List.count _ instBEqOfDecidableEq p l := by
  intro l
  induction l with
  | nil => rfl
  | cons a tl ih =>
    rw [List.count_cons, @List.count_cons _ instBEqOfDecidableEq, ih]
    by_cases h : a = p
    · simp [h, instBEqOfDecidableEq]
    · simp [h, instBEqOfDecidableEq]

theorem at_most_once_per_epoch (st : EngSt) (ops : List EngOp)
    (hwf : EngWF st) (hnd : st.trace.Nodup) :
    ∀ e s, ((engRun st ops).trace).count (e, s) ≤ 1 := by
  intro e s
  rw [count_pair_eq_decide]
  exact List.nodup_iff_count_le_one.mp (engRun_ok ops st hwf hnd).2 (e, s)

/-- Cell 0 with a sync subscriber 1 and an async subscriber 2 on queue 4. -/
def engC1 : EngSt :=
  { calls := 0
    epoch := 0
    cells := fun k =>
      if k = 0 then
        { value := 0, dirty := -1, sync := [⟨1, -1, none⟩]
          async := [⟨2, -1, some 4⟩], syncIter := SyncIter.reset }
      else
        { value := 0, dirty := -1, sync := [], async := [], syncIter := SyncIter.reset }
    subsF := fun _ => { calls := 0, queued := [] }
    queues := fun _ =>
      { subs := [], queuedN := 0, sid := none, schedulable := true
        cancellable := false, notifying := false, rank := 0 }
    trace := [] }

theorem engC1_wf : EngWF engC1 := by
  refine ⟨?_, ?_, ?_, ?_, ?_, ?_⟩
  · intro q
    simp [engC1]
  · intro q s
    simp [engC1]
  · intro s
    simp [engC1]
  · intro c0
    by_cases hc : c0 = 0 <;> simp [engC1, hc]
  · intro q
    simp [engC1]
  · intro p hp
    simp [engC1] at hp

/-- Witness for at_most_once_per_epoch: a mutation of cell 0 (one sync and
one async subscriber) followed by the queue-4 drain. -/
theorem at_most_once_per_epoch_witness :
    EngWF engC1 ∧ engC1.trace.Nodup
    ∧ (∀ e s, ((engRun engC1 [EngOp.set 0 5, EngOp.drain 4]).trace).count (e, s) ≤ 1) :=
  ⟨engC1_wf, List.nodup_nil,
   at_most_once_per_epoch engC1 [EngOp.set 0 5, EngOp.drain 4] engC1_wf List.nodup_nil⟩

end Moth
